import Mathlib

/-!
# cucumber json-formatter: the stream reducer and the step classifier

A shallow embedding of `json.go`, `json_elements.go` and `test_case.go`.

* Go strings are Lean strings, Go slices are lists, Go maps keyed by a string
  are functions `String → Option α` (reading a missing key gives `none`, the
  `ok = false` of Go).
* Pointers into the output tree are explicit: a `*jsonFeature` is the position
  of the feature in `Formatter.jsonFeatures` (every feature is appended there
  in the statement that follows its allocation), a `*jsonStep` is a position in
  the step store `Formatter.jsonSteps`, so the in-place mutation of a step
  through `jsonStepsByPickleStepId` is an indexed update seen by the element
  that holds the same pointer.
* A nil dereference or an index out of range is the result `Fault.panic`.
-/

namespace JsonFormatter

/-! ## Go runtime pieces -/

/-- A Go `map[string]V`. -/
abbrev GoMap (V : Type) : Type := String → Option V

/-- The map made by `make(map[string]V)`. -/
def GoMap.empty {V : Type} : GoMap V := fun _ => none

/-- The assignment `m[k] = v`. -/
def GoMap.set {V : Type} (m : GoMap V) (k : String) (v : V) : GoMap V :=
  fun k' => if k' = k then some v else m k'

/-- How a run of Go code ends when it does not return normally: a run-time
panic (nil dereference, index out of range), or an `error` value returned to
the caller. -/
inductive Fault where
  | panic : Fault
  | err : String → Fault
  deriving DecidableEq, Repr

/-- The indexing `xs[0]` of a slice: a panic on the empty slice. -/
def index0 {α : Type} (xs : List α) : Except Fault α :=
  match xs with
  | [] => .error .panic
  | x :: _ => .ok x

/-- The dereference of a pointer returned by a lookup: a panic on nil. -/
def deref {α : Type} (p : Option α) : Except Fault α :=
  match p with
  | none => .error .panic
  | some a => .ok a

/-- The update `*p = f(*p)` of the cell at position `i` of a store. -/
def updateAt {α : Type} (xs : List α) (i : Nat) (f : α → α) : List α :=
  match xs, i with
  | [], _ => []
  | x :: rest, 0 => f x :: rest
  | x :: rest, n + 1 => x :: updateAt rest n f

/-- The call `strings.Replace(s, old, new, -1)` for one-character `old` and
`new`: every occurrence is replaced. -/
def stringsReplaceChar (s : String) (old new : Char) : String :=
  ⟨s.data.map (fun c => if c = old then new else c)⟩

/-- One range of a case table of Go's package `unicode`: the runes `lo`,
`lo + stride`, ... up to `hi`; the lower-case form of a rune `n` of the range is
`n + up - down`. -/
structure CaseRange where
  lo : Nat
  hi : Nat
  stride : Nat
  up : Nat
  down : Nat

/-- Whether the rune `n` is one of the runes of the range. -/
def CaseRange.contains (r : CaseRange) (n : Nat) : Bool :=
  Nat.ble r.lo n && Nat.ble n r.hi && (n - r.lo) % r.stride == 0

/-- The table behind `unicode.ToLower` for the runes above ASCII. Go's library
is not part of the repository; the table holds the simple lower-case mappings
of the Unicode Character Database (version 14.0.0), which the package `unicode`
tabulates in `CaseRanges`. -/
def lowerRanges : List CaseRange :=
  [
   CaseRange.mk 192 214 1 32 0, CaseRange.mk 216 222 1 32 0, CaseRange.mk 256 302 2 1 0,
   CaseRange.mk 304 304 1 0 199, CaseRange.mk 306 310 2 1 0, CaseRange.mk 313 327 2 1 0,
   CaseRange.mk 330 374 2 1 0, CaseRange.mk 376 376 1 0 121, CaseRange.mk 377 381 2 1 0,
   CaseRange.mk 385 385 1 210 0, CaseRange.mk 386 388 2 1 0, CaseRange.mk 390 390 1 206 0,
   CaseRange.mk 391 391 1 1 0, CaseRange.mk 393 394 1 205 0, CaseRange.mk 395 395 1 1 0,
   CaseRange.mk 398 398 1 79 0, CaseRange.mk 399 399 1 202 0, CaseRange.mk 400 400 1 203 0,
   CaseRange.mk 401 401 1 1 0, CaseRange.mk 403 403 1 205 0, CaseRange.mk 404 404 1 207 0,
   CaseRange.mk 406 406 1 211 0, CaseRange.mk 407 407 1 209 0, CaseRange.mk 408 408 1 1 0,
   CaseRange.mk 412 412 1 211 0, CaseRange.mk 413 413 1 213 0, CaseRange.mk 415 415 1 214 0,
   CaseRange.mk 416 420 2 1 0, CaseRange.mk 422 422 1 218 0, CaseRange.mk 423 423 1 1 0,
   CaseRange.mk 425 425 1 218 0, CaseRange.mk 428 428 1 1 0, CaseRange.mk 430 430 1 218 0,
   CaseRange.mk 431 431 1 1 0, CaseRange.mk 433 434 1 217 0, CaseRange.mk 435 437 2 1 0,
   CaseRange.mk 439 439 1 219 0, CaseRange.mk 440 440 1 1 0, CaseRange.mk 444 444 1 1 0,
   CaseRange.mk 452 452 1 2 0, CaseRange.mk 453 453 1 1 0, CaseRange.mk 455 455 1 2 0,
   CaseRange.mk 456 456 1 1 0, CaseRange.mk 458 458 1 2 0, CaseRange.mk 459 475 2 1 0,
   CaseRange.mk 478 494 2 1 0, CaseRange.mk 497 497 1 2 0, CaseRange.mk 498 500 2 1 0,
   CaseRange.mk 502 502 1 0 97, CaseRange.mk 503 503 1 0 56, CaseRange.mk 504 542 2 1 0,
   CaseRange.mk 544 544 1 0 130, CaseRange.mk 546 562 2 1 0, CaseRange.mk 570 570 1 10795 0,
   CaseRange.mk 571 571 1 1 0, CaseRange.mk 573 573 1 0 163, CaseRange.mk 574 574 1 10792 0,
   CaseRange.mk 577 577 1 1 0, CaseRange.mk 579 579 1 0 195, CaseRange.mk 580 580 1 69 0,
   CaseRange.mk 581 581 1 71 0, CaseRange.mk 582 590 2 1 0, CaseRange.mk 880 882 2 1 0,
   CaseRange.mk 886 886 1 1 0, CaseRange.mk 895 895 1 116 0, CaseRange.mk 902 902 1 38 0,
   CaseRange.mk 904 906 1 37 0, CaseRange.mk 908 908 1 64 0, CaseRange.mk 910 911 1 63 0,
   CaseRange.mk 913 929 1 32 0, CaseRange.mk 931 939 1 32 0, CaseRange.mk 975 975 1 8 0,
   CaseRange.mk 984 1006 2 1 0, CaseRange.mk 1012 1012 1 0 60, CaseRange.mk 1015 1015 1 1 0,
   CaseRange.mk 1017 1017 1 0 7, CaseRange.mk 1018 1018 1 1 0, CaseRange.mk 1021 1023 1 0 130,
   CaseRange.mk 1024 1039 1 80 0, CaseRange.mk 1040 1071 1 32 0, CaseRange.mk 1120 1152 2 1 0,
   CaseRange.mk 1162 1214 2 1 0, CaseRange.mk 1216 1216 1 15 0, CaseRange.mk 1217 1229 2 1 0,
   CaseRange.mk 1232 1326 2 1 0, CaseRange.mk 1329 1366 1 48 0, CaseRange.mk 4256 4293 1 7264 0,
   CaseRange.mk 4295 4295 1 7264 0, CaseRange.mk 4301 4301 1 7264 0, CaseRange.mk 5024 5103 1 38864 0,
   CaseRange.mk 5104 5109 1 8 0, CaseRange.mk 7312 7354 1 0 3008, CaseRange.mk 7357 7359 1 0 3008,
   CaseRange.mk 7680 7828 2 1 0, CaseRange.mk 7838 7838 1 0 7615, CaseRange.mk 7840 7934 2 1 0,
   CaseRange.mk 7944 7951 1 0 8, CaseRange.mk 7960 7965 1 0 8, CaseRange.mk 7976 7983 1 0 8,
   CaseRange.mk 7992 7999 1 0 8, CaseRange.mk 8008 8013 1 0 8, CaseRange.mk 8025 8031 2 0 8,
   CaseRange.mk 8040 8047 1 0 8, CaseRange.mk 8072 8079 1 0 8, CaseRange.mk 8088 8095 1 0 8,
   CaseRange.mk 8104 8111 1 0 8, CaseRange.mk 8120 8121 1 0 8, CaseRange.mk 8122 8123 1 0 74,
   CaseRange.mk 8124 8124 1 0 9, CaseRange.mk 8136 8139 1 0 86, CaseRange.mk 8140 8140 1 0 9,
   CaseRange.mk 8152 8153 1 0 8, CaseRange.mk 8154 8155 1 0 100, CaseRange.mk 8168 8169 1 0 8,
   CaseRange.mk 8170 8171 1 0 112, CaseRange.mk 8172 8172 1 0 7, CaseRange.mk 8184 8185 1 0 128,
   CaseRange.mk 8186 8187 1 0 126, CaseRange.mk 8188 8188 1 0 9, CaseRange.mk 8486 8486 1 0 7517,
   CaseRange.mk 8490 8490 1 0 8383, CaseRange.mk 8491 8491 1 0 8262, CaseRange.mk 8498 8498 1 28 0,
   CaseRange.mk 8544 8559 1 16 0, CaseRange.mk 8579 8579 1 1 0, CaseRange.mk 9398 9423 1 26 0,
   CaseRange.mk 11264 11311 1 48 0, CaseRange.mk 11360 11360 1 1 0, CaseRange.mk 11362 11362 1 0 10743,
   CaseRange.mk 11363 11363 1 0 3814, CaseRange.mk 11364 11364 1 0 10727, CaseRange.mk 11367 11371 2 1 0,
   CaseRange.mk 11373 11373 1 0 10780, CaseRange.mk 11374 11374 1 0 10749, CaseRange.mk 11375 11375 1 0 10783,
   CaseRange.mk 11376 11376 1 0 10782, CaseRange.mk 11378 11378 1 1 0, CaseRange.mk 11381 11381 1 1 0,
   CaseRange.mk 11390 11391 1 0 10815, CaseRange.mk 11392 11490 2 1 0, CaseRange.mk 11499 11501 2 1 0,
   CaseRange.mk 11506 11506 1 1 0, CaseRange.mk 42560 42604 2 1 0, CaseRange.mk 42624 42650 2 1 0,
   CaseRange.mk 42786 42798 2 1 0, CaseRange.mk 42802 42862 2 1 0, CaseRange.mk 42873 42875 2 1 0,
   CaseRange.mk 42877 42877 1 0 35332, CaseRange.mk 42878 42886 2 1 0, CaseRange.mk 42891 42891 1 1 0,
   CaseRange.mk 42893 42893 1 0 42280, CaseRange.mk 42896 42898 2 1 0, CaseRange.mk 42902 42920 2 1 0,
   CaseRange.mk 42922 42922 1 0 42308, CaseRange.mk 42923 42923 1 0 42319, CaseRange.mk 42924 42924 1 0 42315,
   CaseRange.mk 42925 42925 1 0 42305, CaseRange.mk 42926 42926 1 0 42308, CaseRange.mk 42928 42928 1 0 42258,
   CaseRange.mk 42929 42929 1 0 42282, CaseRange.mk 42930 42930 1 0 42261, CaseRange.mk 42931 42931 1 928 0,
   CaseRange.mk 42932 42946 2 1 0, CaseRange.mk 42948 42948 1 0 48, CaseRange.mk 42949 42949 1 0 42307,
   CaseRange.mk 42950 42950 1 0 35384, CaseRange.mk 42951 42953 2 1 0, CaseRange.mk 42960 42960 1 1 0,
   CaseRange.mk 42966 42968 2 1 0, CaseRange.mk 42997 42997 1 1 0, CaseRange.mk 65313 65338 1 32 0,
   CaseRange.mk 66560 66599 1 40 0, CaseRange.mk 66736 66771 1 40 0, CaseRange.mk 66928 66938 1 39 0,
   CaseRange.mk 66940 66954 1 39 0, CaseRange.mk 66956 66962 1 39 0, CaseRange.mk 66964 66965 1 39 0,
   CaseRange.mk 68736 68786 1 64 0, CaseRange.mk 71840 71871 1 32 0, CaseRange.mk 93760 93791 1 32 0,
   CaseRange.mk 125184 125217 1 34 0
  ]

/-- The function `unicode.ToLower` on the number of a rune: the letters `A`..`Z`
by arithmetic, the runes above ASCII by the table, every other rune itself. -/
def lowerOfNat (n : Nat) : Nat :=
  if n < 128 then
    if 65 ≤ n ∧ n ≤ 90 then n + 32 else n
  else
    match lowerRanges.find? (fun r => r.contains n) with
    | some r => n + r.up - r.down
    | none => n

/-- The function `unicode.ToLower`. -/
def unicodeToLower (c : Char) : Char :=
  Char.ofNat (lowerOfNat c.toNat)

/-- The call `strings.ToLower(s)`: every rune mapped by `unicode.ToLower`. -/
def stringsToLower (s : String) : String :=
  ⟨s.data.map unicodeToLower⟩

/-- The table behind `unicode.IsUpper`: the runes of the category Lu of the
Unicode Character Database (version 14.0.0). -/
def upperRanges : List CaseRange :=
  [
   CaseRange.mk 65 90 1 0 0, CaseRange.mk 192 214 1 0 0, CaseRange.mk 216 222 1 0 0,
   CaseRange.mk 256 310 2 0 0, CaseRange.mk 313 327 2 0 0, CaseRange.mk 330 376 2 0 0,
   CaseRange.mk 377 381 2 0 0, CaseRange.mk 385 386 1 0 0, CaseRange.mk 388 390 2 0 0,
   CaseRange.mk 391 393 2 0 0, CaseRange.mk 394 395 1 0 0, CaseRange.mk 398 401 1 0 0,
   CaseRange.mk 403 404 1 0 0, CaseRange.mk 406 408 1 0 0, CaseRange.mk 412 413 1 0 0,
   CaseRange.mk 415 416 1 0 0, CaseRange.mk 418 422 2 0 0, CaseRange.mk 423 425 2 0 0,
   CaseRange.mk 428 430 2 0 0, CaseRange.mk 431 433 2 0 0, CaseRange.mk 434 435 1 0 0,
   CaseRange.mk 437 439 2 0 0, CaseRange.mk 440 440 1 0 0, CaseRange.mk 444 444 1 0 0,
   CaseRange.mk 452 452 1 0 0, CaseRange.mk 455 455 1 0 0, CaseRange.mk 458 458 1 0 0,
   CaseRange.mk 461 475 2 0 0, CaseRange.mk 478 494 2 0 0, CaseRange.mk 497 497 1 0 0,
   CaseRange.mk 500 502 2 0 0, CaseRange.mk 503 504 1 0 0, CaseRange.mk 506 562 2 0 0,
   CaseRange.mk 570 571 1 0 0, CaseRange.mk 573 574 1 0 0, CaseRange.mk 577 579 2 0 0,
   CaseRange.mk 580 582 1 0 0, CaseRange.mk 584 590 2 0 0, CaseRange.mk 880 882 2 0 0,
   CaseRange.mk 886 886 1 0 0, CaseRange.mk 895 895 1 0 0, CaseRange.mk 902 904 2 0 0,
   CaseRange.mk 905 906 1 0 0, CaseRange.mk 908 910 2 0 0, CaseRange.mk 911 913 2 0 0,
   CaseRange.mk 914 929 1 0 0, CaseRange.mk 931 939 1 0 0, CaseRange.mk 975 975 1 0 0,
   CaseRange.mk 978 980 1 0 0, CaseRange.mk 984 1006 2 0 0, CaseRange.mk 1012 1012 1 0 0,
   CaseRange.mk 1015 1017 2 0 0, CaseRange.mk 1018 1018 1 0 0, CaseRange.mk 1021 1071 1 0 0,
   CaseRange.mk 1120 1152 2 0 0, CaseRange.mk 1162 1216 2 0 0, CaseRange.mk 1217 1229 2 0 0,
   CaseRange.mk 1232 1326 2 0 0, CaseRange.mk 1329 1366 1 0 0, CaseRange.mk 4256 4293 1 0 0,
   CaseRange.mk 4295 4295 1 0 0, CaseRange.mk 4301 4301 1 0 0, CaseRange.mk 5024 5109 1 0 0,
   CaseRange.mk 7312 7354 1 0 0, CaseRange.mk 7357 7359 1 0 0, CaseRange.mk 7680 7828 2 0 0,
   CaseRange.mk 7838 7934 2 0 0, CaseRange.mk 7944 7951 1 0 0, CaseRange.mk 7960 7965 1 0 0,
   CaseRange.mk 7976 7983 1 0 0, CaseRange.mk 7992 7999 1 0 0, CaseRange.mk 8008 8013 1 0 0,
   CaseRange.mk 8025 8031 2 0 0, CaseRange.mk 8040 8047 1 0 0, CaseRange.mk 8120 8123 1 0 0,
   CaseRange.mk 8136 8139 1 0 0, CaseRange.mk 8152 8155 1 0 0, CaseRange.mk 8168 8172 1 0 0,
   CaseRange.mk 8184 8187 1 0 0, CaseRange.mk 8450 8450 1 0 0, CaseRange.mk 8455 8455 1 0 0,
   CaseRange.mk 8459 8461 1 0 0, CaseRange.mk 8464 8466 1 0 0, CaseRange.mk 8469 8469 1 0 0,
   CaseRange.mk 8473 8477 1 0 0, CaseRange.mk 8484 8490 2 0 0, CaseRange.mk 8491 8493 1 0 0,
   CaseRange.mk 8496 8499 1 0 0, CaseRange.mk 8510 8511 1 0 0, CaseRange.mk 8517 8517 1 0 0,
   CaseRange.mk 8579 8579 1 0 0, CaseRange.mk 11264 11311 1 0 0, CaseRange.mk 11360 11362 2 0 0,
   CaseRange.mk 11363 11364 1 0 0, CaseRange.mk 11367 11373 2 0 0, CaseRange.mk 11374 11376 1 0 0,
   CaseRange.mk 11378 11378 1 0 0, CaseRange.mk 11381 11381 1 0 0, CaseRange.mk 11390 11392 1 0 0,
   CaseRange.mk 11394 11490 2 0 0, CaseRange.mk 11499 11501 2 0 0, CaseRange.mk 11506 11506 1 0 0,
   CaseRange.mk 42560 42604 2 0 0, CaseRange.mk 42624 42650 2 0 0, CaseRange.mk 42786 42798 2 0 0,
   CaseRange.mk 42802 42862 2 0 0, CaseRange.mk 42873 42877 2 0 0, CaseRange.mk 42878 42886 2 0 0,
   CaseRange.mk 42891 42893 2 0 0, CaseRange.mk 42896 42898 2 0 0, CaseRange.mk 42902 42922 2 0 0,
   CaseRange.mk 42923 42926 1 0 0, CaseRange.mk 42928 42932 1 0 0, CaseRange.mk 42934 42948 2 0 0,
   CaseRange.mk 42949 42951 1 0 0, CaseRange.mk 42953 42953 1 0 0, CaseRange.mk 42960 42960 1 0 0,
   CaseRange.mk 42966 42968 2 0 0, CaseRange.mk 42997 42997 1 0 0, CaseRange.mk 65313 65338 1 0 0,
   CaseRange.mk 66560 66599 1 0 0, CaseRange.mk 66736 66771 1 0 0, CaseRange.mk 66928 66938 1 0 0,
   CaseRange.mk 66940 66954 1 0 0, CaseRange.mk 66956 66962 1 0 0, CaseRange.mk 66964 66965 1 0 0,
   CaseRange.mk 68736 68786 1 0 0, CaseRange.mk 71840 71871 1 0 0, CaseRange.mk 93760 93791 1 0 0,
   CaseRange.mk 119808 119833 1 0 0, CaseRange.mk 119860 119885 1 0 0, CaseRange.mk 119912 119937 1 0 0,
   CaseRange.mk 119964 119966 2 0 0, CaseRange.mk 119967 119967 1 0 0, CaseRange.mk 119970 119970 1 0 0,
   CaseRange.mk 119973 119974 1 0 0, CaseRange.mk 119977 119980 1 0 0, CaseRange.mk 119982 119989 1 0 0,
   CaseRange.mk 120016 120041 1 0 0, CaseRange.mk 120068 120069 1 0 0, CaseRange.mk 120071 120074 1 0 0,
   CaseRange.mk 120077 120084 1 0 0, CaseRange.mk 120086 120092 1 0 0, CaseRange.mk 120120 120121 1 0 0,
   CaseRange.mk 120123 120126 1 0 0, CaseRange.mk 120128 120132 1 0 0, CaseRange.mk 120134 120134 1 0 0,
   CaseRange.mk 120138 120144 1 0 0, CaseRange.mk 120172 120197 1 0 0, CaseRange.mk 120224 120249 1 0 0,
   CaseRange.mk 120276 120301 1 0 0, CaseRange.mk 120328 120353 1 0 0, CaseRange.mk 120380 120405 1 0 0,
   CaseRange.mk 120432 120457 1 0 0, CaseRange.mk 120488 120512 1 0 0, CaseRange.mk 120546 120570 1 0 0,
   CaseRange.mk 120604 120628 1 0 0, CaseRange.mk 120662 120686 1 0 0, CaseRange.mk 120720 120744 1 0 0,
   CaseRange.mk 120778 120778 1 0 0, CaseRange.mk 125184 125217 1 0 0
  ]

/-- The function `unicode.IsUpper`: whether the rune is an upper-case letter. -/
def unicodeIsUpper (c : Char) : Bool :=
  upperRanges.any (fun r => r.contains c.toNat)

/-! ## The messages (`cucumber-messages-go/v7`), as far as the code reads them

A field that holds a sub-message is a pointer in the generated Go code, nil
when the producer leaves the sub-message out: the `Location` of a syntax node,
the `SourceReference` of a definition, the `Feature` of a document, the
`TestResult`, the `Duration` and the `oneof` fields are options. -/

structure Location where
  Line : Nat
  Column : Nat
  deriving DecidableEq, Repr

structure SourceReference where
  Uri : String
  Location : Option Location
  deriving DecidableEq, Repr

structure Tag where
  Location : Option Location
  Name : String
  Id : String
  deriving DecidableEq, Repr

structure DocString where
  Location : Option Location
  ContentType : String
  Content : String
  deriving DecidableEq, Repr

structure TableCell where
  Location : Option Location
  Value : String
  deriving DecidableEq, Repr

structure TableRow where
  Location : Option Location
  Cells : List TableCell
  Id : String
  deriving DecidableEq, Repr

structure DataTable where
  Location : Option Location
  Rows : List TableRow
  deriving DecidableEq, Repr

/-- The `oneof argument` of a step. -/
inductive StepArgument where
  | docString : DocString → StepArgument
  | dataTable : DataTable → StepArgument
  deriving DecidableEq, Repr

structure Step where
  Location : Option Location
  Keyword : String
  Text : String
  Argument : Option StepArgument
  Id : String
  deriving DecidableEq, Repr

/-- The getter `step.GetDocString()`. -/
def Step.GetDocString (s : Step) : Option DocString :=
  match s.Argument with
  | some (.docString d) => some d
  | _ => none

/-- The getter `step.GetDataTable()`. -/
def Step.GetDataTable (s : Step) : Option DataTable :=
  match s.Argument with
  | some (.dataTable t) => some t
  | _ => none

structure Background where
  Location : Option Location
  Keyword : String
  Name : String
  Description : String
  Steps : List Step
  deriving DecidableEq, Repr

structure Examples where
  Location : Option Location
  Tags : List Tag
  Keyword : String
  Name : String
  Description : String
  TableHeader : Option TableRow
  TableBody : List TableRow
  deriving DecidableEq, Repr

structure Scenario where
  Location : Option Location
  Tags : List Tag
  Keyword : String
  Name : String
  Description : String
  Steps : List Step
  Examples : List Examples
  Id : String
  deriving DecidableEq, Repr

/-- The `oneof value` of a feature child. -/
inductive FeatureChild where
  | background : Background → FeatureChild
  | scenario : Scenario → FeatureChild
  | unset : FeatureChild
  deriving DecidableEq, Repr

/-- The getter `child.GetScenario()`. -/
def FeatureChild.GetScenario (c : FeatureChild) : Option Scenario :=
  match c with
  | .scenario s => some s
  | _ => none

/-- The getter `child.GetBackground()`. -/
def FeatureChild.GetBackground (c : FeatureChild) : Option Background :=
  match c with
  | .background b => some b
  | _ => none

structure Feature where
  Location : Option Location
  Tags : List Tag
  Language : String
  Keyword : String
  Name : String
  Description : String
  Children : List FeatureChild
  deriving DecidableEq, Repr

structure GherkinDocument where
  Uri : String
  Feature : Option Feature
  deriving DecidableEq, Repr

structure PickleStep where
  Text : String
  SourceIds : List String
  Id : String
  deriving DecidableEq, Repr

structure PickleTag where
  Name : String
  SourceId : String
  deriving DecidableEq, Repr

structure Pickle where
  Id : String
  Uri : String
  Name : String
  Language : String
  Steps : List PickleStep
  Tags : List PickleTag
  SourceIds : List String
  deriving DecidableEq, Repr

structure TestCaseTestStep where
  Id : String
  PickleStepId : String
  StepDefinitionId : List String
  HookId : String
  deriving DecidableEq, Repr

structure MsgTestCase where
  Id : String
  PickleId : String
  TestSteps : List TestCaseTestStep
  deriving DecidableEq, Repr

structure TestCaseStarted where
  TestCaseId : String
  Id : String
  deriving DecidableEq, Repr

/-- The enumeration `TestResult_Status`. -/
inductive Status where
  | UNKNOWN | PASSED | SKIPPED | PENDING | UNDEFINED | AMBIGUOUS | FAILED
  deriving DecidableEq, Repr

/-- The method `Status.String()`: the name of the value. -/
def Status.String (s : Status) : String :=
  match s with
  | .UNKNOWN => "UNKNOWN"
  | .PASSED => "PASSED"
  | .SKIPPED => "SKIPPED"
  | .PENDING => "PENDING"
  | .UNDEFINED => "UNDEFINED"
  | .AMBIGUOUS => "AMBIGUOUS"
  | .FAILED => "FAILED"

/-- A `messages.Duration`: `Seconds` is an `int64`, `Nanos` an `int32`. -/
structure Duration where
  Seconds : Int
  Nanos : Int
  deriving DecidableEq, Repr

structure TestResult where
  Status : Status
  Message : String
  Duration : Option Duration
  deriving DecidableEq, Repr

structure TestStepFinished where
  TestResult : Option TestResult
  TestStepId : String
  TestCaseStartedId : String
  deriving DecidableEq, Repr

structure StepDefinitionConfig where
  Id : String
  PatternSource : String
  Location : Option SourceReference
  deriving DecidableEq, Repr

structure TestCaseHookDefinitionConfig where
  Id : String
  Location : Option SourceReference
  deriving DecidableEq, Repr

/-- The `oneof message` of an envelope. -/
inductive Envelope where
  | gherkinDocument : GherkinDocument → Envelope
  | pickle : Pickle → Envelope
  | stepDefinitionConfig : StepDefinitionConfig → Envelope
  | testCaseHookDefinitionConfig : TestCaseHookDefinitionConfig → Envelope
  | testCase : MsgTestCase → Envelope
  | testCaseStarted : TestCaseStarted → Envelope
  | testStepFinished : TestStepFinished → Envelope
  | other : Envelope
  deriving DecidableEq, Repr

/-- The function `messages.DurationToGoDuration` followed by the conversion
`uint64(duration)`: the nanoseconds `Seconds * 10^9 + Nanos` are computed in
`int64` and the result is reinterpreted as a `uint64`, so the value is taken
modulo `2^64`. -/
def durationNanosUint64 (d : Duration) : Nat :=
  ((d.Seconds * 1000000000 + d.Nanos) % (2 ^ 64 : Int)).toNat

/-! ## The identifier index -/

/-- Modelled from the spec: the type `MessageLookup` (the Identifier Index of
the spec, section 4.1; its source file is not among the files embedded here,
only its callers and tests are). One table per record kind, from the identifier to
the last record seen under it. The names `stepByID`, `scenarioByID` and
`backgroundByStepId` are those its callers and tests use. -/
structure MessageLookup where
  gherkinDocumentByURI : GoMap GherkinDocument
  pickleByID : GoMap Pickle
  pickleStepByID : GoMap PickleStep
  testCaseByID : GoMap MsgTestCase
  testStepByID : GoMap TestCaseTestStep
  testCaseStartedByID : GoMap TestCaseStarted
  stepByID : GoMap Step
  scenarioByID : GoMap Scenario
  exampleByRowID : GoMap Examples
  exampleRowByID : GoMap TableRow
  stepDefinitionByID : GoMap StepDefinitionConfig
  backgroundByStepId : GoMap Background
  tagByID : GoMap Tag
  hookByID : GoMap TestCaseHookDefinitionConfig

/-- Modelled from the spec: `MessageLookup.Initialize`, every table empty. -/
def MessageLookup.Initialize : MessageLookup :=
  { gherkinDocumentByURI := GoMap.empty
    pickleByID := GoMap.empty
    pickleStepByID := GoMap.empty
    testCaseByID := GoMap.empty
    testStepByID := GoMap.empty
    testCaseStartedByID := GoMap.empty
    stepByID := GoMap.empty
    scenarioByID := GoMap.empty
    exampleByRowID := GoMap.empty
    exampleRowByID := GoMap.empty
    stepDefinitionByID := GoMap.empty
    backgroundByStepId := GoMap.empty
    tagByID := GoMap.empty
    hookByID := GoMap.empty }

/-- Modelled from the spec: recording of a list of tags (later wins). -/
def MessageLookup.recordTags (l : MessageLookup) (tags : List Tag) : MessageLookup :=
  { l with tagByID := tags.foldl (fun m t => m.set t.Id t) l.tagByID }

/-- Modelled from the spec: recording of a Background: each of its steps is
recorded as a step and as owned by this Background. -/
def MessageLookup.recordBackground (l : MessageLookup) (b : Background) : MessageLookup :=
  { l with
    stepByID := b.Steps.foldl (fun m st => m.set st.Id st) l.stepByID
    backgroundByStepId := b.Steps.foldl (fun m st => m.set st.Id b) l.backgroundByStepId }

/-- Modelled from the spec: recording of an example block: its tags, and each
row of its body under the row identifier, as a row and as the block owning it. -/
def MessageLookup.recordExamples (l : MessageLookup) (ex : Examples) : MessageLookup :=
  { l.recordTags ex.Tags with
    exampleByRowID := ex.TableBody.foldl (fun m row => m.set row.Id ex) l.exampleByRowID
    exampleRowByID := ex.TableBody.foldl (fun m row => m.set row.Id row) l.exampleRowByID }

/-- Modelled from the spec: recording of a Scenario with its tags, steps and
example blocks. -/
def MessageLookup.recordScenario (l : MessageLookup) (sc : Scenario) : MessageLookup :=
  let l1 := { l with scenarioByID := l.scenarioByID.set sc.Id sc }
  let l2 := l1.recordTags sc.Tags
  let l3 := { l2 with stepByID := sc.Steps.foldl (fun m st => m.set st.Id st) l2.stepByID }
  sc.Examples.foldl MessageLookup.recordExamples l3

/-- Modelled from the spec: recording of one child of a feature. -/
def MessageLookup.recordChild (l : MessageLookup) (c : FeatureChild) : MessageLookup :=
  match c with
  | .background b => l.recordBackground b
  | .scenario sc => l.recordScenario sc
  | .unset => l

/-- Modelled from the spec: `MessageLookup.ProcessMessage` (spec 4.1 and the
Document transition of 4.4): the record is stored under its identifier together
with all the records nested in it, a later record replacing an earlier one of
the same kind and identifier. It returns no error. -/
def MessageLookup.ProcessMessage (l : MessageLookup) (envelope : Envelope) :
    Except Fault MessageLookup :=
  match envelope with
  | .gherkinDocument d =>
    let l1 := { l with gherkinDocumentByURI := l.gherkinDocumentByURI.set d.Uri d }
    match d.Feature with
    | none => .ok l1
    | some f => .ok (f.Children.foldl MessageLookup.recordChild (l1.recordTags f.Tags))
  | .pickle p =>
    .ok { l with
          pickleByID := l.pickleByID.set p.Id p
          pickleStepByID := p.Steps.foldl (fun m ps => m.set ps.Id ps) l.pickleStepByID }
  | .stepDefinitionConfig c =>
    .ok { l with stepDefinitionByID := l.stepDefinitionByID.set c.Id c }
  | .testCaseHookDefinitionConfig h =>
    .ok { l with hookByID := l.hookByID.set h.Id h }
  | .testCase tc =>
    .ok { l with
          testCaseByID := l.testCaseByID.set tc.Id tc
          testStepByID := tc.TestSteps.foldl (fun m ts => m.set ts.Id ts) l.testStepByID }
  | .testCaseStarted tcs =>
    .ok { l with testCaseStartedByID := l.testCaseStartedByID.set tcs.Id tcs }
  | .testStepFinished _ => .ok l
  | .other => .ok l

/-- Modelled from the spec: `LookupGherkinDocument`, nil when not found. -/
def MessageLookup.LookupGherkinDocument (l : MessageLookup) (uri : String) :
    Option GherkinDocument := l.gherkinDocumentByURI uri

/-- Modelled from the spec: `LookupScenario`, nil when not found. -/
def MessageLookup.LookupScenario (l : MessageLookup) (id : String) : Option Scenario :=
  l.scenarioByID id

/-- Modelled from the spec: `LookupStep`, nil when not found. -/
def MessageLookup.LookupStep (l : MessageLookup) (id : String) : Option Step :=
  l.stepByID id

/-- Modelled from the spec: `LookupBrackgroundByStepId`, the Background that
owns the step, nil when none does. -/
def MessageLookup.LookupBrackgroundByStepId (l : MessageLookup) (id : String) :
    Option Background := l.backgroundByStepId id

/-- Modelled from the spec: `LookupExampleRow`, nil when not found. -/
def MessageLookup.LookupExampleRow (l : MessageLookup) (id : String) : Option TableRow :=
  l.exampleRowByID id

/-- Modelled from the spec: `LookupExample`, the example block that owns the
row of this identifier, nil when not found. -/
def MessageLookup.LookupExample (l : MessageLookup) (id : String) : Option Examples :=
  l.exampleByRowID id

/-- Modelled from the spec: `LookupTagByID`, nil when not found. -/
def MessageLookup.LookupTagByID (l : MessageLookup) (id : String) : Option Tag :=
  l.tagByID id

/-- Modelled from the spec: `LookupTag`, nil when not found. -/
def MessageLookup.LookupTag (l : MessageLookup) (id : String) : Option Tag :=
  l.tagByID id

/-- Modelled from the spec: `LookupTestCase`, nil when not found. -/
def MessageLookup.LookupTestCase (l : MessageLookup) (id : String) : Option MsgTestCase :=
  l.testCaseByID id

/-- Modelled from the spec: `LookupPickle`, nil when not found. -/
def MessageLookup.LookupPickle (l : MessageLookup) (id : String) : Option Pickle :=
  l.pickleByID id

/-- Modelled from the spec: `LookupTestStepByID`, nil when not found. -/
def MessageLookup.LookupTestStepByID (l : MessageLookup) (id : String) :
    Option TestCaseTestStep := l.testStepByID id

/-- Modelled from the spec: `LookupPickleStepByID`, nil when not found. -/
def MessageLookup.LookupPickleStepByID (l : MessageLookup) (id : String) :
    Option PickleStep := l.pickleStepByID id

/-- Modelled from the spec: `LookupStepDefinitionConfigsByIDs` (spec 4.1): the
definitions of the candidate ids that resolve, in the order of the ids, the
unresolved ids dropped. -/
def MessageLookup.LookupStepDefinitionConfigsByIDs (l : MessageLookup) (ids : List String) :
    List StepDefinitionConfig := ids.filterMap l.stepDefinitionByID

/-! ## The output tree (`json_elements.go`) -/

structure jsonDocString where
  ContentType : String
  Line : Nat
  Value : String
  deriving DecidableEq, Repr

structure jsonDatatableRow where
  Cells : List String
  deriving DecidableEq, Repr

structure jsonStepResult where
  Duration : Nat
  Status : String
  ErrorMessage : String
  deriving DecidableEq, Repr

structure jsonStepMatch where
  Location : String
  deriving DecidableEq, Repr

structure jsonTag where
  Line : Nat
  Name : String
  deriving DecidableEq, Repr

structure jsonStep where
  Keyword : String
  Line : Nat
  Name : String
  Result : Option jsonStepResult
  Match : Option jsonStepMatch
  DocString : Option jsonDocString
  Rows : List jsonDatatableRow
  deriving DecidableEq, Repr

/-- A feature element; `Steps` holds the pointers to its steps (positions in
the step store), `Type_` is the field `Type`. -/
structure jsonFeatureElement where
  Description : String
  ID : String
  Keyword : String
  Line : Nat
  Name : String
  Steps : List Nat
  Type_ : String
  Tags : List jsonTag
  deriving DecidableEq, Repr

structure jsonFeature where
  Description : String
  Elements : List jsonFeatureElement
  ID : String
  Keyword : String
  Line : Nat
  Name : String
  URI : String
  Tags : List jsonTag
  deriving DecidableEq, Repr

/-! ## The formatter (`json.go`) -/

/-- The struct `Formatter`. `jsonFeatures` is the slice of feature pointers and
at the same time the store they point into; `jsonSteps` is the store of the
allocated steps. -/
structure Formatter where
  lookup : MessageLookup
  jsonFeatures : List jsonFeature
  jsonFeaturesByURI : GoMap Nat
  jsonSteps : List jsonStep
  jsonStepsByPickleStepId : GoMap Nat
  exampleRowIndexById : GoMap Nat
  verbose : Bool

/-- The function `Formatter.makeId`. -/
def Formatter.makeId (s : String) : String :=
  stringsToLower (stringsReplaceChar s ' ' '-')

/-- The function `makeID` of `test_case.go`. -/
def makeID (s : String) : String :=
  stringsToLower (stringsReplaceChar s ' ' '-')

/-- The function `Formatter.isBackgroundStep`. -/
def Formatter.isBackgroundStep (self : Formatter) (id : String) : Bool :=
  (self.lookup.backgroundByStepId id).isSome

/-- The composite literal `&jsonTag{Line: tag.Location.Line, Name: tag.Name}`: a
panic when the tag has no `Location`. -/
def newJsonTag (tag : Tag) : Except Fault jsonTag := do
  let location ← deref tag.Location
  .ok { Line := location.Line, Name := tag.Name }

/-- The loop over `gherkinDocumentFeature.Tags` of `findOrCreateJsonFeature`. -/
def jsonTagsLoop (tags : List Tag) : Except Fault (List jsonTag) :=
  match tags with
  | [] => .ok []
  | tag :: rest => do
    let jsonTag ← newJsonTag tag
    let restTags ← jsonTagsLoop rest
    .ok (jsonTag :: restTags)

/-- The `jsonFeature` that `findOrCreateJsonFeature` builds from the feature of
the document of the Pickle: a panic when the feature or one of its tags has no
`Location`. -/
def newJsonFeature (pickle : Pickle) (gherkinDocumentFeature : Feature) :
    Except Fault jsonFeature := do
  let location ← deref gherkinDocumentFeature.Location
  let tags ← jsonTagsLoop gherkinDocumentFeature.Tags
  .ok { Description := gherkinDocumentFeature.Description
        Elements := []
        ID := Formatter.makeId gherkinDocumentFeature.Name
        Keyword := gherkinDocumentFeature.Keyword
        Line := location.Line
        Name := gherkinDocumentFeature.Name
        URI := pickle.Uri
        Tags := tags }

/-- The function `Formatter.findOrCreateJsonFeature`: the formatter after the
call and the pointer returned. -/
def Formatter.findOrCreateJsonFeature (self : Formatter) (pickle : Pickle) :
    Except Fault (Formatter × Nat) :=
  match self.jsonFeaturesByURI pickle.Uri with
  | some jFeature => .ok (self, jFeature)
  | none => do
    let document ← deref (self.lookup.LookupGherkinDocument pickle.Uri)
    let gherkinDocumentFeature ← deref document.Feature
    let jFeature ← newJsonFeature pickle gherkinDocumentFeature
    .ok ({ self with
            jsonFeaturesByURI := self.jsonFeaturesByURI.set pickle.Uri self.jsonFeatures.length
            jsonFeatures := self.jsonFeatures ++ [jFeature] },
         self.jsonFeatures.length)

/-- The loop over `example.TableBody` of the Document case: row `index` gets
the display index `index + 2`. -/
def indexRows (m : GoMap Nat) (index : Nat) (rows : List TableRow) : GoMap Nat :=
  match rows with
  | [] => m
  | row :: rest => indexRows (m.set row.Id (index + 2)) (index + 1) rest

/-- The body of the loop over `Feature.Children` of the Document case. -/
def indexChild (m : GoMap Nat) (child : FeatureChild) : GoMap Nat :=
  match child.GetScenario with
  | some scenario => scenario.Examples.foldl (fun m example_ => indexRows m 0 example_.TableBody) m
  | none => m

/-- The case `*messages.Envelope_GherkinDocument` of `ProcessMessages`. -/
def Formatter.processGherkinDocument (self : Formatter) (d : GherkinDocument) :
    Except Fault Formatter := do
  let feature ← deref d.Feature
  .ok { self with exampleRowIndexById := feature.Children.foldl indexChild self.exampleRowIndexById }

/-- The variables the loop over `pickle.Steps` writes. -/
structure PickleLoop where
  jsonSteps : List jsonStep
  jsonStepsByPickleStepId : GoMap Nat
  background : Option Background
  scenarioJsonSteps : List Nat
  backgroundJsonSteps : List Nat

/-- The statement `if docString != nil { jsonStep.DocString = ... }`: a panic
when the doc string has no `Location`. -/
def newJsonDocString (step : Step) : Except Fault (Option jsonDocString) :=
  match step.GetDocString with
  | some docString => do
    let location ← deref docString.Location
    .ok (some { Line := location.Line
                ContentType := docString.ContentType
                Value := docString.Content })
  | none => .ok none

/-- The `jsonStep` built for a Pickle Step from its specification Step: a panic
when the step or its doc string has no `Location`. -/
def newJsonStep (pickle : Pickle) (pickleStep : PickleStep) (step : Step) :
    Except Fault jsonStep := do
  let location ← deref step.Location
  let docString ← newJsonDocString step
  .ok { Keyword := step.Keyword
        Line := location.Line
        Name := pickleStep.Text
        Result := none
        Match := some { Location := pickle.Uri }
        DocString := docString
        Rows :=
          match step.GetDataTable with
          | some datatable =>
            datatable.Rows.map (fun row => { Cells := row.Cells.map (fun cell => cell.Value) })
          | none => [] }

/-- The variables of the loop over `pickle.Steps` before its first round:
`background` points to an empty Background, the two step slices are empty. -/
def Formatter.pickleLoopStart (self : Formatter) : PickleLoop :=
  { jsonSteps := self.jsonSteps
    jsonStepsByPickleStepId := self.jsonStepsByPickleStepId
    background := some { Location := none, Keyword := "", Name := "", Description := "", Steps := [] }
    scenarioJsonSteps := []
    backgroundJsonSteps := [] }

/-- The body of the loop over `pickle.Steps`. -/
def Formatter.pickleStepBody (self : Formatter) (pickle : Pickle) (st : PickleLoop)
    (pickleStep : PickleStep) : Except Fault PickleLoop := do
  let sourceId ← index0 pickleStep.SourceIds
  let step ← deref (self.lookup.LookupStep sourceId)
  let newStep ← newJsonStep pickle pickleStep step
  let jsonStep := st.jsonSteps.length
  let st1 : PickleLoop :=
    if self.isBackgroundStep step.Id then
      { st with
        backgroundJsonSteps := st.backgroundJsonSteps ++ [jsonStep]
        background := self.lookup.LookupBrackgroundByStepId step.Id }
    else
      { st with scenarioJsonSteps := st.scenarioJsonSteps ++ [jsonStep] }
  .ok { st1 with
        jsonSteps := st.jsonSteps ++ [newStep]
        jsonStepsByPickleStepId := st.jsonStepsByPickleStepId.set pickleStep.Id jsonStep }

/-- The loop over `pickle.Steps`. -/
def Formatter.pickleStepsLoop (self : Formatter) (pickle : Pickle) (st : PickleLoop)
    (steps : List PickleStep) : Except Fault PickleLoop :=
  match steps with
  | [] => .ok st
  | pickleStep :: rest => do
    let st1 ← self.pickleStepBody pickle st pickleStep
    self.pickleStepsLoop pickle st1 rest

/-- The loop over `pickle.Tags`. -/
def Formatter.pickleTagsLoop (self : Formatter) (tags : List PickleTag) :
    Except Fault (List jsonTag) :=
  match tags with
  | [] => .ok []
  | pickleTag :: rest => do
    let tag ← deref (self.lookup.LookupTagByID pickleTag.SourceId)
    let jsonTag ← newJsonTag tag
    let restTags ← self.pickleTagsLoop rest
    .ok (jsonTag :: restTags)

/-- The identifier and line of the scenario element (`scenarioID`,
`elementLine`): the plain form, or the outline form when the Pickle has a
second source id. The line of the scenario is read in both cases
(`elementLine := scenario.Location.Line`): a panic when the scenario has no
`Location`, and in the outline form when the example row has none. -/
def Formatter.scenarioIDAndLine (self : Formatter) (pickle : Pickle) (featureID : String)
    (scenario : Scenario) : Except Fault (String × Nat) := do
  let location ← deref scenario.Location
  if pickle.SourceIds.length > 1 then do
    let exampleRow ← deref ((pickle.SourceIds[1]?).bind self.lookup.LookupExampleRow)
    let example_ ← deref ((pickle.SourceIds[1]?).bind self.lookup.LookupExample)
    let rowLocation ← deref exampleRow.Location
    .ok (featureID ++ ";" ++ Formatter.makeId scenario.Name ++ ";" ++ Formatter.makeId example_.Name
          ++ ";" ++ toString ((self.exampleRowIndexById exampleRow.Id).getD 0),
         rowLocation.Line)
  else
    .ok (featureID ++ ";" ++ Formatter.makeId scenario.Name, location.Line)

/-- The statement `if len(backgroundJsonSteps) > 0 { ... }`: the elements it
appends, one element of type "background" or none; a panic when the Background
has no `Location`. -/
def backgroundElementsOf (st : PickleLoop) : Except Fault (List jsonFeatureElement) :=
  if st.backgroundJsonSteps.length > 0 then do
    let background ← deref st.background
    let location ← deref background.Location
    .ok [{ Description := background.Description
           ID := ""
           Keyword := background.Keyword
           Line := location.Line
           Name := ""
           Steps := st.backgroundJsonSteps
           Type_ := "background"
           Tags := [] }]
  else .ok []

/-- The element of type "scenario" appended for a Pickle. -/
def newScenarioElement (scenario : Scenario) (scenarioID : String) (elementLine : Nat)
    (scenarioJsonSteps : List Nat) (scenarioTags : List jsonTag) : jsonFeatureElement :=
  { Description := scenario.Description
    ID := scenarioID
    Keyword := scenario.Keyword
    Line := elementLine
    Name := scenario.Name
    Steps := scenarioJsonSteps
    Type_ := "scenario"
    Tags := scenarioTags }

/-- The case `*messages.Envelope_Pickle` of `ProcessMessages`. Reading
`jsonFeature.ID` is a read of the store at the pointer; on the formatters that
a run reaches, the pointer addresses a feature (`run_features`). -/
def Formatter.processPickle (self : Formatter) (pickle : Pickle) : Except Fault Formatter := do
  let (self1, jsonFeature) ← self.findOrCreateJsonFeature pickle
  let sourceId ← index0 pickle.SourceIds
  let scenario ← deref (self1.lookup.LookupScenario sourceId)
  let st ← self1.pickleStepsLoop pickle self1.pickleLoopStart pickle.Steps
  let backgroundElements ← backgroundElementsOf st
  let feature ← deref self1.jsonFeatures[jsonFeature]?
  let (scenarioID, elementLine) ← self1.scenarioIDAndLine pickle feature.ID scenario
  let scenarioTags ← self1.pickleTagsLoop pickle.Tags
  let scenarioElement := newScenarioElement scenario scenarioID elementLine st.scenarioJsonSteps
    scenarioTags
  .ok { self1 with
        jsonSteps := st.jsonSteps
        jsonStepsByPickleStepId := st.jsonStepsByPickleStepId
        jsonFeatures := updateAt self1.jsonFeatures jsonFeature
          (fun f => { f with Elements := f.Elements ++ backgroundElements ++ [scenarioElement] }) }

/-- The `jsonStepResult` built from the `TestResult` of a Test-step-finished
record. -/
def newJsonStepResult (testResult : TestResult) : jsonStepResult :=
  { Status := stringsToLower testResult.Status.String
    ErrorMessage := testResult.Message
    Duration :=
      match testResult.Duration with
      | some duration => durationNanosUint64 duration
      | none => 0 }

/-- The `jsonStepMatch` of the statement `if len(stepDefinitions) > 0 { ... }`:
none when the slice is empty, otherwise the location of its first definition; a
panic when that definition has no `Location` or its source reference has
none. -/
def newStepMatch (stepDefinitions : List StepDefinitionConfig) :
    Except Fault (Option jsonStepMatch) :=
  match stepDefinitions with
  | [] => .ok none
  | stepDefinition :: _ => do
    let reference ← deref stepDefinition.Location
    let location ← deref reference.Location
    .ok (some { Location := reference.Uri ++ ":" ++ toString location.Line })

/-- The two assignments through the pointer `jsonStep` of the
Test-step-finished case: `Result` always, `Match` when `stepDefinitions` is
not empty (`newMatch` is then set). -/
def attachResult (testResult : TestResult) (newMatch : Option jsonStepMatch)
    (js : jsonStep) : jsonStep :=
  match newMatch with
  | none => { js with Result := some (newJsonStepResult testResult) }
  | some stepMatch =>
    { js with
      Result := some (newJsonStepResult testResult)
      Match := some stepMatch }

/-- The case `*messages.Envelope_TestStepFinished` of `ProcessMessages`. A nil
`testStep`, `pickleStep`, `jsonStep` or `TestResult` is a panic, and so is a
first step definition without `Location`; the two assignments go through the
pointer `jsonStep` (`run_pointers`: it addresses a step of the store). -/
def Formatter.processTestStepFinished (self : Formatter) (m : TestStepFinished) :
    Except Fault Formatter := do
  let testStep ← deref (self.lookup.LookupTestStepByID m.TestStepId)
  let pickleStep ← deref (self.lookup.LookupPickleStepByID testStep.PickleStepId)
  let jsonStep ← deref (self.jsonStepsByPickleStepId pickleStep.Id)
  let testResult ← deref m.TestResult
  let stepDefinitions := self.lookup.LookupStepDefinitionConfigsByIDs testStep.StepDefinitionId
  let newMatch ← newStepMatch stepDefinitions
  .ok { self with
        jsonSteps := updateAt self.jsonSteps jsonStep (attachResult testResult newMatch) }

/-- The body of the loop of `ProcessMessages` for one envelope read without
error: the index is fed first, then the switch on the kind of message. -/
def Formatter.processEnvelope (self : Formatter) (envelope : Envelope) :
    Except Fault Formatter := do
  let lookup ← self.lookup.ProcessMessage envelope
  let self1 := { self with lookup := lookup }
  match envelope with
  | .gherkinDocument d => self1.processGherkinDocument d
  | .pickle p => self1.processPickle p
  | .testStepFinished m => self1.processTestStepFinished m
  | _ => .ok self1

/-- What one call of `reader.ReadMsg` gives: an envelope, or an error other
than `io.EOF`. The end of the list of results is `io.EOF`. -/
inductive ReadResult where
  | msg : Envelope → ReadResult
  | fail : String → ReadResult
  deriving DecidableEq, Repr

/-- The loop of `ProcessMessages`. -/
def Formatter.readLoop (self : Formatter) (reader : List ReadResult) : Except Fault Formatter :=
  match reader with
  | [] => .ok self
  | .fail e :: _ => .error (.err e)
  | .msg envelope :: rest => do
    let self1 ← self.processEnvelope envelope
    self1.readLoop rest

/-- The state set by the first statements of `ProcessMessages`. -/
def Formatter.reset : Formatter :=
  { lookup := MessageLookup.Initialize
    jsonFeatures := []
    jsonFeaturesByURI := GoMap.empty
    jsonSteps := []
    jsonStepsByPickleStepId := GoMap.empty
    exampleRowIndexById := GoMap.empty
    verbose := false }

/-- An element of the report with the steps its pointers address. -/
structure ElementNode where
  element : jsonFeatureElement
  steps : List (Option jsonStep)
  deriving DecidableEq, Repr

/-- A feature of the report with its elements. -/
structure FeatureNode where
  feature : jsonFeature
  elements : List ElementNode
  deriving DecidableEq, Repr

/-- The tree that `json.MarshalIndent(self.jsonFeatures, ...)` serialises: the
features with the steps behind the pointers of their elements. -/
def Formatter.outputTree (self : Formatter) : List FeatureNode :=
  self.jsonFeatures.map (fun f =>
    { feature := f
      elements := f.Elements.map (fun e =>
        { element := e, steps := e.Steps.map (fun p => self.jsonSteps[p]?) }) })

/-- The result of a call of `ProcessMessages`: what was written to the writer,
and the formatter left behind or the fault that ended the call. -/
structure Run where
  stdout : List (List FeatureNode)
  result : Except Fault Formatter

/-- The statements of `ProcessMessages` before its loop: the assignments to
`verbose`, `lookup` and the four containers of the receiver, in the order of the
source. The store of steps models the cells the tree and the step table point
to; the fresh containers point to none, so it starts empty. -/
def Formatter.initialise (self : Formatter) : Formatter :=
  let s1 := { self with verbose := false }
  let s2 := { s1 with lookup := MessageLookup.Initialize }
  let s3 := { s2 with jsonFeatures := [] }
  let s4 := { s3 with jsonFeaturesByURI := GoMap.empty }
  let s5 := { s4 with jsonStepsByPickleStepId := GoMap.empty, jsonSteps := [] }
  { s5 with exampleRowIndexById := GoMap.empty }

/-- The function `Formatter.ProcessMessages`. The writer takes every write, so
the error returned after the loop is nil; what is written is the tree, its
serialisation being left to `encoding/json`. -/
def Formatter.ProcessMessages (self : Formatter) (reader : List ReadResult) : Run :=
  match self.initialise.readLoop reader with
  | .error f => { stdout := [], result := .error f }
  | .ok self1 => { stdout := [self1.outputTree], result := .ok self1 }

/-! ## The step classifier (`test_case.go`) -/

/-- Modelled from the spec: the struct `TestStep` (declared in a source file
that is not among the files embedded here), with the fields its users and
tests read. -/
structure TestStep where
  Hook : Option TestCaseHookDefinitionConfig
  Step : Option Step
  Pickle : Option Pickle
  PickleStep : Option PickleStep
  Result : Option TestResult
  StepDefinitions : List StepDefinitionConfig
  IsBackgroundStep : Bool
  deriving DecidableEq, Repr

/-- The struct `TestCase`; `TestCase_` is its field `TestCase`. The fields
`Scenario`, `Pickle` and `TestCase` are pointers, and so are the elements of
`Tags`: each may be nil. -/
structure TestCase where
  FeatureName : String
  Scenario : Option Scenario
  Pickle : Option Pickle
  TestCase_ : Option MsgTestCase
  Steps : List TestStep
  Tags : List (Option Tag)
  deriving DecidableEq, Repr

structure SortedSteps where
  BeforeHook : List TestStep
  Background : List TestStep
  Steps : List TestStep
  AfterHook : List TestStep
  deriving DecidableEq, Repr

/-- The values of the cursor `current` of `SortedSteps`: the address of one of
the four fields of `sorted`. -/
inductive Group where
  | BeforeHook | Background | Steps | AfterHook
  deriving DecidableEq, Repr

/-- The three conditional assignments to `current` in the loop body. -/
def Group.advance (current : Group) (step : TestStep) : Group :=
  let c1 := if current = .BeforeHook ∧ step.Hook = none then Group.Background else current
  let c2 := if c1 = .Background ∧ step.IsBackgroundStep = false then Group.Steps else c1
  let c3 := if c2 = .Steps ∧ step.Hook ≠ none then Group.AfterHook else c2
  c3

/-- The statement `*current = append(*current, step)`. -/
def SortedSteps.appendTo (sorted : SortedSteps) (current : Group) (step : TestStep) :
    SortedSteps :=
  match current with
  | .BeforeHook => { sorted with BeforeHook := sorted.BeforeHook ++ [step] }
  | .Background => { sorted with Background := sorted.Background ++ [step] }
  | .Steps => { sorted with Steps := sorted.Steps ++ [step] }
  | .AfterHook => { sorted with AfterHook := sorted.AfterHook ++ [step] }

/-- The loop of `SortedSteps` from a given cursor and a given `sorted`. -/
def sortLoop (current : Group) (sorted : SortedSteps) (steps : List TestStep) :
    Group × SortedSteps :=
  match steps with
  | [] => (current, sorted)
  | step :: rest =>
    let next := current.advance step
    sortLoop next (sorted.appendTo next step) rest

/-- The method `TestCase.SortedSteps`. -/
def TestCase.SortedSteps (self : TestCase) : SortedSteps :=
  (sortLoop .BeforeHook { BeforeHook := [], Background := [], Steps := [], AfterHook := [] }
    self.Steps).2

/-- The loop over `pickle.Tags` of `ProcessTestCaseStarted`: the resolved tags
in the order of the Pickle's tags, or none when the loop leaves the function
with nil at a tag that does not resolve. -/
def resolveTags (lookup : MessageLookup) (tags : List PickleTag) : Option (List Tag) :=
  match tags with
  | [] => some []
  | tag :: rest =>
    match lookup.LookupTag tag.SourceId with
    | none => none
    | some sourceTag =>
      match resolveTags lookup rest with
      | none => none
      | some resolved => some (sourceTag :: resolved)

/-- The function `ProcessTestCaseStarted`: `.ok none` is the return of nil,
`.error .panic` the nil dereference in `feature.Feature.Name`. The field
`Steps` is not set by the composite literal, so it is the empty slice. -/
def ProcessTestCaseStarted (testCaseStarted : TestCaseStarted) (lookup : MessageLookup) :
    Except Fault (Option TestCase) :=
  match lookup.LookupTestCase testCaseStarted.TestCaseId with
  | none => .ok none
  | some testCase =>
    match lookup.LookupPickle testCase.PickleId with
    | none => .ok none
    | some pickle =>
      if pickle.SourceIds.length = 0 then .ok none
      else
        match resolveTags lookup pickle.Tags with
        | none => .ok none
        | some tags => do
          let sourceId ← index0 pickle.SourceIds
          match lookup.LookupScenario sourceId with
          | none => .ok none
          | some scenario =>
            match lookup.LookupGherkinDocument pickle.Uri with
            | none => .ok none
            | some feature => do
              let gherkinFeature ← deref feature.Feature
              .ok (some
                { FeatureName := gherkinFeature.Name
                  Scenario := some scenario
                  Pickle := some pickle
                  TestCase_ := some testCase
                  Steps := []
                  Tags := tags.map some })

/-- The loop over `testCase.Steps` of `TestCaseToJSON`: each round allocates the
step that `TestStepToJSON` returns; the result is the pointers stored in
`jsonSteps`, in order, and the store with the new cells. -/
def allocSteps (TestStepToJSON : TestStep → jsonStep) (heap : List jsonStep)
    (steps : List TestStep) : List Nat × List jsonStep :=
  match steps with
  | [] => ([], heap)
  | step :: rest =>
    let rec_ := allocSteps TestStepToJSON (heap ++ [TestStepToJSON step]) rest
    (heap.length :: rec_.1, rec_.2)

/-- The loop over `testCase.Tags` of `TestCaseToJSON`: a panic on a nil tag and
on a tag without `Location`. -/
def testCaseTagsLoop (tags : List (Option Tag)) : Except Fault (List jsonTag) :=
  match tags with
  | [] => .ok []
  | tagPointer :: rest => do
    let tag ← deref tagPointer
    let jsonTag ← newJsonTag tag
    let restTags ← testCaseTagsLoop rest
    .ok (jsonTag :: restTags)

/-- The function `TestCaseToJSON`. Its helper `TestStepToJSON` is declared in a
source file that is not among the files embedded here, so it is a parameter:
the function giving the output step of a test step. The steps are allocated in
the store `heap`, where the pointers of the element address them; the result is
the slice of elements and the store after the call, or the panic of a nil
dereference (`testCase.Scenario`, `testCase.Pickle`, the `Location` of the
scenario, a tag or its `Location`). -/
def TestCaseToJSON (TestStepToJSON : TestStep → jsonStep) (heap : List jsonStep)
    (testCase : TestCase) : Except Fault (List jsonFeatureElement × List jsonStep) := do
  let jsonSteps := allocSteps TestStepToJSON heap testCase.Steps
  let jsonTags ← testCaseTagsLoop testCase.Tags
  let scenario ← deref testCase.Scenario
  let pickle ← deref testCase.Pickle
  let location ← deref scenario.Location
  .ok ([{ ID := makeID testCase.FeatureName ++ ";" ++ makeID scenario.Name
          Keyword := scenario.Keyword
          Type_ := "scenario"
          Name := pickle.Name
          Description := scenario.Description
          Line := location.Line
          Steps := jsonSteps.1
          Tags := jsonTags }],
       jsonSteps.2)

/-! ## Definitions used to state the properties -/

/-- The character that the slug of the spec ("lowercase, spaces replaced with
hyphens") has in the place of `c`. -/
def slugChar (c : Char) : Char :=
  if c = ' ' then '-' else unicodeToLower c

/-- The lower-case forms of the runes of `r` miss the runes of `r2`: the two
intervals are apart, or the runes of `r2` are every second one and the forms of
`r` all lie between them. -/
def CaseRange.misses (r r2 : CaseRange) : Bool :=
  Nat.blt (r.hi + r.up - r.down) r2.lo || Nat.blt r2.hi (r.lo + r.up - r.down)
    || (r2.stride == 2 && (r.stride == 2 || r.lo == r.hi)
        && (r.lo + r.up - r.down + r2.lo) % 2 == 1)

/-- The check that the runes of the table are above ASCII and that every
lower-case form of the table is above `Z` and is no rune of the table. -/
def lowerRangesClosed : Bool :=
  lowerRanges.all (fun r =>
    Nat.ble 128 r.lo && Nat.blt 90 (r.lo + r.up - r.down) && Nat.ble r.down (r.lo + r.up)
      && lowerRanges.all (fun r2 => r.misses r2))

/-- The place of a group in the sequence BeforeHook, Background, Steps,
AfterHook. -/
def Group.rank (g : Group) : Nat :=
  match g with
  | .BeforeHook => 0
  | .Background => 1
  | .Steps => 2
  | .AfterHook => 3

/-- The group each step of the list is appended to by the loop of
`SortedSteps` started with the cursor `current`. -/
def groupTrace (current : Group) (steps : List TestStep) : List Group :=
  match steps with
  | [] => []
  | step :: rest => current.advance step :: groupTrace (current.advance step) rest

/-- The steps of the list that the trace assigns to the group `g`. -/
def stepsOfGroup (g : Group) (steps : List TestStep) (trace : List Group) : List TestStep :=
  ((steps.zip trace).filter (fun p => decide (p.2 = g))).map Prod.fst

/-! ## Sample inputs -/

/-- A hook step. -/
def sampleHookStep : TestStep :=
  { Hook := some { Id := "hook-id", Location := some ⟨"some/hooks.go", some ⟨12, 3⟩⟩ }
    Step := none, Pickle := none, PickleStep := none, Result := none
    StepDefinitions := [], IsBackgroundStep := false }

/-- A step owned by a Background. -/
def sampleBackgroundStep : TestStep :=
  { Hook := none, Step := none, Pickle := none, PickleStep := none, Result := none
    StepDefinitions := [], IsBackgroundStep := true }

/-- A step of the scenario itself. -/
def sampleScenarioStep : TestStep :=
  { Hook := none, Step := none, Pickle := none, PickleStep := none, Result := none
    StepDefinitions := [], IsBackgroundStep := false }

/-- A test case with the steps hook, background, background, scenario,
scenario, hook. -/
def sampleTestCase : TestCase :=
  { FeatureName := "My Feature"
    Scenario := some
      { Location := some ⟨5, 1⟩, Tags := [], Keyword := "Scenario", Name := "Eat cucumber"
        Description := "", Steps := [], Examples := [], Id := "scenario-1" }
    Pickle := some
      { Id := "pickle-1", Uri := "a.feature", Name := "Eat cucumber", Language := "en"
        Steps := [], Tags := [], SourceIds := ["scenario-1"] }
    TestCase_ := some { Id := "tc-1", PickleId := "pickle-1", TestSteps := [] }
    Steps := [sampleHookStep, sampleBackgroundStep, sampleBackgroundStep, sampleScenarioStep,
      sampleScenarioStep, sampleHookStep]
    Tags := [] }

/-- The Document records of a stream, in order. -/
def docsOf (es : List Envelope) : List GherkinDocument :=
  es.filterMap (fun e => match e with
    | .gherkinDocument d => some d
    | _ => none)

/-- The Pickle records of a stream, in order. -/
def picklesOf (es : List Envelope) : List Pickle :=
  es.filterMap (fun e => match e with
    | .pickle p => some p
    | _ => none)

/-- The bodies of the example blocks of a child of a feature. -/
def bodiesOfChild (c : FeatureChild) : List (List TableRow) :=
  match c.GetScenario with
  | some sc => sc.Examples.map (fun ex => ex.TableBody)
  | none => []

/-- The bodies of the example blocks of a Document, in document order. -/
def exampleBodiesOf (d : GherkinDocument) : List (List TableRow) :=
  match d.Feature with
  | some f => f.Children.flatMap bodiesOfChild
  | none => []

/-- The identifiers of the example rows of all Documents of a stream. -/
def streamRowIds (es : List Envelope) : List String :=
  (docsOf es).flatMap (fun d => (exampleBodiesOf d).flatten.map (fun row => row.Id))

/-- A step of a scenario. -/
def sampleStep : Step :=
  { Location := some ⟨6, 5⟩, Keyword := "Given ", Text := "I have <n> cucumbers", Argument := none
    Id := "step-1" }

/-- A step of a Background. -/
def sampleBgStep : Step :=
  { Location := some ⟨3, 5⟩, Keyword := "Given ", Text := "a kitchen", Argument := none
    Id := "bg-step-1" }

def sampleBackground : Background :=
  { Location := some ⟨2, 3⟩, Keyword := "Background", Name := "", Description := ""
    Steps := [sampleBgStep] }

/-- An example block with two rows. -/
def sampleExamples : Examples :=
  { Location := some ⟨8, 5⟩, Tags := [], Keyword := "Examples", Name := "Some Rows"
    Description := "", TableHeader := none
    TableBody := [{ Location := some ⟨10, 7⟩, Cells := [], Id := "row-1" },
                  { Location := some ⟨11, 7⟩, Cells := [], Id := "row-2" }] }

def sampleScenario : Scenario :=
  { Location := some ⟨5, 3⟩, Tags := [{ Location := some ⟨4, 3⟩, Name := "@smoke", Id := "tag-1" }]
    Keyword := "Scenario Outline", Name := "Eat cucumber", Description := ""
    Steps := [sampleStep], Examples := [sampleExamples], Id := "scenario-1" }

def sampleFeature : Feature :=
  { Location := some ⟨1, 1⟩, Tags := [], Language := "en", Keyword := "Feature"
    Name := "My Feature", Description := ""
    Children := [.background sampleBackground, .scenario sampleScenario] }

def sampleDocument : GherkinDocument :=
  { Uri := "a.feature", Feature := some sampleFeature }

/-- The Pickle of the second example row of `sampleScenario`. -/
def samplePickle : Pickle :=
  { Id := "pickle-1", Uri := "a.feature", Name := "Eat cucumber", Language := "en"
    Steps := [{ Text := "a kitchen", SourceIds := ["bg-step-1"], Id := "ps-0" },
              { Text := "I have 3 cucumbers", SourceIds := ["step-1"], Id := "ps-1" }]
    Tags := [{ Name := "@smoke", SourceId := "tag-1" }]
    SourceIds := ["scenario-1", "row-2"] }

def sampleStepDefinition : StepDefinitionConfig :=
  { Id := "sd-1", PatternSource := "I have {int} cucumbers"
    Location := some ⟨"support_code.go", some ⟨12, 1⟩⟩ }

def sampleMsgTestCase : MsgTestCase :=
  { Id := "tc-1", PickleId := "pickle-1"
    TestSteps := [{ Id := "ts-0", PickleStepId := "ps-0", StepDefinitionId := [], HookId := "" },
                  { Id := "ts-1", PickleStepId := "ps-1", StepDefinitionId := ["sd-0", "sd-1"]
                    HookId := "" }] }

/-- The result PASSED with a duration of 1500000 ns for the test step `ts-1`. -/
def sampleFinished : TestStepFinished :=
  { TestResult := some { Status := .PASSED, Message := "", Duration := some ⟨0, 1500000⟩ }
    TestStepId := "ts-1", TestCaseStartedId := "tcs-1" }

/-- The records that precede the Pickle in the sample stream. -/
def sampleHead : List Envelope :=
  [.gherkinDocument sampleDocument, .stepDefinitionConfig sampleStepDefinition]

/-- The sample stream up to the Test-step-finished record. -/
def sampleBody : List Envelope :=
  sampleHead ++ [.pickle samplePickle, .testCase sampleMsgTestCase]

/-- The sample stream. -/
def sampleStream : List Envelope :=
  sampleBody ++ [.testStepFinished sampleFinished]

/-- The formatter left by a run over the stream (the reset formatter when the
run ends in a fault). -/
def finalOf (es : List Envelope) : Formatter :=
  match Formatter.reset.readLoop (es.map .msg) with
  | .ok F => F
  | .error _ => Formatter.reset

/-- Whether a call returned normally. -/
def isOk {ε α : Type} (x : Except ε α) : Bool :=
  match x with
  | .ok _ => true
  | .error _ => false

/-- The elements of the feature registered under a URI; none when no feature
is registered under it. -/
def Formatter.elementsOf (self : Formatter) (uri : String) : List jsonFeatureElement :=
  match self.jsonFeaturesByURI uri with
  | some i =>
    match self.jsonFeatures[i]? with
    | some f => f.Elements
    | none => []
  | none => []

/-- The Pickle Step has a specification Step that a Background owns. -/
def Formatter.ownedByBackground (self : Formatter) (pickleStep : PickleStep) : Prop :=
  ∃ sid step, pickleStep.SourceIds.head? = some sid ∧ self.lookup.LookupStep sid = some step
    ∧ self.isBackgroundStep step.Id = true

/-- The pointer through which the Test-step-finished case writes: the step
registered under the Pickle Step of the test step of the record. -/
def Formatter.targetOf (self : Formatter) (m : TestStepFinished) : Option Nat :=
  match self.lookup.LookupTestStepByID m.TestStepId with
  | some testStep =>
    match self.lookup.LookupPickleStepByID testStep.PickleStepId with
    | some pickleStep => self.jsonStepsByPickleStepId pickleStep.Id
    | none => none
  | none => none

/-- The step definitions that resolve for the test step of a
Test-step-finished record. -/
def Formatter.definitionsOf (self : Formatter) (m : TestStepFinished) :
    List StepDefinitionConfig :=
  match self.lookup.LookupTestStepByID m.TestStepId with
  | some testStep => self.lookup.LookupStepDefinitionConfigsByIDs testStep.StepDefinitionId
  | none => []

/-- A result PASSED for the test step `ts-1` with a duration of 18446744074
seconds (some 584 years), more than `2^64` nanoseconds. -/
def overflowFinished : TestStepFinished :=
  { TestResult := some { Status := .PASSED, Message := "", Duration := some ⟨18446744074, 0⟩ }
    TestStepId := "ts-1", TestCaseStartedId := "tcs-1" }

/-- The sample stream with `overflowFinished` as its Test-step-finished
record. -/
def overflowStream : List Envelope :=
  sampleBody ++ [.testStepFinished overflowFinished]

/-- A second result, FAILED, for the test step `ts-1`. -/
def secondFinished : TestStepFinished :=
  { TestResult := some { Status := .FAILED, Message := "boom", Duration := none }
    TestStepId := "ts-1", TestCaseStartedId := "tcs-1" }

/-- The sample stream followed by a second Test-step-finished record for the
same test step. -/
def doubleStream : List Envelope :=
  sampleStream ++ [.testStepFinished secondFinished]

/-- The strings of a list in the order of their first occurrence, each once. -/
def firstSeen (uris : List String) : List String :=
  uris.foldl (fun acc u => if u ∈ acc then acc else acc ++ [u]) []

/-- The elements of type "scenario" of the feature registered under a URI. -/
def Formatter.scenarioElementsOf (self : Formatter) (uri : String) : List jsonFeatureElement :=
  (self.elementsOf uri).filter (fun e => decide (e.Type_ = "scenario"))

/-- All the references of a Pickle resolve in the index: the document of its
URI (with a feature), the Scenario of its first source id, the specification
Step of the first source id of each of its steps, each of its tags, and, when
it has a second source id, the example row of that id and the example block
that owns the row. -/
def Formatter.pickleResolves (self : Formatter) (p : Pickle) : Bool :=
  ((self.lookup.LookupGherkinDocument p.Uri).bind (fun doc => doc.Feature)).isSome
  && ((p.SourceIds.head?).bind self.lookup.LookupScenario).isSome
  && p.Steps.all (fun ps => ((ps.SourceIds.head?).bind self.lookup.LookupStep).isSome)
  && p.Tags.all (fun t => (self.lookup.LookupTagByID t.SourceId).isSome)
  && (match p.SourceIds[1]? with
      | none => true
      | some rowId =>
        (self.lookup.LookupExampleRow rowId).isSome && (self.lookup.LookupExample rowId).isSome)

/-- The step and its doc string, if it has one, carry a `Location`. -/
def Step.located (step : Step) : Bool :=
  step.Location.isSome
  && (match step.GetDocString with
      | some docString => docString.Location.isSome
      | none => true)

/-- The records a Pickle resolves to carry the `Location` that the Pickle case
reads: the feature of the document and its tags (read when no feature is
registered under the URI yet), the Scenario, each specification Step with its
doc string and the Background that owns it, each tag, and the example row of
the second source id. -/
def Formatter.pickleLocated (self : Formatter) (p : Pickle) : Bool :=
  (match self.jsonFeaturesByURI p.Uri with
    | some _ => true
    | none =>
      match (self.lookup.LookupGherkinDocument p.Uri).bind (fun doc => doc.Feature) with
      | some feat => feat.Location.isSome && feat.Tags.all (fun t => t.Location.isSome)
      | none => true)
  && (match (p.SourceIds.head?).bind self.lookup.LookupScenario with
      | some sc => sc.Location.isSome
      | none => true)
  && p.Steps.all (fun ps =>
      match (ps.SourceIds.head?).bind self.lookup.LookupStep with
      | some step =>
        step.located
        && (match self.lookup.LookupBrackgroundByStepId step.Id with
            | some b => b.Location.isSome
            | none => true)
      | none => true)
  && p.Tags.all (fun t =>
      match self.lookup.LookupTagByID t.SourceId with
      | some tag => tag.Location.isSome
      | none => true)
  && (match (p.SourceIds[1]?).bind self.lookup.LookupExampleRow with
      | some row => row.Location.isSome
      | none => true)

/-- A Pickle of `sampleScenario` with one source id, no Background step and no
tag. -/
def plainPickle : Pickle :=
  { Id := "pickle-2", Uri := "a.feature", Name := "Eat cucumber", Language := "en"
    Steps := [{ Text := "I have 5 cucumbers", SourceIds := ["step-1"], Id := "ps-2" }]
    Tags := []
    SourceIds := ["scenario-1"] }

/-- The sample Document again, under the same URI, with the feature renamed. -/
def renamedDocument : GherkinDocument :=
  { Uri := "a.feature", Feature := some { sampleFeature with Name := "Other Name" } }

/-- A stream in which the Document of a URI is declared twice, with different
feature names, each time followed by a Pickle of that URI. -/
def redeclaredStream : List Envelope :=
  [.gherkinDocument sampleDocument, .pickle plainPickle, .gherkinDocument renamedDocument,
   .pickle plainPickle]

/-- A second Document, under another URI. -/
def otherDocument : GherkinDocument :=
  { Uri := "b.feature", Feature := some { sampleFeature with Name := "Second Feature" } }

/-- A Pickle of the second Document, with the Pickle Step `id`. -/
def otherPickle (id : String) : Pickle :=
  { Id := "pickle-" ++ id, Uri := "b.feature", Name := "Eat cucumber", Language := "en"
    Steps := [{ Text := "I have 7 cucumbers", SourceIds := ["step-1"], Id := id }]
    Tags := []
    SourceIds := ["scenario-1"] }

/-- Two Documents, then Pickles of the second, the first and the second
Document. -/
def twoFeatureStream : List Envelope :=
  [.gherkinDocument sampleDocument, .gherkinDocument otherDocument, .pickle (otherPickle "ps-3"),
   .pickle plainPickle, .pickle (otherPickle "ps-4")]

/-- Whether the step is a hook step: its field `Hook` is set. -/
def TestStep.isHook (s : TestStep) : Bool :=
  s.Hook.isSome

/-- The split of a step list as the specification words it: the longest prefix
of hooks, then the longest prefix of the remainder made of Background-owned
steps, then the longest prefix of what remains made of steps that are not
hooks, then the rest. -/
def referenceSplit (steps : List TestStep) : SortedSteps :=
  let afterHooks := steps.dropWhile TestStep.isHook
  let afterBackground := afterHooks.dropWhile (fun s => s.IsBackgroundStep)
  { BeforeHook := steps.takeWhile TestStep.isHook
    Background := afterHooks.takeWhile (fun s => s.IsBackgroundStep)
    Steps := afterBackground.takeWhile (fun s => !s.isHook)
    AfterHook := afterBackground.dropWhile (fun s => !s.isHook) }

/-- A list with three hooks around a background step and two scenario steps,
the second hook being marked as Background-owned. -/
def mixedSteps : List TestStep :=
  [sampleHookStep, sampleBackgroundStep, { sampleHookStep with IsBackgroundStep := true },
    sampleScenarioStep, sampleHookStep, sampleScenarioStep]

/-- The identifier index after the records of a stream have been passed to
`ProcessMessage` in order. -/
def lookupOf (es : List Envelope) : MessageLookup :=
  es.foldl (fun l e =>
    match l.ProcessMessage e with
    | .ok l1 => l1
    | .error _ => l) MessageLookup.Initialize

/-- A Document of an empty source file: it has no feature. -/
def emptyDocument : GherkinDocument :=
  { Uri := "empty.feature", Feature := none }

/-- A stream in which the Pickle of `sampleScenario` names the URI of the empty
Document. -/
def strayStream : List Envelope :=
  [.gherkinDocument sampleDocument, .gherkinDocument emptyDocument,
    .pickle { samplePickle with Uri := "empty.feature" }, .testCase sampleMsgTestCase]

def sampleStarted : TestCaseStarted :=
  { TestCaseId := "tc-1", Id := "tcs-1" }

/-- The output step without the two fields a Test-step-finished record
assigns. -/
def jsonStep.withoutResult (js : jsonStep) : jsonStep :=
  { js with Result := none, Match := none }

/-- The output tree with the Result and the match location of every step left
out. -/
def treeWithoutResults (tree : List FeatureNode) : List FeatureNode :=
  tree.map (fun f =>
    { f with
      elements := f.elements.map (fun e =>
        { e with steps := e.steps.map (fun s => s.map jsonStep.withoutResult) }) })

/-- A Document whose feature is named `featureName` and holds one Scenario
named `scenarioName`, with no step, tag or example. -/
def namedDocument (uri featureName scenarioId scenarioName : String) : GherkinDocument :=
  { Uri := uri
    Feature := some
      { Location := some ⟨1, 1⟩, Tags := [], Language := "en", Keyword := "Feature"
        Name := featureName, Description := ""
        Children := [.scenario
          { Location := some ⟨3, 3⟩, Tags := [], Keyword := "Scenario", Name := scenarioName
            Description := "", Steps := [], Examples := [], Id := scenarioId }] } }

/-- The Pickle of the Scenario of a `namedDocument`. -/
def namedPickle (uri scenarioId scenarioName : String) : Pickle :=
  { Id := "pickle-" ++ scenarioId, Uri := uri, Name := scenarioName, Language := "en"
    Steps := [], Tags := [], SourceIds := [scenarioId] }

/-- The feature "A;B" with the Scenario "C" and the feature "A" with the
Scenario "B;C", each with its Pickle. -/
def semicolonStream : List Envelope :=
  [.gherkinDocument (namedDocument "one.feature" "A;B" "sc-1" "C"),
   .gherkinDocument (namedDocument "two.feature" "A" "sc-2" "B;C"),
   .pickle (namedPickle "one.feature" "sc-1" "C"),
   .pickle (namedPickle "two.feature" "sc-2" "B;C")]

/-- The identifier of each feature of the tree with the identifiers of its
elements. -/
def Formatter.identifiers (self : Formatter) : List (String × List String) :=
  self.jsonFeatures.map (fun f => (f.ID, f.Elements.map (fun e => e.ID)))

/-- The identifier of the feature at a place of the list of features. -/
def Formatter.featureIdAt (self : Formatter) (i : Nat) : Option String :=
  (self.jsonFeatures[i]?).map (fun f => f.ID)

/-- The identifiers of the elements of type "scenario" of the feature at a place
of the list of features. -/
def Formatter.scenarioIdsAt (self : Formatter) (i : Nat) : List String :=
  match self.jsonFeatures[i]? with
  | some f => (f.Elements.filter (fun e => decide (e.Type_ = "scenario"))).map (fun e => e.ID)
  | none => []

/-- The specification Step that the first source id of a Pickle Step resolves
to. -/
def Formatter.specStepOf (self : Formatter) (pickleStep : PickleStep) : Option Step :=
  (pickleStep.SourceIds.head?).bind self.lookup.LookupStep

/-- Whether the specification Step of a Pickle Step is owned by a Background. -/
def Formatter.stepFlag (self : Formatter) (pickleStep : PickleStep) : Bool :=
  match self.specStepOf pickleStep with
  | some step => self.isBackgroundStep step.Id
  | none => false

/-- The pointers `base + k` of the places `k` of a list of flags that hold the
flag `b`, in the order of the list. -/
def pointersWhere (base : Nat) (flags : List Bool) (b : Bool) : List Nat :=
  match flags with
  | [] => []
  | f :: rest => (if f = b then [base] else []) ++ pointersWhere (base + 1) rest b

/-- The step table after the assignments `m[pickleStep.Id] = jsonStep` for the
Pickle Steps of a list in order, the step of the first being at `base`. -/
def registerSteps (m : GoMap Nat) (base : Nat) (steps : List PickleStep) : GoMap Nat :=
  match steps with
  | [] => m
  | pickleStep :: rest => registerSteps (m.set pickleStep.Id base) (base + 1) rest

/-- The sample Pickle with a third step, owned by the Background like the
first. -/
def interleavedPickle : Pickle :=
  { samplePickle with
    Steps := samplePickle.Steps
      ++ [{ Text := "a second kitchen", SourceIds := ["bg-step-1"], Id := "ps-5" }] }

/-- A Pickle of `sampleScenario` with no source id. -/
def noSourcePickle : Pickle :=
  { plainPickle with SourceIds := [] }

/-- A Pickle whose first source id names no Scenario. -/
def noScenarioPickle : Pickle :=
  { plainPickle with SourceIds := ["scenario-9"] }

/-- A Pickle whose URI names no Document. -/
def noDocumentPickle : Pickle :=
  { plainPickle with Uri := "missing.feature" }

/-- A Pickle with a step whose source id names no specification Step. -/
def noStepPickle : Pickle :=
  { plainPickle with
    Steps := [{ Text := "I have 5 cucumbers", SourceIds := ["step-9"], Id := "ps-2" }] }

/-- The fault that ends a call, none when the call returns. -/
def faultOf {α : Type} (x : Except Fault α) : Option Fault :=
  match x with
  | .ok _ => none
  | .error f => some f

/-- The run over the records of `sampleHead`, a Pickle that resolves, the
Pickle `bad`, and a second Pickle that resolves. -/
def runAround (bad : Envelope) : Run :=
  Formatter.ProcessMessages Formatter.reset
    ((sampleHead ++ [Envelope.pickle samplePickle, bad, Envelope.pickle plainPickle]).map
      ReadResult.msg)

/-- A Test-step-finished record for a test step that no test case holds. -/
def unknownStepFinished : TestStepFinished :=
  { sampleFinished with TestStepId := "ts-9" }

/-- A test case with one hook step: the step has no Pickle Step. -/
def hookMsgTestCase : MsgTestCase :=
  { Id := "tc-2", PickleId := "pickle-1"
    TestSteps := [{ Id := "ts-hook", PickleStepId := "", StepDefinitionId := [], HookId := "hook-1" }] }

/-- A Test-step-finished record for the hook step of `hookMsgTestCase`. -/
def hookFinished : TestStepFinished :=
  { sampleFinished with TestStepId := "ts-hook" }

/-- The run over the records of `sampleBody`, the test case with a hook step,
the record `bad`, and the Test-step-finished record of the sample. -/
def runAroundFinished (bad : Envelope) : Run :=
  Formatter.ProcessMessages Formatter.reset
    ((sampleBody ++ [Envelope.testCase hookMsgTestCase, bad,
      Envelope.testStepFinished sampleFinished]).map ReadResult.msg)

/-- The run in which the Test-step-finished record of the sample comes before
the Pickle that creates its output step. -/
def runFinishedEarly : Run :=
  Formatter.ProcessMessages Formatter.reset
    ((sampleHead ++ [Envelope.testCase sampleMsgTestCase,
      Envelope.testStepFinished sampleFinished, Envelope.pickle samplePickle]).map ReadResult.msg)

/-- A stand-in for `TestStepToJSON` on the samples: a step named after the kind
of the test step. -/
def sampleStepToJSON (step : TestStep) : jsonStep :=
  { Keyword := "", Line := 0
    Name := if step.Hook.isSome then "hook"
      else if step.IsBackgroundStep then "background" else "scenario"
    Result := none, Match := none, DocString := none, Rows := [] }

/-- The TestCase that `ProcessTestCaseStarted` returns on the sample, with the
three sample steps. -/
def startedTestCase : TestCase :=
  { FeatureName := "My Feature", Scenario := some sampleScenario, Pickle := some samplePickle
    TestCase_ := some sampleMsgTestCase
    Steps := [sampleHookStep, sampleBackgroundStep, sampleScenarioStep]
    Tags := [some { Location := some ⟨4, 3⟩, Name := "@smoke", Id := "tag-1" }] }

/-- Whether the pointers that `TestCaseToJSON` follows are set: the Scenario
with its `Location`, the Pickle, and every tag with its `Location`. -/
def TestCase.located (testCase : TestCase) : Bool :=
  (match testCase.Scenario with
    | some scenario => scenario.Location.isSome
    | none => false)
  && testCase.Pickle.isSome
  && testCase.Tags.all (fun tagPointer =>
      match tagPointer with
      | some tag => tag.Location.isSome
      | none => false)

/-- The TestCase `&TestCase{FeatureName: "My Feature"}`: no Scenario, no
Pickle, no steps, no tags. -/
def bareTestCase : TestCase :=
  { FeatureName := "My Feature", Scenario := none, Pickle := none, TestCase_ := none
    Steps := [], Tags := [] }

/-! ## Properties: the slug -/

theorem contains_iff (r : CaseRange) (n : Nat) :
    r.contains n = true ↔ r.lo ≤ n ∧ n ≤ r.hi ∧ (n - r.lo) % r.stride = 0 := by
  simp only [CaseRange.contains, Bool.and_eq_true, Nat.ble_eq, beq_iff_eq, and_assoc]

set_option maxRecDepth 100000 in
set_option maxHeartbeats 4000000 in
theorem lowerRangesClosed_true : lowerRangesClosed = true := by
  decide

theorem lowerRanges_closed (r : CaseRange) (hr : r ∈ lowerRanges) :
    128 ≤ r.lo ∧ 90 < r.lo + r.up - r.down ∧ r.down ≤ r.lo + r.up
      ∧ ∀ r2 ∈ lowerRanges, r.misses r2 = true := by
  have h := lowerRangesClosed_true
  simp only [lowerRangesClosed, List.all_eq_true, Bool.and_eq_true, Nat.blt_eq, Nat.ble_eq] at h
  obtain ⟨⟨⟨h0, h1⟩, h2⟩, h3⟩ := h r hr
  exact ⟨h0, h1, h2, h3⟩

theorem misses_sound (r r2 : CaseRange) (n : Nat) (hn : r.contains n = true)
    (hd : r.down ≤ r.lo + r.up) (hm : r.misses r2 = true) :
    r2.contains (n + r.up - r.down) = false := by
  rw [Bool.eq_false_iff]
  intro h2
  rw [contains_iff] at hn h2
  obtain ⟨hlo, hhi, hmod⟩ := hn
  obtain ⟨hlo2, hhi2, hmod2⟩ := h2
  simp only [CaseRange.misses, Bool.or_eq_true, Bool.and_eq_true, Nat.blt_eq,
    beq_iff_eq] at hm
  rcases hm with (hm | hm) | ⟨⟨hs2, hs⟩, hpar⟩
  · omega
  · omega
  · rw [hs2] at hmod2
    rcases hs with hs | hs
    · rw [hs] at hmod
      omega
    · have : n = r.lo := by omega
      subst this
      omega

theorem lowerOfNat_cases (n : Nat) :
    lowerOfNat n = n
      ∨ (65 ≤ n ∧ n ≤ 90 ∧ lowerOfNat n = n + 32)
      ∨ (128 ≤ n ∧ ∃ r ∈ lowerRanges, r.contains n = true
          ∧ lowerOfNat n = n + r.up - r.down) := by
  unfold lowerOfNat
  by_cases h : n < 128
  · rw [if_pos h]
    by_cases h2 : 65 ≤ n ∧ n ≤ 90
    · rw [if_pos h2]
      exact Or.inr (Or.inl ⟨h2.1, h2.2, rfl⟩)
    · rw [if_neg h2]
      exact Or.inl rfl
  · rw [if_neg h]
    cases hf : lowerRanges.find? (fun r => r.contains n) with
    | none => exact Or.inl rfl
    | some r =>
      refine Or.inr (Or.inr ⟨by omega, r, List.mem_of_find?_eq_some hf, ?_, rfl⟩)
      have hp := List.find?_some hf
      exact hp

theorem lowerOfNat_fixed (n : Nat) (h1 : ¬ (65 ≤ n ∧ n ≤ 90))
    (h2 : ∀ r ∈ lowerRanges, r.contains n = false) : lowerOfNat n = n := by
  rcases lowerOfNat_cases n with h | ⟨ha, hb, _⟩ | ⟨_, r, hr, hc, _⟩
  · exact h
  · exact absurd ⟨ha, hb⟩ h1
  · rw [h2 r hr] at hc
    cases hc

/-- Lower-casing a rune twice gives what lower-casing it once gives. -/
theorem lowerOfNat_idem (n : Nat) : lowerOfNat (lowerOfNat n) = lowerOfNat n := by
  rcases lowerOfNat_cases n with h | ⟨ha, hb, h⟩ | ⟨_, r, hr, hc, h⟩
  · rw [h, h]
  · rw [h]
    apply lowerOfNat_fixed
    · omega
    · intro r hr
      obtain ⟨h128, _⟩ := lowerRanges_closed r hr
      rw [Bool.eq_false_iff]
      intro hc
      rw [contains_iff] at hc
      omega
  · rw [h]
    obtain ⟨_, h90, hd, hmiss⟩ := lowerRanges_closed r hr
    have hlo := ((contains_iff r n).mp hc).1
    apply lowerOfNat_fixed
    · omega
    · intro r2 hr2
      exact misses_sound r r2 n hc hd (hmiss r2 hr2)

theorem lowerOfNat_eq_32 (n : Nat) (h : lowerOfNat n = 32) : n = 32 := by
  rcases lowerOfNat_cases n with h1 | ⟨ha, hb, h1⟩ | ⟨_, r, hr, hc, h1⟩
  · omega
  · omega
  · obtain ⟨_, h90, hd, _⟩ := lowerRanges_closed r hr
    have hlo := ((contains_iff r n).mp hc).1
    omega

theorem toNat_ofNat_cases (m : Nat) : (Char.ofNat m).toNat = m ∨ (Char.ofNat m).toNat = 0 := by
  by_cases h : m.isValidChar
  · left
    unfold Char.ofNat
    rw [dif_pos h]
    rfl
  · right
    unfold Char.ofNat
    rw [dif_neg h]
    rfl

theorem unicodeToLower_ne_space (c : Char) (h : c ≠ ' ') : unicodeToLower c ≠ ' ' := by
  intro h2
  have h3 : (Char.ofNat (lowerOfNat c.toNat)).toNat = 32 := by
    have := congrArg Char.toNat h2
    exact this
  rcases toNat_ofNat_cases (lowerOfNat c.toNat) with h4 | h4
  · rw [h4] at h3
    have h5 := lowerOfNat_eq_32 _ h3
    apply h
    rw [← Char.ofNat_toNat c, h5]
  · omega

/-- The lower-case form of a rune has no other lower-case form. -/
theorem unicodeToLower_idem (c : Char) : unicodeToLower (unicodeToLower c) = unicodeToLower c := by
  unfold unicodeToLower
  rcases toNat_ofNat_cases (lowerOfNat c.toNat) with h4 | h4
  · rw [h4, lowerOfNat_idem]
  · rw [h4]
    have h0 : lowerOfNat 0 = 0 := rfl
    rw [h0]
    apply Char.ext
    have : (Char.ofNat 0).val = 0 := rfl
    rw [this]
    have h5 : (Char.ofNat (lowerOfNat c.toNat)).val.toNat = 0 := h4
    exact UInt32.ext (by simpa using h5.symm)

theorem unicodeToLower_ascii (c : Char) (h : c.toNat < 128) :
    unicodeToLower c = if 65 ≤ c.toNat ∧ c.toNat ≤ 90 then Char.ofNat (c.toNat + 32) else c := by
  unfold unicodeToLower lowerOfNat
  rw [if_pos h]
  split
  · rfl
  · exact Char.ofNat_toNat c

theorem makeID_data (s : String) : (makeID s).data = s.data.map slugChar := by
  simp only [makeID, stringsToLower, stringsReplaceChar, List.map_map]
  apply List.map_congr_left
  intro c _
  simp only [Function.comp, slugChar]
  split
  · rfl
  · rfl

/-- C4 as stated fails: the upper-case letter `ϒ` (U+03D2) has no lower-case
form, so both functions leave it as it is and the slug of a name with it holds
an upper-case letter (`unicode.IsUpper`). -/
theorem slug_keeps_upper_case_letter :
    makeID "ϒ" = "ϒ" ∧ Formatter.makeId "ϒ" = "ϒ" ∧ unicodeIsUpper 'ϒ' = true
      ∧ 'ϒ' ∈ (makeID "ϒ").data ∧ unicodeToLower 'ϒ' = 'ϒ' := by
  decide

/-- C4, as amended: `Formatter.makeId` and `makeID` agree on every string; the
slug is the string with `slugChar` applied to each character: a space becomes
a hyphen, every other character its lower-case form (`unicode.ToLower`: the
letters `A`..`Z` become `a`..`z`, `É` becomes `é`, `İ` becomes `i`), and a
character that is its own lower-case form (such as `;` or `/`) stays; so the
slug holds no space and no character that has another lower-case form. -/
theorem makeId_slug (s : String) :
    Formatter.makeId s = makeID s
    ∧ (makeID s).data = s.data.map slugChar
    ∧ slugChar ' ' = '-'
    ∧ (∀ c : Char, c ≠ ' ' → slugChar c = unicodeToLower c)
    ∧ (∀ c : Char, 65 ≤ c.toNat → c.toNat ≤ 90 → slugChar c = Char.ofNat (c.toNat + 32))
    ∧ slugChar 'É' = 'é' ∧ slugChar 'İ' = 'i' ∧ slugChar 'Σ' = 'σ' ∧ slugChar 'Ж' = 'ж'
    ∧ (∀ c : Char, c ≠ ' ' → unicodeToLower c = c → slugChar c = c)
    ∧ slugChar ';' = ';' ∧ slugChar '/' = '/'
    ∧ ' ' ∉ (makeID s).data
    ∧ (∀ c ∈ (makeID s).data, unicodeToLower c = c) := by
  refine ⟨rfl, makeID_data s, rfl, ?_, ?_, by decide, by decide, by decide, by decide, ?_,
    rfl, rfl, ?_, ?_⟩
  · intro c h
    simp only [slugChar, if_neg h]
  · intro c h1 h2
    have h3 : c ≠ ' ' := by
      rintro rfl
      exact absurd h1 (by decide)
    simp only [slugChar, if_neg h3]
    rw [unicodeToLower_ascii c (by omega), if_pos ⟨h1, h2⟩]
  · intro c h1 h2
    simp only [slugChar, if_neg h1, h2]
  · rw [makeID_data]
    intro hmem
    obtain ⟨c, _, hc⟩ := List.mem_map.mp hmem
    simp only [slugChar] at hc
    split at hc
    · exact absurd hc (by decide)
    · rename_i h
      exact unicodeToLower_ne_space c h hc
  · rw [makeID_data]
    intro c hmem
    obtain ⟨d, _, hd⟩ := List.mem_map.mp hmem
    subst hd
    simp only [slugChar]
    split
    · rfl
    · exact unicodeToLower_idem d

/-! ## Properties: the step classifier -/

theorem sortLoop_segment (g g' : Group) (xs rest : List TestStep) (sorted : SortedSteps)
    (h1 : ∀ x ∈ xs, g.advance x = g') (h2 : ∀ x ∈ xs, g'.advance x = g') :
    sortLoop g sorted (xs ++ rest)
      = sortLoop (if xs = [] then g else g') (xs.foldl (fun s x => s.appendTo g' x) sorted) rest := by
  induction xs generalizing g sorted with
  | nil => simp
  | cons x xs ih =>
    have hx : g.advance x = g' := h1 x (List.mem_cons_self _ _)
    have ih2 := ih g' (sorted.appendTo g' x)
      (fun y hy => h2 y (List.mem_cons_of_mem _ hy)) (fun y hy => h2 y (List.mem_cons_of_mem _ hy))
    rw [List.cons_append]
    show sortLoop (g.advance x) (sorted.appendTo (g.advance x) x) (xs ++ rest) = _
    rw [hx, ih2]
    simp

theorem foldl_appendTo_BeforeHook (xs : List TestStep) (s : SortedSteps) :
    xs.foldl (fun s x => s.appendTo .BeforeHook x) s = { s with BeforeHook := s.BeforeHook ++ xs } := by
  induction xs generalizing s with
  | nil => simp
  | cons x xs ih =>
    rw [List.foldl_cons, ih]
    simp [SortedSteps.appendTo]

theorem foldl_appendTo_Background (xs : List TestStep) (s : SortedSteps) :
    xs.foldl (fun s x => s.appendTo .Background x) s = { s with Background := s.Background ++ xs } := by
  induction xs generalizing s with
  | nil => simp
  | cons x xs ih =>
    rw [List.foldl_cons, ih]
    simp [SortedSteps.appendTo]

theorem foldl_appendTo_Steps (xs : List TestStep) (s : SortedSteps) :
    xs.foldl (fun s x => s.appendTo .Steps x) s = { s with Steps := s.Steps ++ xs } := by
  induction xs generalizing s with
  | nil => simp
  | cons x xs ih =>
    rw [List.foldl_cons, ih]
    simp [SortedSteps.appendTo]

theorem foldl_appendTo_AfterHook (xs : List TestStep) (s : SortedSteps) :
    xs.foldl (fun s x => s.appendTo .AfterHook x) s = { s with AfterHook := s.AfterHook ++ xs } := by
  induction xs generalizing s with
  | nil => simp
  | cons x xs ih =>
    rw [List.foldl_cons, ih]
    simp [SortedSteps.appendTo]

theorem sortLoop_last (g g' : Group) (xs : List TestStep) (sorted : SortedSteps)
    (h1 : ∀ x ∈ xs, g.advance x = g') (h2 : ∀ x ∈ xs, g'.advance x = g') :
    (sortLoop g sorted xs).2 = xs.foldl (fun s x => s.appendTo g' x) sorted := by
  have h := sortLoop_segment g g' xs [] sorted h1 h2
  rw [List.append_nil] at h
  rw [h]
  rfl

/-- C2: a Steps list made of hooks, then Background-owned non-hook steps,
then non-hook steps not owned by a Background, then hooks that are not
Background-owned, with at least one non-hook step, is split by `SortedSteps`
into exactly these four lists (nothing is asked of the Background flag of the
leading hooks). -/
theorem SortedSteps_wellFormed (tc : TestCase) (hooks1 bgs scs hooks2 : List TestStep)
    (hsteps : tc.Steps = hooks1 ++ bgs ++ scs ++ hooks2)
    (hh1 : ∀ x ∈ hooks1, x.Hook ≠ none)
    (hbg : ∀ x ∈ bgs, x.Hook = none ∧ x.IsBackgroundStep = true)
    (hsc : ∀ x ∈ scs, x.Hook = none ∧ x.IsBackgroundStep = false)
    (hh2 : ∀ x ∈ hooks2, x.Hook ≠ none ∧ x.IsBackgroundStep = false)
    (hne : 1 ≤ bgs.length + scs.length) :
    tc.SortedSteps
      = { BeforeHook := hooks1, Background := bgs, Steps := scs, AfterHook := hooks2 } := by
  unfold TestCase.SortedSteps
  rw [hsteps, List.append_assoc, List.append_assoc]
  rw [sortLoop_segment .BeforeHook .BeforeHook hooks1 _ _
    (fun x hx => by simp [Group.advance, hh1 x hx]) (fun x hx => by simp [Group.advance, hh1 x hx])]
  rw [foldl_appendTo_BeforeHook]
  simp only [ite_self, List.nil_append]
  rw [sortLoop_segment .BeforeHook .Background bgs _ _
    (fun x hx => by simp [Group.advance, hbg x hx]) (fun x hx => by simp [Group.advance, hbg x hx])]
  rw [foldl_appendTo_Background]
  by_cases hb : bgs = []
  · subst hb
    have hs : scs ≠ [] := by
      intro h; subst h; simp at hne
    simp only [if_true, List.nil_append]
    rw [sortLoop_segment .BeforeHook .Steps scs _ _
      (fun x hx => by simp [Group.advance, hsc x hx]) (fun x hx => by simp [Group.advance, hsc x hx])]
    rw [foldl_appendTo_Steps, if_neg hs]
    rw [sortLoop_last .Steps .AfterHook hooks2 _
      (fun x hx => by simp [Group.advance, hh2 x hx]) (fun x hx => by simp [Group.advance, hh2 x hx])]
    rw [foldl_appendTo_AfterHook]
    simp
  · simp only [if_neg hb, List.nil_append]
    rw [sortLoop_segment .Background .Steps scs _ _
      (fun x hx => by simp [Group.advance, hsc x hx]) (fun x hx => by simp [Group.advance, hsc x hx])]
    rw [foldl_appendTo_Steps]
    by_cases hs : scs = []
    · subst hs
      simp only [if_true, List.nil_append]
      rw [sortLoop_last .Background .AfterHook hooks2 _
        (fun x hx => by simp [Group.advance, hh2 x hx]) (fun x hx => by simp [Group.advance, hh2 x hx])]
      rw [foldl_appendTo_AfterHook]
      simp
    · simp only [if_neg hs, List.nil_append]
      rw [sortLoop_last .Steps .AfterHook hooks2 _
        (fun x hx => by simp [Group.advance, hh2 x hx]) (fun x hx => by simp [Group.advance, hh2 x hx])]
      rw [foldl_appendTo_AfterHook]
      simp

/-- The split of the steps hook, background, background, scenario, scenario,
hook of `sampleTestCase`. -/
theorem SortedSteps_wellFormed_witness :
    sampleTestCase.SortedSteps
      = { BeforeHook := [sampleHookStep]
          Background := [sampleBackgroundStep, sampleBackgroundStep]
          Steps := [sampleScenarioStep, sampleScenarioStep]
          AfterHook := [sampleHookStep] } :=
  SortedSteps_wellFormed sampleTestCase [sampleHookStep]
    [sampleBackgroundStep, sampleBackgroundStep] [sampleScenarioStep, sampleScenarioStep]
    [sampleHookStep] rfl (by decide) (by decide) (by decide) (by decide) (by decide)

theorem advance_rank_le (g : Group) (x : TestStep) : g.rank ≤ (g.advance x).rank := by
  cases g <;> cases hH : x.Hook <;> cases hB : x.IsBackgroundStep <;>
    simp [Group.advance, Group.rank, hH, hB]

theorem groupTrace_rank_ge (g : Group) (steps : List TestStep) :
    ∀ b ∈ groupTrace g steps, g.rank ≤ b.rank := by
  induction steps generalizing g with
  | nil => intro b hb; simp [groupTrace] at hb
  | cons x rest ih =>
    intro b hb
    simp only [groupTrace, List.mem_cons] at hb
    rcases hb with rfl | hb
    · exact advance_rank_le g x
    · exact Nat.le_trans (advance_rank_le g x) (ih _ b hb)

theorem groupTrace_sorted (g : Group) (steps : List TestStep) :
    List.Pairwise (fun a b => a.rank ≤ b.rank) (groupTrace g steps) := by
  induction steps generalizing g with
  | nil => simp [groupTrace]
  | cons x rest ih =>
    simp only [groupTrace, List.pairwise_cons]
    exact ⟨groupTrace_rank_ge _ rest, ih _⟩

theorem groupTrace_length (g : Group) (steps : List TestStep) :
    (groupTrace g steps).length = steps.length := by
  induction steps generalizing g with
  | nil => rfl
  | cons x rest ih => simp [groupTrace, ih]

theorem stepsOfGroup_cons (g a : Group) (x : TestStep) (rest : List TestStep) (tr : List Group) :
    stepsOfGroup g (x :: rest) (a :: tr)
      = (if a = g then [x] else []) ++ stepsOfGroup g rest tr := by
  simp only [stepsOfGroup, List.zip_cons_cons, List.filter_cons]
  by_cases h : a = g <;> simp [h]

theorem sortLoop_groups (g : Group) (sorted : SortedSteps) (steps : List TestStep) :
    (sortLoop g sorted steps).2.BeforeHook
        = sorted.BeforeHook ++ stepsOfGroup .BeforeHook steps (groupTrace g steps)
    ∧ (sortLoop g sorted steps).2.Background
        = sorted.Background ++ stepsOfGroup .Background steps (groupTrace g steps)
    ∧ (sortLoop g sorted steps).2.Steps
        = sorted.Steps ++ stepsOfGroup .Steps steps (groupTrace g steps)
    ∧ (sortLoop g sorted steps).2.AfterHook
        = sorted.AfterHook ++ stepsOfGroup .AfterHook steps (groupTrace g steps) := by
  induction steps generalizing g sorted with
  | nil => simp [sortLoop, groupTrace, stepsOfGroup]
  | cons x rest ih =>
    obtain ⟨h1, h2, h3, h4⟩ := ih (g.advance x) (sorted.appendTo (g.advance x) x)
    simp only [sortLoop, groupTrace, stepsOfGroup_cons]
    rw [h1, h2, h3, h4]
    cases hg : g.advance x <;> simp [SortedSteps.appendTo]

/-- The groups behind the cursor are still empty. -/
theorem sortLoop_concat (g : Group) (sorted : SortedSteps) (steps : List TestStep)
    (hb : g.rank < 1 → sorted.Background = [])
    (hs : g.rank < 2 → sorted.Steps = [])
    (ha : g.rank < 3 → sorted.AfterHook = []) :
    (sortLoop g sorted steps).2.BeforeHook ++ (sortLoop g sorted steps).2.Background
        ++ (sortLoop g sorted steps).2.Steps ++ (sortLoop g sorted steps).2.AfterHook
      = sorted.BeforeHook ++ sorted.Background ++ sorted.Steps ++ sorted.AfterHook ++ steps := by
  induction steps generalizing g sorted with
  | nil => simp [sortLoop]
  | cons x rest ih =>
    have hle := advance_rank_le g x
    simp only [sortLoop]
    cases hg : g.advance x
    · rw [hg] at hle
      have hg0 : g.rank < 1 := by
        have : Group.BeforeHook.rank = 0 := rfl
        omega
      rw [ih .BeforeHook _ (by intro _; simpa [SortedSteps.appendTo] using hb hg0)
        (by intro _; simpa [SortedSteps.appendTo] using hs (by omega))
        (by intro _; simpa [SortedSteps.appendTo] using ha (by omega))]
      simp [SortedSteps.appendTo, hb hg0, hs (by omega), ha (by omega)]
    · rw [hg] at hle
      have hg0 : g.rank < 2 := by
        have : Group.Background.rank = 1 := rfl
        omega
      rw [ih .Background _ (by intro h; simp [Group.rank] at h)
        (by intro _; simpa [SortedSteps.appendTo] using hs hg0)
        (by intro _; simpa [SortedSteps.appendTo] using ha (by omega))]
      simp [SortedSteps.appendTo, hs hg0, ha (by omega)]
    · rw [hg] at hle
      have hg0 : g.rank < 3 := by
        have : Group.Steps.rank = 2 := rfl
        omega
      rw [ih .Steps _ (by intro h; simp [Group.rank] at h)
        (by intro h; simp [Group.rank] at h)
        (by intro _; simpa [SortedSteps.appendTo] using ha hg0)]
      simp [SortedSteps.appendTo, ha hg0]
    · rw [ih .AfterHook _ (by intro h; simp [Group.rank] at h)
        (by intro h; simp [Group.rank] at h) (by intro h; simp [Group.rank] at h)]
      simp [SortedSteps.appendTo]

/-- C3: for every Steps list the four groups of `SortedSteps`, concatenated in
the order BeforeHook, Background, Steps, AfterHook, are the input list; each
group is made of the steps that the cursor assigned to it, in input order; and
along the list the assigned group never moves backward in that order. -/
theorem SortedSteps_partition (tc : TestCase) :
    tc.SortedSteps.BeforeHook ++ tc.SortedSteps.Background ++ tc.SortedSteps.Steps
        ++ tc.SortedSteps.AfterHook = tc.Steps
    ∧ (groupTrace .BeforeHook tc.Steps).length = tc.Steps.length
    ∧ tc.SortedSteps.BeforeHook = stepsOfGroup .BeforeHook tc.Steps (groupTrace .BeforeHook tc.Steps)
    ∧ tc.SortedSteps.Background = stepsOfGroup .Background tc.Steps (groupTrace .BeforeHook tc.Steps)
    ∧ tc.SortedSteps.Steps = stepsOfGroup .Steps tc.Steps (groupTrace .BeforeHook tc.Steps)
    ∧ tc.SortedSteps.AfterHook = stepsOfGroup .AfterHook tc.Steps (groupTrace .BeforeHook tc.Steps)
    ∧ List.Pairwise (fun a b => a.rank ≤ b.rank) (groupTrace .BeforeHook tc.Steps) := by
  obtain ⟨h1, h2, h3, h4⟩ := sortLoop_groups .BeforeHook
    { BeforeHook := [], Background := [], Steps := [], AfterHook := [] } tc.Steps
  refine ⟨?_, groupTrace_length _ _, ?_, ?_, ?_, ?_, groupTrace_sorted _ _⟩
  · have := sortLoop_concat .BeforeHook
      { BeforeHook := [], Background := [], Steps := [], AfterHook := [] } tc.Steps
      (fun _ => rfl) (fun _ => rfl) (fun _ => rfl)
    simpa [TestCase.SortedSteps] using this
  · simpa [TestCase.SortedSteps] using h1
  · simpa [TestCase.SortedSteps] using h2
  · simpa [TestCase.SortedSteps] using h3
  · simpa [TestCase.SortedSteps] using h4

/-! ## Properties: the run of the reducer -/

theorem bind_eq_ok {ε α β : Type} (x : Except ε α) (f : α → Except ε β) (b : β) :
    (x >>= f) = .ok b ↔ ∃ a, x = .ok a ∧ f a = .ok b := by
  cases x with
  | error e => simp [bind, Except.bind]
  | ok a => simp [bind, Except.bind]

theorem deref_eq_ok {α : Type} (p : Option α) (a : α) : deref p = .ok a ↔ p = some a := by
  cases p <;> simp [deref]

theorem index0_eq_ok {α : Type} (xs : List α) (a : α) :
    index0 xs = .ok a ↔ xs.head? = some a := by
  cases xs <;> simp [index0]

theorem GoMap.set_same {V : Type} (m : GoMap V) (k : String) (v : V) : m.set k v k = some v := by
  simp [GoMap.set]

theorem GoMap.set_other {V : Type} (m : GoMap V) (k k' : String) (v : V) (h : k' ≠ k) :
    m.set k v k' = m k' := by
  simp [GoMap.set, h]

theorem readLoop_append (self : Formatter) (es1 es2 : List Envelope) :
    self.readLoop ((es1 ++ es2).map .msg)
      = (self.readLoop (es1.map .msg) >>= fun s => s.readLoop (es2.map .msg)) := by
  induction es1 generalizing self with
  | nil => simp [Formatter.readLoop, bind, Except.bind]
  | cons e es1 ih =>
    simp only [List.cons_append, List.map_cons, Formatter.readLoop]
    cases h : self.processEnvelope e with
    | error f => simp [bind, Except.bind]
    | ok s => simpa [bind, Except.bind] using ih s

theorem readLoop_snoc (self : Formatter) (es : List Envelope) (e : Envelope) (F' : Formatter) :
    self.readLoop ((es ++ [e]).map .msg) = .ok F'
      ↔ ∃ F, self.readLoop (es.map .msg) = .ok F ∧ F.processEnvelope e = .ok F' := by
  rw [readLoop_append, bind_eq_ok]
  constructor
  · rintro ⟨F, h1, h2⟩
    refine ⟨F, h1, ?_⟩
    simp only [List.map_cons, List.map_nil, Formatter.readLoop, bind_eq_ok] at h2
    obtain ⟨s, hs, h3⟩ := h2
    cases h3
    exact hs
  · rintro ⟨F, h1, h2⟩
    refine ⟨F, h1, ?_⟩
    simp only [List.map_cons, List.map_nil, Formatter.readLoop, bind_eq_ok]
    exact ⟨F', h2, rfl⟩

/-- Induction along a run of the reducer from the reset state. -/
theorem run_induction (P : List Envelope → Formatter → Prop)
    (h0 : P [] Formatter.reset)
    (hstep : ∀ es F e F', Formatter.reset.readLoop (es.map .msg) = .ok F → P es F →
      F.processEnvelope e = .ok F' → P (es ++ [e]) F')
    (es : List Envelope) (F : Formatter)
    (h : Formatter.reset.readLoop (es.map .msg) = .ok F) : P es F := by
  induction es using List.reverseRecOn generalizing F with
  | nil =>
    simp only [List.map_nil, Formatter.readLoop] at h
    cases h
    exact h0
  | append_singleton es e ih =>
    obtain ⟨G, hG, hG2⟩ := (readLoop_snoc _ es e F).mp h
    exact hstep es G e F hG (ih G hG) hG2

/-- The result of `ProcessMessages` is that of the loop from the reset state. -/
theorem ProcessMessages_result (self0 : Formatter) (reader : List ReadResult) :
    (Formatter.ProcessMessages self0 reader).result = Formatter.reset.readLoop reader := by
  unfold Formatter.ProcessMessages
  show (match Formatter.reset.readLoop reader with
    | .error f => ({ stdout := [], result := .error f } : Run)
    | .ok self1 => { stdout := [self1.outputTree], result := .ok self1 }).result = _
  cases Formatter.reset.readLoop reader <;> rfl

/-- A run that returns normally leaves the formatter `finalOf`. -/
theorem finalOf_run (self0 : Formatter) (es : List Envelope)
    (h : isOk (Formatter.reset.readLoop (es.map .msg)) = true) :
    (Formatter.ProcessMessages self0 (es.map .msg)).result = .ok (finalOf es) := by
  rw [ProcessMessages_result]
  unfold finalOf
  cases hr : Formatter.reset.readLoop (es.map .msg) with
  | ok F => rfl
  | error f => simp [hr, isOk] at h

theorem finalOf_eq {es : List Envelope} {F : Formatter}
    (h : Formatter.reset.readLoop (es.map .msg) = .ok F) : finalOf es = F := by
  unfold finalOf
  rw [h]

/-- The last step of a run that returns normally, between the formatters
`finalOf` of the stream without and with its last record. -/
theorem finalOf_step (es : List Envelope) (e : Envelope)
    (h : isOk (Formatter.reset.readLoop ((es ++ [e]).map .msg)) = true) :
    (finalOf es).processEnvelope e = .ok (finalOf (es ++ [e])) := by
  cases hr : Formatter.reset.readLoop ((es ++ [e]).map .msg) with
  | error f =>
    rw [hr] at h
    cases h
  | ok F' =>
    obtain ⟨F, hF, hstep⟩ := (readLoop_snoc _ _ _ _).mp hr
    rw [finalOf_eq hF, finalOf_eq hr]
    exact hstep

theorem ProcessMessage_eq_ok (l : MessageLookup) (e : Envelope) :
    ∃ l', l.ProcessMessage e = .ok l' := by
  cases e <;> simp only [MessageLookup.ProcessMessage]
  case gherkinDocument d => cases d.Feature <;> simp
  all_goals simp

/-- What the Document case does to the formatter. -/
theorem processEnvelope_document {F F' : Formatter} {d : GherkinDocument}
    (h : F.processEnvelope (.gherkinDocument d) = .ok F') :
    ∃ l' feat, F.lookup.ProcessMessage (.gherkinDocument d) = .ok l' ∧ d.Feature = some feat
      ∧ F' = { F with lookup := l'
                      exampleRowIndexById := feat.Children.foldl indexChild F.exampleRowIndexById } := by
  simp only [Formatter.processEnvelope, bind_eq_ok, Formatter.processGherkinDocument,
    deref_eq_ok] at h
  obtain ⟨l', hl, feat, hf, h2⟩ := h
  cases h2
  exact ⟨l', feat, hl, hf, rfl⟩

/-- The envelopes that only feed the index. -/
theorem processEnvelope_indexOnly {F F' : Formatter} {e : Envelope}
    (hd : ∀ d, e ≠ .gherkinDocument d) (hp : ∀ p, e ≠ .pickle p)
    (ht : ∀ m, e ≠ .testStepFinished m)
    (h : F.processEnvelope e = .ok F') :
    ∃ l', F.lookup.ProcessMessage e = .ok l' ∧ F' = { F with lookup := l' } := by
  simp only [Formatter.processEnvelope, bind_eq_ok] at h
  obtain ⟨l', hl, h2⟩ := h
  cases e with
  | gherkinDocument d => exact absurd rfl (hd d)
  | pickle p => exact absurd rfl (hp p)
  | testStepFinished m => exact absurd rfl (ht m)
  | _ =>
    cases h2
    exact ⟨l', hl, rfl⟩

theorem updateAt_length {α : Type} (xs : List α) (i : Nat) (f : α → α) :
    (updateAt xs i f).length = xs.length := by
  induction xs generalizing i with
  | nil => simp [updateAt]
  | cons x rest ih => cases i <;> simp [updateAt, ih]

theorem updateAt_getElem? {α : Type} (xs : List α) (i j : Nat) (f : α → α) :
    (updateAt xs i f)[j]? = if j = i then (xs[j]?).map f else xs[j]? := by
  induction xs generalizing i j with
  | nil => simp [updateAt]
  | cons x rest ih =>
    cases i with
    | zero =>
      cases j with
      | zero => simp [updateAt]
      | succ j => simp [updateAt]
    | succ i =>
      cases j with
      | zero => simp [updateAt]
      | succ j => simp [updateAt, ih]

theorem processEnvelope_pickle {F F' : Formatter} {p : Pickle}
    (h : F.processEnvelope (.pickle p) = .ok F') :
    ∃ l', F.lookup.ProcessMessage (.pickle p) = .ok l'
      ∧ ({ F with lookup := l' } : Formatter).processPickle p = .ok F' := by
  simp only [Formatter.processEnvelope, bind_eq_ok] at h
  obtain ⟨l', hl, h2⟩ := h
  exact ⟨l', hl, h2⟩

theorem processPickle_eq_ok {self F' : Formatter} {p : Pickle}
    (h : self.processPickle p = .ok F') :
    ∃ self1 jf sid sc st bgs f idl tags,
      self.findOrCreateJsonFeature p = .ok (self1, jf)
      ∧ p.SourceIds.head? = some sid
      ∧ self1.lookup.LookupScenario sid = some sc
      ∧ self1.pickleStepsLoop p self1.pickleLoopStart p.Steps = .ok st
      ∧ backgroundElementsOf st = .ok bgs
      ∧ self1.jsonFeatures[jf]? = some f
      ∧ self1.scenarioIDAndLine p f.ID sc = .ok idl
      ∧ self1.pickleTagsLoop p.Tags = .ok tags
      ∧ F' = { self1 with
               jsonSteps := st.jsonSteps
               jsonStepsByPickleStepId := st.jsonStepsByPickleStepId
               jsonFeatures := updateAt self1.jsonFeatures jf (fun f =>
                 { f with Elements := f.Elements ++ bgs
                            ++ [newScenarioElement sc idl.1 idl.2 st.scenarioJsonSteps tags] }) } := by
  simp only [Formatter.processPickle, bind_eq_ok, deref_eq_ok, index0_eq_ok] at h
  obtain ⟨⟨self1, jf⟩, h1, sid, h2, sc, h3, st, h4, bgs, h5, f, h6, idl, h7, tags, h8, h9⟩ := h
  cases h9
  exact ⟨self1, jf, sid, sc, st, bgs, f, idl, tags, h1, h2, h3, h4, h5, h6, h7, h8, rfl⟩

/-- The feature that `newJsonFeature` returns. -/
theorem newJsonFeature_eq_ok {p : Pickle} {feat : Feature} {f : jsonFeature}
    (h : newJsonFeature p feat = .ok f) :
    f.Elements = [] ∧ f.ID = Formatter.makeId feat.Name ∧ f.URI = p.Uri ∧ f.Name = feat.Name := by
  simp only [newJsonFeature, bind_eq_ok, deref_eq_ok] at h
  obtain ⟨loc, _, tags, _, h2⟩ := h
  cases h2
  exact ⟨rfl, rfl, rfl, rfl⟩

theorem findOrCreate_eq_ok {self self1 : Formatter} {p : Pickle} {jf : Nat}
    (h : self.findOrCreateJsonFeature p = .ok (self1, jf)) :
    (self.jsonFeaturesByURI p.Uri = some jf ∧ self1 = self)
    ∨ (self.jsonFeaturesByURI p.Uri = none ∧ jf = self.jsonFeatures.length
        ∧ ∃ doc feat fNew, self.lookup.LookupGherkinDocument p.Uri = some doc
          ∧ doc.Feature = some feat ∧ newJsonFeature p feat = .ok fNew
          ∧ self1 = { self with
                      jsonFeaturesByURI := self.jsonFeaturesByURI.set p.Uri self.jsonFeatures.length
                      jsonFeatures := self.jsonFeatures ++ [fNew] }) := by
  unfold Formatter.findOrCreateJsonFeature at h
  split at h
  · rename_i i hi
    cases h
    exact Or.inl ⟨hi, rfl⟩
  · rename_i hi
    simp only [bind_eq_ok, deref_eq_ok] at h
    obtain ⟨doc, hdoc, feat, hfeat, fNew, hnew, h2⟩ := h
    cases h2
    exact Or.inr ⟨hi, rfl, doc, feat, fNew, hdoc, hfeat, hnew, rfl⟩

theorem processEnvelope_tsf {F F' : Formatter} {m : TestStepFinished}
    (h : F.processEnvelope (.testStepFinished m) = .ok F') :
    ∃ testStep pickleStep ptr tr newMatch,
      F.lookup.LookupTestStepByID m.TestStepId = some testStep
      ∧ F.lookup.LookupPickleStepByID testStep.PickleStepId = some pickleStep
      ∧ F.jsonStepsByPickleStepId pickleStep.Id = some ptr
      ∧ m.TestResult = some tr
      ∧ newStepMatch (F.lookup.LookupStepDefinitionConfigsByIDs testStep.StepDefinitionId)
          = .ok newMatch
      ∧ F' = { F with jsonSteps := updateAt F.jsonSteps ptr (attachResult tr newMatch) } := by
  simp only [Formatter.processEnvelope, MessageLookup.ProcessMessage, bind_eq_ok,
    Formatter.processTestStepFinished, deref_eq_ok] at h
  obtain ⟨l', hl, ts, h1, ps, h2, ptr, h3, tr, h4, nm, h5, h6⟩ := h
  cases hl
  cases h6
  exact ⟨ts, ps, ptr, tr, nm, h1, h2, h3, h4, h5, rfl⟩

/-! ## Properties: the display index of the example rows -/

theorem indexRows_other (m : GoMap Nat) (k : Nat) (rows : List TableRow) (id : String)
    (h : id ∉ rows.map (fun row => row.Id)) : indexRows m k rows id = m id := by
  induction rows generalizing m k with
  | nil => rfl
  | cons row rest ih =>
    simp only [List.map_cons, List.mem_cons, not_or] at h
    simp only [indexRows]
    rw [ih _ _ h.2, GoMap.set_other _ _ _ _ h.1]

theorem indexRows_get (m : GoMap Nat) (k : Nat) (rows : List TableRow)
    (hnd : (rows.map (fun row => row.Id)).Nodup) (i : Nat) (row : TableRow)
    (hi : rows[i]? = some row) : indexRows m k rows row.Id = some (k + i + 2) := by
  induction rows generalizing m k i with
  | nil => simp at hi
  | cons r rest ih =>
    simp only [List.map_cons, List.nodup_cons] at hnd
    simp only [indexRows]
    cases i with
    | zero =>
      simp only [List.getElem?_cons_zero, Option.some.injEq] at hi
      subst hi
      rw [indexRows_other _ _ _ _ hnd.1, GoMap.set_same]
    | succ i =>
      simp only [List.getElem?_cons_succ] at hi
      rw [ih _ _ hnd.2 i hi]
      congr 1
      omega

theorem indexChild_eq (m : GoMap Nat) (c : FeatureChild) :
    indexChild m c = (bodiesOfChild c).foldl (fun m body => indexRows m 0 body) m := by
  unfold indexChild bodiesOfChild
  cases c.GetScenario with
  | none => rfl
  | some sc => simp [List.foldl_map]

theorem foldl_indexChild_eq (m : GoMap Nat) (children : List FeatureChild) :
    children.foldl indexChild m
      = (children.flatMap bodiesOfChild).foldl (fun m body => indexRows m 0 body) m := by
  induction children generalizing m with
  | nil => rfl
  | cons c rest ih =>
    simp only [List.foldl_cons, List.flatMap_cons, List.foldl_append, ih, indexChild_eq]

theorem foldl_indexRows_other (m : GoMap Nat) (bodies : List (List TableRow)) (id : String)
    (h : id ∉ bodies.flatten.map (fun row => row.Id)) :
    bodies.foldl (fun m body => indexRows m 0 body) m id = m id := by
  induction bodies generalizing m with
  | nil => rfl
  | cons b rest ih =>
    simp only [List.flatten_cons, List.map_append, List.mem_append, not_or] at h
    simp only [List.foldl_cons]
    rw [ih _ h.2, indexRows_other _ _ _ _ h.1]

theorem foldl_indexRows_get (m : GoMap Nat) (bodies : List (List TableRow))
    (hnd : (bodies.flatten.map (fun row => row.Id)).Nodup)
    (body : List TableRow) (hb : body ∈ bodies) (i : Nat) (row : TableRow)
    (hi : body[i]? = some row) :
    bodies.foldl (fun m body => indexRows m 0 body) m row.Id = some (i + 2) := by
  induction bodies generalizing m with
  | nil => simp at hb
  | cons b rest ih =>
    simp only [List.flatten_cons, List.map_append, List.nodup_append] at hnd
    obtain ⟨hnb, hnr, hdis⟩ := hnd
    simp only [List.foldl_cons]
    rcases List.mem_cons.mp hb with rfl | hb2
    · have hmem : row.Id ∈ body.map (fun row => row.Id) :=
        List.mem_map.mpr ⟨row, List.mem_iff_getElem?.mpr ⟨i, hi⟩, rfl⟩
      rw [foldl_indexRows_other _ _ _ (fun h2 => hdis hmem h2), indexRows_get _ _ _ hnb i row hi]
      simp
    · exact ih _ hnr hb2

/-- The display indexes recorded by a Document record. -/
theorem processDocument_index {F F' : Formatter} {d : GherkinDocument}
    (h : F.processEnvelope (.gherkinDocument d) = .ok F') :
    F'.exampleRowIndexById
      = (exampleBodiesOf d).foldl (fun m body => indexRows m 0 body) F.exampleRowIndexById := by
  obtain ⟨l', feat, _, hfeat, rfl⟩ := processEnvelope_document h
  simp only [exampleBodiesOf, hfeat, foldl_indexChild_eq]

/-- The envelopes other than Documents leave the display indexes as they are. -/
theorem processEnvelope_index_frame {F F' : Formatter} {e : Envelope}
    (hd : ∀ d, e ≠ .gherkinDocument d) (h : F.processEnvelope e = .ok F') :
    F'.exampleRowIndexById = F.exampleRowIndexById := by
  cases e with
  | gherkinDocument d => exact absurd rfl (hd d)
  | pickle p =>
    obtain ⟨l', _, h2⟩ := processEnvelope_pickle h
    obtain ⟨self1, jf, sid, sc, st, bgs, f, idl, tags, h1, _, _, _, _, _, _, _, rfl⟩ :=
      processPickle_eq_ok h2
    rcases findOrCreate_eq_ok h1 with ⟨_, rfl⟩ | ⟨_, _, doc, feat, fNew, _, _, _, rfl⟩ <;> rfl
  | testStepFinished m =>
    obtain ⟨ts, ps, ptr, tr, nm, _, _, _, _, _, rfl⟩ := processEnvelope_tsf h
    rfl
  | _ =>
    obtain ⟨l', _, rfl⟩ := processEnvelope_indexOnly (by intro d; simp) (by intro d; simp)
      (by intro d; simp) h
    rfl

theorem indexRows_ge_two (m : GoMap Nat) (k : Nat) (rows : List TableRow)
    (hm : ∀ id n, m id = some n → 2 ≤ n) :
    ∀ id n, indexRows m k rows id = some n → 2 ≤ n := by
  induction rows generalizing m k with
  | nil => exact hm
  | cons row rest ih =>
    simp only [indexRows]
    apply ih
    intro id n hn
    by_cases hid : id = row.Id
    · rw [hid, GoMap.set_same] at hn
      cases hn
      omega
    · rw [GoMap.set_other _ _ _ _ hid] at hn
      exact hm id n hn

theorem foldl_indexRows_ge_two (m : GoMap Nat) (bodies : List (List TableRow))
    (hm : ∀ id n, m id = some n → 2 ≤ n) :
    ∀ id n, bodies.foldl (fun m body => indexRows m 0 body) m id = some n → 2 ≤ n := by
  induction bodies generalizing m with
  | nil => exact hm
  | cons b rest ih =>
    simp only [List.foldl_cons]
    exact ih _ (indexRows_ge_two m 0 b hm)

/-- Every display index recorded is at least 2. -/
theorem run_index_ge_two (es : List Envelope) (F : Formatter)
    (h : Formatter.reset.readLoop (es.map .msg) = .ok F) :
    ∀ id n, F.exampleRowIndexById id = some n → 2 ≤ n := by
  refine run_induction (fun _ F => ∀ id n, F.exampleRowIndexById id = some n → 2 ≤ n)
    ?_ ?_ es F h
  · intro id n hn
    simp [Formatter.reset, GoMap.empty] at hn
  · intro es F e F' _ ih hstep
    by_cases hd : ∃ d, e = .gherkinDocument d
    · obtain ⟨d, rfl⟩ := hd
      rw [processDocument_index hstep]
      exact foldl_indexRows_ge_two _ _ ih
    · rw [processEnvelope_index_frame (fun d h2 => hd ⟨d, h2⟩) hstep]
      exact ih

/-- The display indexes of the rows of the Documents of a stream whose example
row ids are pairwise distinct. -/
theorem run_displayIndex (es : List Envelope) (F : Formatter)
    (h : Formatter.reset.readLoop (es.map .msg) = .ok F) :
    (streamRowIds es).Nodup → ∀ d ∈ docsOf es,
    ∀ body ∈ exampleBodiesOf d, ∀ (i : Nat) (row : TableRow), body[i]? = some row →
      F.exampleRowIndexById row.Id = some (i + 2) := by
  refine run_induction (fun es F => (streamRowIds es).Nodup → ∀ d ∈ docsOf es,
    ∀ body ∈ exampleBodiesOf d, ∀ (i : Nat) (row : TableRow), body[i]? = some row →
      F.exampleRowIndexById row.Id = some (i + 2)) ?_ ?_ es F h
  · intro _ d hd
    simp [docsOf] at hd
  · intro es F e F' _ ih hstep hnd d hd body hbody i row hrow
    by_cases hdoc : ∃ d', e = .gherkinDocument d'
    · obtain ⟨d', rfl⟩ := hdoc
      have hs : streamRowIds (es ++ [.gherkinDocument d'])
          = streamRowIds es ++ (exampleBodiesOf d').flatten.map (fun row => row.Id) := by
        simp [streamRowIds, docsOf, List.filterMap_append]
      rw [hs, List.nodup_append] at hnd
      obtain ⟨hnd1, hnd2, hdis⟩ := hnd
      rw [processDocument_index hstep]
      have hd2 : d ∈ docsOf es ∨ d = d' := by
        simpa [docsOf, List.filterMap_append] using hd
      rcases hd2 with hd2 | rfl
      · have hmem : row.Id ∈ streamRowIds es := by
          simp only [streamRowIds, List.mem_flatMap, List.mem_map, List.mem_flatten]
          exact ⟨d, hd2, row, ⟨body, hbody, List.mem_iff_getElem?.mpr ⟨i, hrow⟩⟩, rfl⟩
        rw [foldl_indexRows_other _ _ _ (fun h2 => hdis hmem h2)]
        exact ih hnd1 d hd2 body hbody i row hrow
      · exact foldl_indexRows_get _ _ hnd2 body hbody i row hrow
    · have hne : ∀ d', e ≠ .gherkinDocument d' := fun d' h2 => hdoc ⟨d', h2⟩
      have hs : streamRowIds (es ++ [e]) = streamRowIds es := by
        cases e <;> first | exact absurd rfl (hne _) | simp [streamRowIds, docsOf, List.filterMap_append]
      have hd2 : d ∈ docsOf es := by
        cases e <;> first | exact absurd rfl (hne _) | simpa [docsOf, List.filterMap_append] using hd
      rw [hs] at hnd
      rw [processEnvelope_index_frame hne hstep]
      exact ih hnd d hd2 body hbody i row hrow

/-- C5: after a run of `ProcessMessages` over a stream whose example row ids
are pairwise distinct, for every Document record of the stream, every example
block of it and every row at the zero-based position `i` of the body of that
block, the display index recorded under the id of the row is `i + 2`; and
every display index recorded is at least 2. -/
theorem exampleRow_displayIndex (self0 : Formatter) (es : List Envelope) (F : Formatter)
    (hrun : (Formatter.ProcessMessages self0 (es.map ReadResult.msg)).result = .ok F)
    (hids : (streamRowIds es).Nodup) :
    (∀ d ∈ docsOf es, ∀ body ∈ exampleBodiesOf d, ∀ (i : Nat) (row : TableRow),
      body[i]? = some row → F.exampleRowIndexById row.Id = some (i + 2))
    ∧ (∀ id n, F.exampleRowIndexById id = some n → 2 ≤ n) := by
  rw [ProcessMessages_result] at hrun
  constructor
  · exact run_displayIndex es F hrun hids
  · intro id n hn
    exact run_index_ge_two es F hrun id n hn

/-- The display indexes after the run over `sampleStream`. -/
theorem exampleRow_displayIndex_witness :
    (∀ d ∈ docsOf sampleStream, ∀ body ∈ exampleBodiesOf d, ∀ (i : Nat) (row : TableRow),
      body[i]? = some row → (finalOf sampleStream).exampleRowIndexById row.Id = some (i + 2))
    ∧ (∀ id n, (finalOf sampleStream).exampleRowIndexById id = some n → 2 ≤ n) :=
  exampleRow_displayIndex Formatter.reset sampleStream (finalOf sampleStream)
    (finalOf_run Formatter.reset sampleStream rfl) (by decide)

/-- The display indexes on the sample stream: the two rows of the example
block get 2 and 3. -/
theorem sample_row_indexes :
    ["row-1", "row-2"].map (finalOf sampleStream).exampleRowIndexById = [some 2, some 3] := by
  decide

/-! ## Properties: the identifier index -/

theorem foldl_set_some {α V : Type} (xs : List α) (key : α → String) (val : α → V)
    (m : GoMap V) (id : String) (v : V)
    (h : xs.foldl (fun m x => m.set (key x) (val x)) m id = some v) :
    m id = some v ∨ ∃ x ∈ xs, key x = id ∧ val x = v := by
  induction xs generalizing m with
  | nil => exact Or.inl h
  | cons x rest ih =>
    simp only [List.foldl_cons] at h
    rcases ih _ h with h2 | ⟨y, hy, hk, hv⟩
    · by_cases hid : id = key x
      · subst hid
        rw [GoMap.set_same] at h2
        exact Or.inr ⟨x, List.mem_cons_self _ _, rfl, Option.some.inj h2⟩
      · rw [GoMap.set_other _ _ _ _ hid] at h2
        exact Or.inl h2
    · exact Or.inr ⟨y, List.mem_cons_of_mem _ hy, hk, hv⟩

theorem recordExamples_doc (l : MessageLookup) (exs : List Examples) :
    (exs.foldl MessageLookup.recordExamples l).gherkinDocumentByURI = l.gherkinDocumentByURI := by
  induction exs generalizing l with
  | nil => rfl
  | cons ex rest ih => rw [List.foldl_cons, ih]; rfl

theorem recordChild_doc (l : MessageLookup) (cs : List FeatureChild) :
    (cs.foldl MessageLookup.recordChild l).gherkinDocumentByURI = l.gherkinDocumentByURI := by
  induction cs generalizing l with
  | nil => rfl
  | cons c rest ih =>
    rw [List.foldl_cons, ih]
    cases c with
    | background b => rfl
    | scenario sc => simp only [MessageLookup.recordChild, MessageLookup.recordScenario,
        recordExamples_doc]; rfl
    | unset => rfl

/-- The table of documents after a Document record. -/
theorem ProcessMessage_doc_table {l l' : MessageLookup} {d : GherkinDocument}
    (h : l.ProcessMessage (.gherkinDocument d) = .ok l') :
    l'.gherkinDocumentByURI = l.gherkinDocumentByURI.set d.Uri d := by
  unfold MessageLookup.ProcessMessage at h
  cases hf : d.Feature with
  | none =>
    simp only [hf, Except.ok.injEq] at h
    subst h
    rfl
  | some f =>
    simp only [hf, Except.ok.injEq] at h
    subst h
    rw [recordChild_doc]
    rfl

/-- The table of documents is left alone by the other records. -/
theorem ProcessMessage_doc_frame {l l' : MessageLookup} {e : Envelope}
    (hd : ∀ d, e ≠ .gherkinDocument d) (h : l.ProcessMessage e = .ok l') :
    l'.gherkinDocumentByURI = l.gherkinDocumentByURI := by
  cases e with
  | gherkinDocument d => exact absurd rfl (hd d)
  | _ =>
    simp only [MessageLookup.ProcessMessage, Except.ok.injEq] at h
    subst h
    rfl

/-- The lookup of the formatter after one envelope is the lookup fed with it. -/
theorem processEnvelope_lookup {F F' : Formatter} {e : Envelope}
    (h : F.processEnvelope e = .ok F') : F.lookup.ProcessMessage e = .ok F'.lookup := by
  cases e with
  | gherkinDocument d =>
    obtain ⟨l', feat, hl, _, rfl⟩ := processEnvelope_document h
    exact hl
  | pickle p =>
    obtain ⟨l', hl, h2⟩ := processEnvelope_pickle h
    obtain ⟨self1, jf, sid, sc, st, bgs, f, idl, tags, h1, _, _, _, _, _, _, _, rfl⟩ :=
      processPickle_eq_ok h2
    rcases findOrCreate_eq_ok h1 with ⟨_, rfl⟩ | ⟨_, _, doc, feat, fNew, _, _, _, rfl⟩ <;> exact hl
  | testStepFinished m =>
    obtain ⟨ts, ps, ptr, tr, nm, _, _, _, _, _, rfl⟩ := processEnvelope_tsf h
    rfl
  | _ =>
    obtain ⟨l', hl, rfl⟩ := processEnvelope_indexOnly (by intro d; simp) (by intro d; simp)
      (by intro d; simp) h
    exact hl

/-- Every document of the index is a Document record of the stream, stored
under its own URI. -/
theorem run_docs (es : List Envelope) (F : Formatter)
    (h : Formatter.reset.readLoop (es.map .msg) = .ok F) :
    ∀ uri doc, F.lookup.gherkinDocumentByURI uri = some doc → doc ∈ docsOf es ∧ doc.Uri = uri := by
  refine run_induction (fun es F => ∀ uri doc, F.lookup.gherkinDocumentByURI uri = some doc →
    doc ∈ docsOf es ∧ doc.Uri = uri) ?_ ?_ es F h
  · intro uri doc hdoc
    simp [Formatter.reset, MessageLookup.Initialize, GoMap.empty] at hdoc
  · intro es F e F' _ ih hstep uri doc hdoc
    have hl := processEnvelope_lookup hstep
    by_cases hd : ∃ d, e = .gherkinDocument d
    · obtain ⟨d, rfl⟩ := hd
      rw [ProcessMessage_doc_table hl] at hdoc
      have hdocs : docsOf (es ++ [.gherkinDocument d]) = docsOf es ++ [d] := by
        simp [docsOf, List.filterMap_append]
      rw [hdocs]
      by_cases hu : uri = d.Uri
      · subst hu
        rw [GoMap.set_same] at hdoc
        cases hdoc
        exact ⟨by simp, rfl⟩
      · rw [GoMap.set_other _ _ _ _ hu] at hdoc
        obtain ⟨h1, h2⟩ := ih uri doc hdoc
        exact ⟨by simp [h1], h2⟩
    · have hne : ∀ d, e ≠ .gherkinDocument d := fun d h2 => hd ⟨d, h2⟩
      rw [ProcessMessage_doc_frame hne hl] at hdoc
      obtain ⟨h1, h2⟩ := ih uri doc hdoc
      refine ⟨?_, h2⟩
      simp only [docsOf, List.filterMap_append, List.mem_append]
      exact Or.inl h1

/-! ## Properties: the Pickle case -/

/-- What the Pickle case does: the feature of the Pickle is found or created,
the elements of the Pickle are appended to it, and the steps of the loop are
stored. -/
theorem processPickle_shape {self F' : Formatter} {p : Pickle}
    (h : self.processPickle p = .ok F') :
    ∃ (self1 : Formatter) (jf : Nat) (fOld : jsonFeature) (sid : String) (sc : Scenario)
      (st : PickleLoop) (bgs : List jsonFeatureElement) (idl : String × Nat)
      (tags : List jsonTag),
      self1.lookup = self.lookup ∧ self1.jsonSteps = self.jsonSteps
      ∧ self1.jsonStepsByPickleStepId = self.jsonStepsByPickleStepId
      ∧ self1.exampleRowIndexById = self.exampleRowIndexById
      ∧ ((self.jsonFeaturesByURI p.Uri = some jf ∧ self.jsonFeatures[jf]? = some fOld
            ∧ F'.jsonFeaturesByURI = self.jsonFeaturesByURI
            ∧ F'.jsonFeatures.length = self.jsonFeatures.length)
          ∨ (self.jsonFeaturesByURI p.Uri = none ∧ jf = self.jsonFeatures.length
            ∧ (∃ doc feat, self.lookup.LookupGherkinDocument p.Uri = some doc
                ∧ doc.Feature = some feat ∧ newJsonFeature p feat = .ok fOld)
            ∧ F'.jsonFeaturesByURI = self.jsonFeaturesByURI.set p.Uri jf
            ∧ F'.jsonFeatures.length = self.jsonFeatures.length + 1))
      ∧ F'.jsonFeatures[jf]? = some { fOld with
          Elements := fOld.Elements ++ bgs
            ++ [newScenarioElement sc idl.1 idl.2 st.scenarioJsonSteps tags] }
      ∧ (∀ j, j ≠ jf → F'.jsonFeatures[j]? = self.jsonFeatures[j]?)
      ∧ p.SourceIds.head? = some sid
      ∧ self.lookup.LookupScenario sid = some sc
      ∧ self1.pickleStepsLoop p self1.pickleLoopStart p.Steps = .ok st
      ∧ backgroundElementsOf st = .ok bgs
      ∧ self1.scenarioIDAndLine p fOld.ID sc = .ok idl
      ∧ self1.pickleTagsLoop p.Tags = .ok tags
      ∧ F'.jsonSteps = st.jsonSteps
      ∧ F'.jsonStepsByPickleStepId = st.jsonStepsByPickleStepId
      ∧ F'.lookup = self.lookup
      ∧ F'.exampleRowIndexById = self.exampleRowIndexById := by
  obtain ⟨self1, jf, sid, sc, st, bgs, f, idl, tags, h1, h2, h3, h4, h5, h6, h7, h8, rfl⟩ :=
    processPickle_eq_ok h
  rcases findOrCreate_eq_ok h1 with ⟨hby, rfl⟩ | ⟨hby, hjf, doc, feat, fNew, hdoc, hfeat, hnew, rfl⟩
  · refine ⟨self1, jf, f, sid, sc, st, bgs, idl, tags, rfl, rfl, rfl, rfl,
      Or.inl ⟨hby, h6, rfl, ?_⟩, ?_, ?_, h2, h3, h4, h5, h7, h8, rfl, rfl, rfl, rfl⟩
    · simp [updateAt_length]
    · simp only [updateAt_getElem?, if_true, h6, Option.map_some']
    · intro j hj
      simp only [updateAt_getElem?, if_neg hj]
  · subst hjf
    have hf : f = fNew := by
      simp only [List.getElem?_append_right (Nat.le_refl _), Nat.sub_self,
        List.getElem?_cons_zero, Option.some.injEq] at h6
      exact h6.symm
    subst hf
    refine ⟨{ self with
        jsonFeaturesByURI := self.jsonFeaturesByURI.set p.Uri self.jsonFeatures.length
        jsonFeatures := self.jsonFeatures ++ [f] },
      self.jsonFeatures.length, f, sid, sc, st, bgs, idl, tags,
      rfl, rfl, rfl, rfl, Or.inr ⟨hby, rfl, ⟨doc, feat, hdoc, hfeat, hnew⟩, rfl, ?_⟩, ?_, ?_,
      h2, h3, h4, h5, h7, h8, rfl, rfl, rfl, rfl⟩
    · simp [updateAt_length]
    · simp only [updateAt_getElem?, if_true, h6, Option.map_some']
    · intro j hj
      simp only [updateAt_getElem?, if_neg hj]
      rcases Nat.lt_or_gt_of_ne hj with hlt | hgt
      · exact List.getElem?_append_left hlt
      · rw [List.getElem?_eq_none (by simp; omega), List.getElem?_eq_none (by omega)]

/-- The records other than Pickles leave the features as they are. -/
theorem processEnvelope_features_frame {F F' : Formatter} {e : Envelope}
    (hp : ∀ p, e ≠ .pickle p) (h : F.processEnvelope e = .ok F') :
    F'.jsonFeatures = F.jsonFeatures ∧ F'.jsonFeaturesByURI = F.jsonFeaturesByURI := by
  cases e with
  | pickle p => exact absurd rfl (hp p)
  | gherkinDocument d =>
    obtain ⟨l', feat, _, _, rfl⟩ := processEnvelope_document h
    exact ⟨rfl, rfl⟩
  | testStepFinished m =>
    obtain ⟨ts, ps, ptr, tr, nm, _, _, _, _, _, rfl⟩ := processEnvelope_tsf h
    exact ⟨rfl, rfl⟩
  | _ =>
    obtain ⟨l', _, rfl⟩ := processEnvelope_indexOnly (by intro d; simp) (by intro d; simp)
      (by intro d; simp) h
    exact ⟨rfl, rfl⟩

theorem docsOf_snoc_subset (es : List Envelope) (e : Envelope) (d : GherkinDocument)
    (h : d ∈ docsOf es) : d ∈ docsOf (es ++ [e]) := by
  simp only [docsOf, List.filterMap_append, List.mem_append]
  exact Or.inl h

/-- Every feature registered under a URI sits at its pointer, carries that URI
and has the slug of the feature name of a Document record of that URI as its
identifier. -/
theorem run_features (es : List Envelope) (F : Formatter)
    (h : Formatter.reset.readLoop (es.map .msg) = .ok F) :
    ∀ uri i, F.jsonFeaturesByURI uri = some i →
      ∃ f, F.jsonFeatures[i]? = some f ∧ f.URI = uri
        ∧ ∃ doc ∈ docsOf es, doc.Uri = uri
          ∧ ∃ feat, doc.Feature = some feat ∧ f.ID = Formatter.makeId feat.Name := by
  refine run_induction (fun es F => ∀ uri i, F.jsonFeaturesByURI uri = some i →
      ∃ f, F.jsonFeatures[i]? = some f ∧ f.URI = uri
        ∧ ∃ doc ∈ docsOf es, doc.Uri = uri
          ∧ ∃ feat, doc.Feature = some feat ∧ f.ID = Formatter.makeId feat.Name) ?_ ?_ es F h
  · intro uri i hi
    simp [Formatter.reset, GoMap.empty] at hi
  · intro es F e F' hrun ih hstep uri i hi
    by_cases hp : ∃ p, e = .pickle p
    · obtain ⟨p, rfl⟩ := hp
      obtain ⟨l', hl, h2⟩ := processEnvelope_pickle hstep
      obtain ⟨self1, jf, fOld, sid, sc, st, bgs, idl, tags, _, _, _, _, hcase, hnew, hother, _⟩ :=
        processPickle_shape h2
      have hdocs := run_docs es F hrun
      have hlk : l'.gherkinDocumentByURI = F.lookup.gherkinDocumentByURI :=
        ProcessMessage_doc_frame (by intro d; simp) hl
      rcases hcase with ⟨hby, hold, hby', _⟩ | ⟨hby, hjf, ⟨doc, feat, hdoc, hfeat, hfo⟩, hby', _⟩
      · rw [hby'] at hi
        obtain ⟨f, hf, hu, doc, hd, hdu, feat, hfeat, hid⟩ := ih uri i hi
        by_cases hij : i = jf
        · subst hij
          have : f = fOld := by
            have h3 : F.jsonFeatures[i]? = some fOld := hold
            rw [hf] at h3
            exact Option.some.inj h3
          subst this
          exact ⟨_, hnew, hu, doc, docsOf_snoc_subset _ _ _ hd, hdu, feat, hfeat, hid⟩
        · exact ⟨f, by rw [hother i hij]; exact hf, hu, doc, docsOf_snoc_subset _ _ _ hd, hdu,
            feat, hfeat, hid⟩
      · rw [hby'] at hi
        by_cases hu : uri = p.Uri
        · subst hu
          rw [GoMap.set_same] at hi
          cases hi
          have hdoc2 : F.lookup.gherkinDocumentByURI p.Uri = some doc := by
            have : l'.gherkinDocumentByURI p.Uri = some doc := hdoc
            rw [hlk] at this
            exact this
          obtain ⟨hd1, hd2⟩ := hdocs _ _ hdoc2
          obtain ⟨_, hfid, hfuri, _⟩ := newJsonFeature_eq_ok hfo
          exact ⟨_, hnew, hfuri, doc, docsOf_snoc_subset _ _ _ hd1, hd2, feat, hfeat, hfid⟩
        · rw [GoMap.set_other _ _ _ _ hu] at hi
          obtain ⟨f, hf, hu2, doc2, hd, hdu, feat2, hfeat2, hid⟩ := ih uri i hi
          have hij : i ≠ jf := by
            intro h3
            rw [h3, hjf] at hf
            simp at hf
          exact ⟨f, by rw [hother i hij]; exact hf, hu2, doc2, docsOf_snoc_subset _ _ _ hd, hdu,
            feat2, hfeat2, hid⟩
    · have hne : ∀ p, e ≠ .pickle p := fun p h2 => hp ⟨p, h2⟩
      obtain ⟨h1, h2⟩ := processEnvelope_features_frame hne hstep
      rw [h2] at hi
      obtain ⟨f, hf, hu, doc, hd, hdu, feat, hfeat, hid⟩ := ih uri i hi
      exact ⟨f, by rw [h1]; exact hf, hu, doc, docsOf_snoc_subset _ _ _ hd, hdu, feat, hfeat, hid⟩

theorem recordExamples_rows (l : MessageLookup) (exs : List Examples) (id : String)
    (row : TableRow) (h : (exs.foldl MessageLookup.recordExamples l).exampleRowByID id = some row) :
    l.exampleRowByID id = some row ∨ (row.Id = id ∧ ∃ ex ∈ exs, row ∈ ex.TableBody) := by
  induction exs generalizing l with
  | nil => exact Or.inl h
  | cons ex rest ih =>
    rw [List.foldl_cons] at h
    rcases ih _ h with h2 | ⟨h2, ex2, hex2, hrow⟩
    · have h3 : ex.TableBody.foldl (fun m row => m.set row.Id row) l.exampleRowByID id = some row := h2
      rcases foldl_set_some _ (fun r : TableRow => r.Id) (fun r => r) _ _ _ h3 with h4 | ⟨r, hr, hk, hv⟩
      · exact Or.inl h4
      · subst hv
        exact Or.inr ⟨hk, ex, List.mem_cons_self _ _, hr⟩
    · exact Or.inr ⟨h2, ex2, List.mem_cons_of_mem _ hex2, hrow⟩

theorem recordChild_rows (l : MessageLookup) (cs : List FeatureChild) (id : String)
    (row : TableRow) (h : (cs.foldl MessageLookup.recordChild l).exampleRowByID id = some row) :
    l.exampleRowByID id = some row
      ∨ (row.Id = id ∧ row ∈ (cs.flatMap bodiesOfChild).flatten) := by
  induction cs generalizing l with
  | nil => exact Or.inl h
  | cons c rest ih =>
    rw [List.foldl_cons] at h
    rcases ih _ h with h2 | ⟨h2, hrow⟩
    · cases c with
      | background b => exact Or.inl h2
      | unset => exact Or.inl h2
      | scenario sc =>
        simp only [MessageLookup.recordChild, MessageLookup.recordScenario] at h2
        rcases recordExamples_rows _ _ _ _ h2 with h3 | ⟨h3, ex, hex, hrow⟩
        · exact Or.inl h3
        · refine Or.inr ⟨h3, ?_⟩
          simp only [List.flatMap_cons, List.flatten_append, List.mem_append]
          left
          simp only [bodiesOfChild, FeatureChild.GetScenario, List.mem_flatten, List.mem_map]
          exact ⟨ex.TableBody, ⟨ex, hex, rfl⟩, hrow⟩
    · refine Or.inr ⟨h2, ?_⟩
      simp only [List.flatMap_cons, List.flatten_append, List.mem_append]
      exact Or.inr hrow

/-- The rows that a record adds to the index are rows of the example blocks of
the Document it carries, stored under their own identifier. -/
theorem ProcessMessage_rows {l l' : MessageLookup} {e : Envelope}
    (h : l.ProcessMessage e = .ok l') (id : String) (row : TableRow)
    (hrow : l'.exampleRowByID id = some row) :
    l.exampleRowByID id = some row
      ∨ (row.Id = id ∧ ∃ d, e = .gherkinDocument d ∧ row ∈ (exampleBodiesOf d).flatten) := by
  cases e with
  | gherkinDocument d =>
    unfold MessageLookup.ProcessMessage at h
    cases hf : d.Feature with
    | none =>
      simp only [hf, Except.ok.injEq] at h
      subst h
      exact Or.inl hrow
    | some f =>
      simp only [hf, Except.ok.injEq] at h
      subst h
      rcases recordChild_rows _ _ _ _ hrow with h2 | ⟨h2, h3⟩
      · exact Or.inl h2
      · exact Or.inr ⟨h2, d, rfl, by simpa [exampleBodiesOf, hf] using h3⟩
  | _ =>
    simp only [MessageLookup.ProcessMessage, Except.ok.injEq] at h
    subst h
    exact Or.inl hrow

theorem indexRows_isSome (m : GoMap Nat) (k : Nat) (rows : List TableRow) (id : String)
    (h : (m id).isSome ∨ id ∈ rows.map (fun row => row.Id)) :
    (indexRows m k rows id).isSome := by
  induction rows generalizing m k with
  | nil => simpa [indexRows] using h
  | cons r rest ih =>
    simp only [indexRows]
    apply ih
    by_cases hid : id = r.Id
    · left
      rw [hid, GoMap.set_same]
      rfl
    · rw [GoMap.set_other _ _ _ _ hid]
      rcases h with h | h
      · exact Or.inl h
      · simp only [List.map_cons, List.mem_cons] at h
        rcases h with h | h
        · exact absurd h hid
        · exact Or.inr h

theorem foldl_indexRows_isSome (m : GoMap Nat) (bodies : List (List TableRow)) (id : String)
    (h : (m id).isSome ∨ id ∈ bodies.flatten.map (fun row => row.Id)) :
    (bodies.foldl (fun m body => indexRows m 0 body) m id).isSome := by
  induction bodies generalizing m with
  | nil => simpa using h
  | cons b rest ih =>
    simp only [List.foldl_cons]
    apply ih
    rcases h with h | h
    · exact Or.inl (indexRows_isSome _ _ _ _ (Or.inl h))
    · simp only [List.flatten_cons, List.map_append, List.mem_append] at h
      rcases h with h | h
      · exact Or.inl (indexRows_isSome _ _ _ _ (Or.inr h))
      · exact Or.inr h

/-- Every example row of the index is stored under its own identifier and has
a display index recorded. -/
theorem run_rows (es : List Envelope) (F : Formatter)
    (h : Formatter.reset.readLoop (es.map .msg) = .ok F) :
    ∀ id row, F.lookup.exampleRowByID id = some row →
      row.Id = id ∧ (F.exampleRowIndexById id).isSome := by
  refine run_induction (fun _ F => ∀ id row, F.lookup.exampleRowByID id = some row →
      row.Id = id ∧ (F.exampleRowIndexById id).isSome) ?_ ?_ es F h
  · intro id row hrow
    simp [Formatter.reset, MessageLookup.Initialize, GoMap.empty] at hrow
  · intro es F e F' _ ih hstep id row hrow
    have hl := processEnvelope_lookup hstep
    by_cases hd : ∃ d, e = .gherkinDocument d
    · obtain ⟨d, rfl⟩ := hd
      rw [processDocument_index hstep]
      rcases ProcessMessage_rows hl id row hrow with h2 | ⟨h2, d', hd', h3⟩
      · obtain ⟨h4, h5⟩ := ih id row h2
        exact ⟨h4, foldl_indexRows_isSome _ _ _ (Or.inl h5)⟩
      · cases hd'
        refine ⟨h2, foldl_indexRows_isSome _ _ _ (Or.inr ?_)⟩
        exact List.mem_map.mpr ⟨row, h3, h2⟩
    · have hne : ∀ d, e ≠ .gherkinDocument d := fun d h2 => hd ⟨d, h2⟩
      rw [processEnvelope_index_frame hne hstep]
      rcases ProcessMessage_rows hl id row hrow with h2 | ⟨_, d', hd', _⟩
      · exact ih id row h2
      · exact absurd hd' (hne d')

/-- Every Document record of a stream that ran leaves a document under its
URI in the index. -/
theorem run_docs_present (es : List Envelope) (F : Formatter)
    (h : Formatter.reset.readLoop (es.map .msg) = .ok F) :
    ∀ d ∈ docsOf es, ∃ d', F.lookup.gherkinDocumentByURI d.Uri = some d' := by
  refine run_induction (fun es F => ∀ d ∈ docsOf es,
    ∃ d', F.lookup.gherkinDocumentByURI d.Uri = some d') ?_ ?_ es F h
  · intro d hd
    simp [docsOf] at hd
  · intro es F e F' _ ih hstep d hd
    have hl := processEnvelope_lookup hstep
    by_cases hdoc : ∃ d0, e = .gherkinDocument d0
    · obtain ⟨d0, rfl⟩ := hdoc
      rw [ProcessMessage_doc_table hl]
      have hd2 : d ∈ docsOf es ∨ d = d0 := by
        simpa [docsOf, List.filterMap_append] using hd
      by_cases hu : d.Uri = d0.Uri
      · rw [hu, GoMap.set_same]
        exact ⟨d0, rfl⟩
      · rw [GoMap.set_other _ _ _ _ hu]
        rcases hd2 with hd2 | rfl
        · exact ih d hd2
        · exact absurd rfl hu
    · have hne : ∀ d0, e ≠ Envelope.gherkinDocument d0 := fun d0 h2 => hdoc ⟨d0, h2⟩
      rw [ProcessMessage_doc_frame hne hl]
      apply ih
      cases e <;> first | exact absurd rfl (hne _) | simpa [docsOf, List.filterMap_append] using hd

theorem scenarioIDAndLine_eq_ok {self : Formatter} {p : Pickle} {fid : String} {sc : Scenario}
    {idl : String × Nat} (h : self.scenarioIDAndLine p fid sc = .ok idl) :
    ∃ loc, sc.Location = some loc
    ∧ ((p.SourceIds.length ≤ 1
        ∧ idl = (fid ++ ";" ++ Formatter.makeId sc.Name, loc.Line))
      ∨ (1 < p.SourceIds.length ∧ ∃ rowId row ex rowLoc, p.SourceIds[1]? = some rowId
        ∧ self.lookup.LookupExampleRow rowId = some row
        ∧ self.lookup.LookupExample rowId = some ex
        ∧ row.Location = some rowLoc
        ∧ idl = (fid ++ ";" ++ Formatter.makeId sc.Name ++ ";" ++ Formatter.makeId ex.Name
                  ++ ";" ++ toString ((self.exampleRowIndexById row.Id).getD 0),
                 rowLoc.Line))) := by
  unfold Formatter.scenarioIDAndLine at h
  simp only [bind_eq_ok, deref_eq_ok] at h
  obtain ⟨loc, hloc, h⟩ := h
  refine ⟨loc, hloc, ?_⟩
  split at h
  · rename_i hlen
    simp only [bind_eq_ok, deref_eq_ok] at h
    obtain ⟨row, hrow, ex, hex, rowLoc, hrl, h2⟩ := h
    cases h2
    right
    refine ⟨hlen, ?_⟩
    cases hs : p.SourceIds[1]? with
    | none => simp [hs] at hrow
    | some rowId =>
      simp only [hs, Option.some_bind] at hrow hex
      exact ⟨rowId, row, ex, rowLoc, rfl, hrow, hex, hrl, rfl⟩
  · rename_i hlen
    cases h
    left
    exact ⟨by omega, rfl⟩

/-! ## Properties: the Pickle case returns when the references resolve and the
records carry their locations -/

theorem newJsonTag_total (tag : Tag) (h : tag.Location.isSome = true) :
    ∃ jt, newJsonTag tag = .ok jt := by
  obtain ⟨loc, hloc⟩ := Option.isSome_iff_exists.mp h
  simp only [newJsonTag, bind_eq_ok, deref_eq_ok]
  exact ⟨_, loc, hloc, rfl⟩

theorem jsonTagsLoop_total (tags : List Tag) (h : ∀ t ∈ tags, t.Location.isSome = true) :
    ∃ jts, jsonTagsLoop tags = .ok jts := by
  induction tags with
  | nil => exact ⟨[], rfl⟩
  | cons t rest ih =>
    obtain ⟨jt, hjt⟩ := newJsonTag_total t (h t (List.mem_cons_self _ _))
    obtain ⟨jts, hjts⟩ := ih (fun q hq => h q (List.mem_cons_of_mem _ hq))
    simp only [jsonTagsLoop, bind_eq_ok]
    exact ⟨_, jt, hjt, jts, hjts, rfl⟩

theorem newJsonFeature_total (p : Pickle) (feat : Feature)
    (h1 : feat.Location.isSome = true) (h2 : ∀ t ∈ feat.Tags, t.Location.isSome = true) :
    ∃ f, newJsonFeature p feat = .ok f := by
  obtain ⟨loc, hloc⟩ := Option.isSome_iff_exists.mp h1
  obtain ⟨jts, hjts⟩ := jsonTagsLoop_total feat.Tags h2
  simp only [newJsonFeature, bind_eq_ok, deref_eq_ok]
  exact ⟨_, loc, hloc, jts, hjts, rfl⟩

theorem newJsonStep_total (p : Pickle) (ps : PickleStep) (step : Step)
    (h : step.located = true) : ∃ js, newJsonStep p ps step = .ok js := by
  simp only [Step.located, Bool.and_eq_true] at h
  obtain ⟨loc, hloc⟩ := Option.isSome_iff_exists.mp h.1
  have hdoc : ∃ d, newJsonDocString step = .ok d := by
    unfold newJsonDocString
    cases hd : step.GetDocString with
    | none => exact ⟨none, rfl⟩
    | some docString =>
      have h2 := h.2
      simp only [hd] at h2
      obtain ⟨dloc, hdloc⟩ := Option.isSome_iff_exists.mp h2
      simp only [bind_eq_ok, deref_eq_ok]
      exact ⟨_, dloc, hdloc, rfl⟩
  obtain ⟨d, hd⟩ := hdoc
  simp only [newJsonStep, bind_eq_ok, deref_eq_ok]
  exact ⟨_, loc, hloc, d, hd, rfl⟩

theorem pickleStepsLoop_total (self : Formatter) (p : Pickle) (pss : List PickleStep)
    (st : PickleLoop)
    (hb : st.backgroundJsonSteps = []
      ∨ ∃ b, st.background = some b ∧ b.Location.isSome = true)
    (h : ∀ ps ∈ pss, ∃ step, (ps.SourceIds.head?).bind self.lookup.LookupStep = some step
      ∧ step.located = true
      ∧ ∀ b, self.lookup.LookupBrackgroundByStepId step.Id = some b → b.Location.isSome = true) :
    ∃ st', self.pickleStepsLoop p st pss = .ok st'
      ∧ (st'.backgroundJsonSteps = []
          ∨ ∃ b, st'.background = some b ∧ b.Location.isSome = true) := by
  induction pss generalizing st with
  | nil => exact ⟨st, rfl, hb⟩
  | cons ps rest ih =>
    obtain ⟨step, hstep, hloc, hbgloc⟩ := h ps (List.mem_cons_self _ _)
    cases hsid : ps.SourceIds.head? with
    | none => simp [hsid] at hstep
    | some sid =>
      simp only [hsid, Option.some_bind] at hstep
      obtain ⟨js, hjs⟩ := newJsonStep_total p ps step hloc
      have hbody : ∃ st1, self.pickleStepBody p st ps = .ok st1
          ∧ (st1.backgroundJsonSteps = []
              ∨ ∃ b, st1.background = some b ∧ b.Location.isSome = true) := by
        simp only [Formatter.pickleStepBody, bind_eq_ok, deref_eq_ok, index0_eq_ok]
        by_cases hbg : self.isBackgroundStep step.Id = true
        · refine ⟨_, ⟨sid, hsid, step, hstep, js, hjs, rfl⟩, Or.inr ?_⟩
          simp only [hbg, if_true]
          obtain ⟨b, hb2⟩ := Option.isSome_iff_exists.mp hbg
          exact ⟨b, hb2, hbgloc b hb2⟩
        · refine ⟨_, ⟨sid, hsid, step, hstep, js, hjs, rfl⟩, ?_⟩
          simp only [hbg, if_false]
          exact hb
      obtain ⟨st1, h1, hb1⟩ := hbody
      obtain ⟨st', h2, hb2⟩ := ih st1 hb1 (fun q hq => h q (List.mem_cons_of_mem _ hq))
      refine ⟨st', ?_, hb2⟩
      simp only [Formatter.pickleStepsLoop, bind_eq_ok]
      exact ⟨st1, h1, h2⟩

theorem pickleTagsLoop_total (self : Formatter) (tags : List PickleTag)
    (h : ∀ t ∈ tags, ∃ tag, self.lookup.LookupTagByID t.SourceId = some tag
      ∧ tag.Location.isSome = true) :
    ∃ jts, self.pickleTagsLoop tags = .ok jts := by
  induction tags with
  | nil => exact ⟨[], rfl⟩
  | cons t rest ih =>
    obtain ⟨tag, htag, hloc⟩ := h t (List.mem_cons_self _ _)
    obtain ⟨jt, hjt⟩ := newJsonTag_total tag hloc
    obtain ⟨jts, hjts⟩ := ih (fun q hq => h q (List.mem_cons_of_mem _ hq))
    simp only [Formatter.pickleTagsLoop, bind_eq_ok, deref_eq_ok]
    exact ⟨_, tag, htag, jt, hjt, jts, hjts, rfl⟩

theorem backgroundElementsOf_total (st : PickleLoop)
    (hb : st.backgroundJsonSteps = []
      ∨ ∃ b, st.background = some b ∧ b.Location.isSome = true) :
    ∃ bgs, backgroundElementsOf st = .ok bgs := by
  unfold backgroundElementsOf
  split
  · rename_i hlen
    rcases hb with hb | ⟨b, hb2, hloc⟩
    · rw [hb] at hlen
      simp at hlen
    · obtain ⟨loc, hloc2⟩ := Option.isSome_iff_exists.mp hloc
      simp only [bind_eq_ok, deref_eq_ok]
      exact ⟨_, b, hb2, loc, hloc2, rfl⟩
  · exact ⟨[], rfl⟩

theorem scenarioIDAndLine_total (self : Formatter) (p : Pickle) (fid : String) (sc : Scenario)
    (hloc : sc.Location.isSome = true)
    (h : ∀ rowId, p.SourceIds[1]? = some rowId →
      (∃ row, self.lookup.LookupExampleRow rowId = some row ∧ row.Location.isSome = true)
        ∧ (self.lookup.LookupExample rowId).isSome = true) :
    ∃ idl, self.scenarioIDAndLine p fid sc = .ok idl := by
  obtain ⟨loc, hloc2⟩ := Option.isSome_iff_exists.mp hloc
  unfold Formatter.scenarioIDAndLine
  rw [hloc2]
  simp only [deref, bind, Except.bind]
  split
  · rename_i hlen
    cases hs : p.SourceIds[1]? with
    | none =>
      have := List.getElem?_eq_none_iff.mp hs
      omega
    | some rowId =>
      obtain ⟨⟨row, hrow, hrl⟩, hex⟩ := h rowId hs
      obtain ⟨ex, hex2⟩ := Option.isSome_iff_exists.mp hex
      obtain ⟨rowLoc, hrl2⟩ := Option.isSome_iff_exists.mp hrl
      simp only [Option.bind, hrow, hex2, hrl2]
      exact ⟨_, rfl⟩
  · exact ⟨_, rfl⟩

/-- A Pickle record leaves the tables of the index that the Pickle case
reads. -/
theorem ProcessMessage_pickle_tables {l l' : MessageLookup} {p : Pickle}
    (h : l.ProcessMessage (.pickle p) = .ok l') :
    l'.gherkinDocumentByURI = l.gherkinDocumentByURI ∧ l'.scenarioByID = l.scenarioByID
    ∧ l'.stepByID = l.stepByID ∧ l'.tagByID = l.tagByID
    ∧ l'.exampleRowByID = l.exampleRowByID ∧ l'.exampleByRowID = l.exampleByRowID
    ∧ l'.backgroundByStepId = l.backgroundByStepId := by
  simp only [MessageLookup.ProcessMessage, Except.ok.injEq] at h
  subst h
  exact ⟨rfl, rfl, rfl, rfl, rfl, rfl, rfl⟩

/-- A Pickle record whose references resolve to records that carry their
locations is processed without a fault. -/
theorem processEnvelope_pickle_total (es : List Envelope) (F : Formatter)
    (hF : Formatter.reset.readLoop (es.map .msg) = .ok F) (p : Pickle)
    (hres : F.pickleResolves p = true) (hloc : F.pickleLocated p = true) :
    ∃ F', F.processEnvelope (.pickle p) = .ok F' := by
  obtain ⟨l', hl⟩ := ProcessMessage_eq_ok F.lookup (.pickle p)
  obtain ⟨t1, t2, t3, t4, t5, t6, t7⟩ := ProcessMessage_pickle_tables hl
  simp only [Formatter.pickleResolves, Bool.and_eq_true, List.all_eq_true] at hres
  obtain ⟨⟨⟨⟨hdoc, hsc⟩, hsteps⟩, htags⟩, hrow⟩ := hres
  simp only [Formatter.pickleLocated, Bool.and_eq_true, List.all_eq_true] at hloc
  obtain ⟨⟨⟨⟨lfeat, lsc⟩, lsteps⟩, ltags⟩, lrow⟩ := hloc
  obtain ⟨feat, hfeat⟩ := Option.isSome_iff_exists.mp hdoc
  obtain ⟨sc, hsc2⟩ := Option.isSome_iff_exists.mp hsc
  have lsc2 : sc.Location.isSome = true := by
    simpa only [hsc2] using lsc
  cases hdoc2 : F.lookup.LookupGherkinDocument p.Uri with
  | none => simp [hdoc2] at hfeat
  | some doc =>
    have hfeat0 := hfeat
    simp only [hdoc2, Option.some_bind] at hfeat
    cases hsid : p.SourceIds.head? with
    | none => simp [hsid] at hsc2
    | some sid =>
      simp only [hsid, Option.some_bind] at hsc2
      -- the formatter the Pickle case starts from
      have hfind : ∃ self1 jf f,
          ({ F with lookup := l' } : Formatter).findOrCreateJsonFeature p = .ok (self1, jf)
          ∧ self1.jsonFeatures[jf]? = some f ∧ self1.lookup = l'
          ∧ self1.exampleRowIndexById = F.exampleRowIndexById := by
        unfold Formatter.findOrCreateJsonFeature
        cases hby : F.jsonFeaturesByURI p.Uri with
        | some i =>
          obtain ⟨f, hf, _⟩ := run_features es F hF p.Uri i hby
          exact ⟨{ F with lookup := l' }, i, f, rfl, hf, rfl, rfl⟩
        | none =>
          have hdoc3 : l'.gherkinDocumentByURI p.Uri = some doc := by
            rw [t1]
            exact hdoc2
          have lfeat2 : feat.Location.isSome = true
              ∧ ∀ t ∈ feat.Tags, t.Location.isSome = true := by
            simpa only [hby, hfeat0, Bool.and_eq_true, List.all_eq_true] using lfeat
          obtain ⟨fNew, hfNew⟩ := newJsonFeature_total p feat lfeat2.1 lfeat2.2
          refine ⟨{ F with
              lookup := l'
              jsonFeaturesByURI := F.jsonFeaturesByURI.set p.Uri F.jsonFeatures.length
              jsonFeatures := F.jsonFeatures ++ [fNew] },
            F.jsonFeatures.length, fNew, ?_, ?_, rfl, rfl⟩
          · simp only [bind_eq_ok, deref_eq_ok]
            exact ⟨doc, hdoc3, feat, hfeat, fNew, hfNew, rfl⟩
          · simp
      obtain ⟨self1, jf, f, hfind1, hfind2, hlk, _⟩ := hfind
      have hsteps2 : ∀ ps ∈ p.Steps,
          ∃ step, (ps.SourceIds.head?).bind self1.lookup.LookupStep = some step
            ∧ step.located = true
            ∧ ∀ b, self1.lookup.LookupBrackgroundByStepId step.Id = some b →
                b.Location.isSome = true := by
        intro ps hps
        obtain ⟨step, hstep⟩ := Option.isSome_iff_exists.mp (hsteps ps hps)
        have hl2 := lsteps ps hps
        simp only [hstep, Bool.and_eq_true] at hl2
        refine ⟨step, ?_, hl2.1, ?_⟩
        · simpa only [MessageLookup.LookupStep, hlk, t3] using hstep
        · intro b hb
          have hb2 : F.lookup.LookupBrackgroundByStepId step.Id = some b := by
            simpa only [MessageLookup.LookupBrackgroundByStepId, hlk, t7] using hb
          simpa only [hb2] using hl2.2
      obtain ⟨st, hst, hstb⟩ := pickleStepsLoop_total self1 p p.Steps self1.pickleLoopStart
        (Or.inl rfl) hsteps2
      obtain ⟨bgs, hbgs⟩ := backgroundElementsOf_total st hstb
      have htags2 : ∀ t ∈ p.Tags, ∃ tag, self1.lookup.LookupTagByID t.SourceId = some tag
          ∧ tag.Location.isSome = true := by
        intro t ht
        obtain ⟨tag, htag⟩ := Option.isSome_iff_exists.mp (htags t ht)
        have hl2 := ltags t ht
        simp only [htag] at hl2
        exact ⟨tag, by simpa only [MessageLookup.LookupTagByID, hlk, t4] using htag, hl2⟩
      obtain ⟨jts, hjts⟩ := pickleTagsLoop_total self1 p.Tags htags2
      have hrow2 : ∀ rowId, p.SourceIds[1]? = some rowId →
          (∃ row, self1.lookup.LookupExampleRow rowId = some row ∧ row.Location.isSome = true)
            ∧ (self1.lookup.LookupExample rowId).isSome = true := by
        intro rowId hr
        simp only [hr, Bool.and_eq_true] at hrow
        obtain ⟨row, hrow2⟩ := Option.isSome_iff_exists.mp hrow.1
        have hl2 := lrow
        simp only [hr, Option.some_bind, hrow2] at hl2
        refine ⟨⟨row, ?_, hl2⟩, ?_⟩
        · simpa only [MessageLookup.LookupExampleRow, hlk, t5] using hrow2
        · simpa only [MessageLookup.LookupExample, hlk, t6] using hrow.2
      obtain ⟨idl, hidl⟩ := scenarioIDAndLine_total self1 p f.ID sc lsc2 hrow2
      have hsc3 : self1.lookup.LookupScenario sid = some sc := by
        show self1.lookup.scenarioByID sid = some sc
        rw [hlk, t2]
        exact hsc2
      simp only [Formatter.processEnvelope, bind_eq_ok, Formatter.processPickle, deref_eq_ok,
        index0_eq_ok]
      exact ⟨_, l', hl, (self1, jf), hfind1, sid, hsid, sc, hsc3, st, hst, bgs, hbgs, f, hfind2,
        idl, hidl, jts, hjts, rfl⟩

/-- C1: when a Pickle record is processed by `ProcessMessages` after the records
`es`, the last element of the feature of the Pickle is then its scenario
element, and the id of that element is `featureId;slug(scenario name)` when the
Pickle has one source id and
`featureId;slug(scenario name);slug(example name);n` when it has a second one.
Here `featureId` is the id of the feature of the Pickle: the slug of the
feature name of a Document record of the URI of the Pickle, and of the very
document that the index resolves for that URI when the Documents of that URI
agree on the feature name; the example block is the one that owns the row of
the second source id and `n` is the display index recorded for that row. -/
theorem scenario_identifier (self0 : Formatter) (es : List Envelope) (F F' : Formatter)
    (p : Pickle)
    (hrun : (Formatter.ProcessMessages self0 (es.map ReadResult.msg)).result = .ok F)
    (hstep : F.processEnvelope (Envelope.pickle p) = .ok F') :
    ∃ (i : Nat) (f : jsonFeature) (old : List jsonFeatureElement)
      (e : jsonFeatureElement) (doc : GherkinDocument) (feat : Feature) (sid : String)
      (sc : Scenario),
      F'.jsonFeaturesByURI p.Uri = some i ∧ F'.jsonFeatures[i]? = some f
      ∧ f.Elements = old ++ [e] ∧ e.Type_ = "scenario"
      ∧ doc ∈ docsOf es ∧ doc.Uri = p.Uri ∧ doc.Feature = some feat
      ∧ ((∀ d1 ∈ docsOf es, ∀ d2 ∈ docsOf es, d1.Uri = p.Uri → d2.Uri = p.Uri →
            d1.Feature.map (fun f => f.Name) = d2.Feature.map (fun f => f.Name)) →
          ∃ doc' feat', F'.lookup.LookupGherkinDocument p.Uri = some doc'
            ∧ doc'.Feature = some feat' ∧ feat'.Name = feat.Name)
      ∧ f.ID = Formatter.makeId feat.Name
      ∧ p.SourceIds.head? = some sid ∧ F'.lookup.LookupScenario sid = some sc
      ∧ (p.SourceIds.length = 1 →
          e.ID = Formatter.makeId feat.Name ++ ";" ++ Formatter.makeId sc.Name)
      ∧ (∀ rowId, p.SourceIds[1]? = some rowId →
          ∃ (row : TableRow) (ex : Examples) (n : Nat),
            F'.lookup.LookupExampleRow rowId = some row
            ∧ F'.lookup.LookupExample rowId = some ex
            ∧ F'.exampleRowIndexById row.Id = some n
            ∧ e.ID = Formatter.makeId feat.Name ++ ";" ++ Formatter.makeId sc.Name ++ ";"
                ++ Formatter.makeId ex.Name ++ ";" ++ toString n) := by
  rw [ProcessMessages_result] at hrun
  have hF := hrun
  have hrun' : Formatter.reset.readLoop ((es ++ [Envelope.pickle p]).map .msg) = .ok F' :=
    (readLoop_snoc _ _ _ _).mpr ⟨F, hF, hstep⟩
  obtain ⟨l', hl, h2⟩ := processEnvelope_pickle hstep
  obtain ⟨self1, jf, fOld, sid, sc, st, bgs, idl, tags, hs1, _, _, hs4, hcase, hnew, _, hsid, hsc,
    _, _, hidl, _, _, _, hlk, hidx⟩ := processPickle_shape h2
  have hlk' : F'.lookup = l' := hlk
  have hidx' : F'.exampleRowIndexById = F.exampleRowIndexById := hidx
  have hs1' : self1.lookup = l' := hs1
  have hs4' : self1.exampleRowIndexById = F.exampleRowIndexById := hs4
  have hdoctab : l'.gherkinDocumentByURI = F.lookup.gherkinDocumentByURI :=
    ProcessMessage_doc_frame (by intro d; simp) hl
  -- the document the feature of the Pickle was built from
  have hfeat : ∃ doc feat, doc ∈ docsOf es ∧ doc.Uri = p.Uri ∧ doc.Feature = some feat
      ∧ fOld.ID = Formatter.makeId feat.Name := by
    rcases hcase with ⟨hby, hold, _, _⟩ | ⟨_, _, ⟨doc, feat, hdoc, hfeat, hfo⟩, _, _⟩
    · obtain ⟨f, hf, _, doc, hd, hdu, feat, hfeat, hid⟩ := run_features es F hF p.Uri jf hby
      have hff : f = fOld := by
        have h3 : F.jsonFeatures[jf]? = some fOld := hold
        rw [hf] at h3
        exact Option.some.inj h3
      subst hff
      exact ⟨doc, feat, hd, hdu, hfeat, hid⟩
    · have hdoc2 : F.lookup.gherkinDocumentByURI p.Uri = some doc := by
        rw [← hdoctab]
        exact hdoc
      obtain ⟨hd1, hd2⟩ := run_docs es F hF _ _ hdoc2
      exact ⟨doc, feat, hd1, hd2, hfeat, (newJsonFeature_eq_ok hfo).2.1⟩
  obtain ⟨doc, feat, hdmem, hduri, hfeat2, hfid⟩ := hfeat
  have hby' : F'.jsonFeaturesByURI p.Uri = some jf := by
    rcases hcase with ⟨hby, _, hby', _⟩ | ⟨_, _, _, hby', _⟩
    · rw [hby']; exact hby
    · rw [hby', GoMap.set_same]
  have hrows := run_rows _ F' hrun'
  refine ⟨jf, _, fOld.Elements ++ bgs, _, doc, feat, sid, sc, hby', hnew, rfl, rfl,
    hdmem, hduri, hfeat2, ?_, hfid, hsid, ?_, ?_, ?_⟩
  · intro hdocs
    obtain ⟨d', hd'⟩ := run_docs_present es F hF doc hdmem
    rw [hduri] at hd'
    obtain ⟨hd'1, hd'2⟩ := run_docs es F hF _ _ hd'
    have hname := hdocs d' hd'1 doc hdmem hd'2 hduri
    rw [hfeat2] at hname
    cases hf' : d'.Feature with
    | none => simp [hf'] at hname
    | some feat' =>
      simp only [hf', Option.map_some', Option.some.injEq] at hname
      refine ⟨d', feat', ?_, hf', hname⟩
      rw [hlk']
      show l'.gherkinDocumentByURI p.Uri = some d'
      rw [hdoctab]
      exact hd'
  · rw [hlk']; exact hsc
  · intro hlen
    obtain ⟨loc, _, hcases⟩ := scenarioIDAndLine_eq_ok hidl
    rcases hcases with ⟨_, h3⟩ | ⟨h3, _⟩
    · rw [h3, hfid]; rfl
    · omega
  · intro rowId hrowId
    obtain ⟨loc, _, hcases⟩ := scenarioIDAndLine_eq_ok hidl
    rcases hcases with ⟨h3, _⟩ | ⟨_, rowId', row, ex, rowLoc, h4, h5, h6, _, h7⟩
    · have := (List.getElem?_eq_some.mp hrowId).1
      omega
    · rw [hrowId] at h4
      cases h4
      rw [hs1'] at h5 h6
      have h8 : F'.lookup.exampleRowByID rowId = some row := by rw [hlk']; exact h5
      obtain ⟨h9, h10⟩ := hrows rowId row h8
      obtain ⟨n, hn⟩ := Option.isSome_iff_exists.mp h10
      refine ⟨row, ex, n, by rw [hlk']; exact h5, by rw [hlk']; exact h6, by rw [h9]; exact hn, ?_⟩
      rw [h7, hfid, hs4', ← hidx', h9, hn]
      rfl

/-- The identifier of the scenario element of `samplePickle` after the records
of `sampleHead`. -/
theorem scenario_identifier_witness :
    ∃ (i : Nat) (f : jsonFeature) (old : List jsonFeatureElement)
      (e : jsonFeatureElement) (doc : GherkinDocument) (feat : Feature) (sid : String)
      (sc : Scenario),
      (finalOf (sampleHead ++ [Envelope.pickle samplePickle])).jsonFeaturesByURI
          samplePickle.Uri = some i
      ∧ (finalOf (sampleHead ++ [Envelope.pickle samplePickle])).jsonFeatures[i]? = some f
      ∧ f.Elements = old ++ [e] ∧ e.Type_ = "scenario"
      ∧ doc ∈ docsOf sampleHead ∧ doc.Uri = samplePickle.Uri ∧ doc.Feature = some feat
      ∧ ((∀ d1 ∈ docsOf sampleHead, ∀ d2 ∈ docsOf sampleHead, d1.Uri = samplePickle.Uri →
            d2.Uri = samplePickle.Uri →
            d1.Feature.map (fun f => f.Name) = d2.Feature.map (fun f => f.Name)) →
          ∃ doc' feat',
            (finalOf (sampleHead ++ [Envelope.pickle samplePickle])).lookup.LookupGherkinDocument
                samplePickle.Uri = some doc'
            ∧ doc'.Feature = some feat' ∧ feat'.Name = feat.Name)
      ∧ f.ID = Formatter.makeId feat.Name
      ∧ samplePickle.SourceIds.head? = some sid
      ∧ (finalOf (sampleHead ++ [Envelope.pickle samplePickle])).lookup.LookupScenario sid
          = some sc
      ∧ (samplePickle.SourceIds.length = 1 →
          e.ID = Formatter.makeId feat.Name ++ ";" ++ Formatter.makeId sc.Name)
      ∧ (∀ rowId, samplePickle.SourceIds[1]? = some rowId →
          ∃ (row : TableRow) (ex : Examples) (n : Nat),
            (finalOf (sampleHead ++ [Envelope.pickle samplePickle])).lookup.LookupExampleRow rowId
                = some row
            ∧ (finalOf (sampleHead ++ [Envelope.pickle samplePickle])).lookup.LookupExample rowId
                = some ex
            ∧ (finalOf (sampleHead ++ [Envelope.pickle samplePickle])).exampleRowIndexById row.Id
                = some n
            ∧ e.ID = Formatter.makeId feat.Name ++ ";" ++ Formatter.makeId sc.Name ++ ";"
                ++ Formatter.makeId ex.Name ++ ";" ++ toString n) :=
  scenario_identifier Formatter.reset sampleHead (finalOf sampleHead)
    (finalOf (sampleHead ++ [Envelope.pickle samplePickle])) samplePickle
    (finalOf_run Formatter.reset sampleHead rfl)
    (finalOf_step sampleHead (Envelope.pickle samplePickle) rfl)

/-- A Document declared again under its URI with another feature name, after
the feature of that URI was created: the id of the feature stays, so the id of
the scenario element of a later Pickle starts with the slug of the feature
name of the first Document, "my-feature", while the index resolves the URI to
the second one, named "Other Name". -/
theorem sample_redeclared_document :
    (finalOf (redeclaredStream.take 3)).pickleResolves plainPickle = true
    ∧ isOk (Formatter.reset.readLoop (redeclaredStream.map ReadResult.msg)) = true
    ∧ ((finalOf redeclaredStream).lookup.LookupGherkinDocument plainPickle.Uri).bind
        (fun doc => doc.Feature.map (fun f => f.Name)) = some "Other Name"
    ∧ plainPickle.SourceIds.length = 1
    ∧ ((finalOf redeclaredStream).elementsOf plainPickle.Uri).map (fun e => e.ID)
        = ["my-feature;eat-cucumber", "my-feature;eat-cucumber"]
    ∧ "my-feature;eat-cucumber"
        ≠ Formatter.makeId "Other Name" ++ ";" ++ Formatter.makeId "Eat cucumber" := by
  decide

/-- The scenario identifiers on two sample streams: the Pickle of the second
example row gets the outline form with the display index 3, a Pickle with one
source id gets the plain form. -/
theorem sample_scenario_ids :
    (((finalOf (sampleHead ++ [Envelope.pickle samplePickle])).elementsOf "a.feature").map
        (fun e => e.ID)) = ["", "my-feature;eat-cucumber;some-rows;3"]
    ∧ (((finalOf (sampleHead ++ [Envelope.pickle plainPickle])).elementsOf "a.feature").map
        (fun e => e.ID)) = ["my-feature;eat-cucumber"] := by
  decide

theorem pickleStepBody_eq_ok {self : Formatter} {p : Pickle} {st st1 : PickleLoop}
    {ps : PickleStep} (h : self.pickleStepBody p st ps = .ok st1) :
    ∃ sid step js, ps.SourceIds.head? = some sid ∧ self.lookup.LookupStep sid = some step
      ∧ newJsonStep p ps step = .ok js
      ∧ st1.jsonSteps = st.jsonSteps ++ [js]
      ∧ st1.jsonStepsByPickleStepId = st.jsonStepsByPickleStepId.set ps.Id st.jsonSteps.length
      ∧ ((self.isBackgroundStep step.Id = true
            ∧ st1.backgroundJsonSteps = st.backgroundJsonSteps ++ [st.jsonSteps.length]
            ∧ st1.scenarioJsonSteps = st.scenarioJsonSteps
            ∧ st1.background = self.lookup.LookupBrackgroundByStepId step.Id)
          ∨ (self.isBackgroundStep step.Id = false
            ∧ st1.backgroundJsonSteps = st.backgroundJsonSteps
            ∧ st1.scenarioJsonSteps = st.scenarioJsonSteps ++ [st.jsonSteps.length]
            ∧ st1.background = st.background)) := by
  simp only [Formatter.pickleStepBody, bind_eq_ok, deref_eq_ok, index0_eq_ok] at h
  obtain ⟨sid, hsid, step, hstep, js, hjs, h2⟩ := h
  cases h2
  refine ⟨sid, step, js, hsid, hstep, hjs, rfl, rfl, ?_⟩
  cases hb : self.isBackgroundStep step.Id
  · right
    simp
  · left
    simp

/-- The step that `newJsonStep` returns. -/
theorem newJsonStep_eq_ok {p : Pickle} {ps : PickleStep} {step : Step} {js : jsonStep}
    (h : newJsonStep p ps step = .ok js) :
    ∃ loc, step.Location = some loc ∧ js.Keyword = step.Keyword ∧ js.Line = loc.Line
      ∧ js.Name = ps.Text ∧ js.Result = none ∧ js.Match = some { Location := p.Uri } := by
  simp only [newJsonStep, bind_eq_ok, deref_eq_ok] at h
  obtain ⟨loc, hloc, ds, _, h2⟩ := h
  cases h2
  exact ⟨loc, hloc, rfl, rfl, rfl, rfl, rfl⟩

theorem pickleStepsLoop_cons {self : Formatter} {p : Pickle} {st st' : PickleLoop}
    {ps : PickleStep} {rest : List PickleStep}
    (h : self.pickleStepsLoop p st (ps :: rest) = .ok st') :
    ∃ st1, self.pickleStepBody p st ps = .ok st1 ∧ self.pickleStepsLoop p st1 rest = .ok st' := by
  simpa only [Formatter.pickleStepsLoop, bind_eq_ok] using h

/-- The steps the loop allocates: one per Pickle Step, after the steps there
were, each without a result and with the URI of the Pickle as its match
location. -/
theorem pickleStepsLoop_steps {self : Formatter} {p : Pickle} {st st' : PickleLoop}
    {pss : List PickleStep} (h : self.pickleStepsLoop p st pss = .ok st') :
    ∃ new, st'.jsonSteps = st.jsonSteps ++ new ∧ new.length = pss.length
      ∧ ∀ js ∈ new, js.Result = none ∧ js.Match = some { Location := p.Uri } := by
  induction pss generalizing st with
  | nil =>
    simp only [Formatter.pickleStepsLoop, Except.ok.injEq] at h
    subst h
    exact ⟨[], by simp, rfl, by simp⟩
  | cons ps rest ih =>
    obtain ⟨st1, h1, h2⟩ := pickleStepsLoop_cons h
    obtain ⟨sid, step, js1, _, _, hjs1, hs, _, _⟩ := pickleStepBody_eq_ok h1
    obtain ⟨_, _, _, _, _, hres1, hmatch1⟩ := newJsonStep_eq_ok hjs1
    obtain ⟨new, hn1, hn2, hn3⟩ := ih h2
    refine ⟨js1 :: new, ?_, by simp [hn2], ?_⟩
    · rw [hn1, hs]; simp
    · intro js hjs
      rcases List.mem_cons.mp hjs with rfl | hjs
      · exact ⟨hres1, hmatch1⟩
      · exact hn3 js hjs

/-- The pointers the loop registers address steps it has allocated. -/
theorem pickleStepsLoop_map {self : Formatter} {p : Pickle} {st st' : PickleLoop}
    {pss : List PickleStep} (h : self.pickleStepsLoop p st pss = .ok st') (k : String) :
    st'.jsonStepsByPickleStepId k = st.jsonStepsByPickleStepId k
      ∨ ∃ i, st'.jsonStepsByPickleStepId k = some i ∧ st.jsonSteps.length ≤ i
          ∧ i < st'.jsonSteps.length := by
  induction pss generalizing st with
  | nil =>
    simp only [Formatter.pickleStepsLoop, Except.ok.injEq] at h
    subst h
    exact Or.inl rfl
  | cons ps rest ih =>
    obtain ⟨st1, h1, h2⟩ := pickleStepsLoop_cons h
    obtain ⟨sid, step, js1, _, _, _, hs, hm, _⟩ := pickleStepBody_eq_ok h1
    obtain ⟨new, hn1, _, _⟩ := pickleStepsLoop_steps h2
    have hlen : st.jsonSteps.length < st'.jsonSteps.length := by
      rw [hn1, hs]; simp
    rcases ih h2 with h3 | ⟨i, h3, h4, h5⟩
    · rw [h3, hm]
      by_cases hk : k = ps.Id
      · right
        rw [hk, GoMap.set_same]
        exact ⟨_, rfl, Nat.le_refl _, hlen⟩
      · left
        exact GoMap.set_other _ _ _ _ hk
    · right
      refine ⟨i, h3, ?_, h5⟩
      rw [hs] at h4
      simp at h4
      omega

/-- The loop has Background steps exactly when a Pickle Step is owned by a
Background. -/
theorem pickleStepsLoop_background {self : Formatter} {p : Pickle} {st st' : PickleLoop}
    {pss : List PickleStep} (h : self.pickleStepsLoop p st pss = .ok st') :
    st'.backgroundJsonSteps ≠ []
      ↔ (st.backgroundJsonSteps ≠ [] ∨ ∃ ps ∈ pss, self.ownedByBackground ps) := by
  induction pss generalizing st with
  | nil =>
    simp only [Formatter.pickleStepsLoop, Except.ok.injEq] at h
    subst h
    simp
  | cons ps rest ih =>
    obtain ⟨st1, h1, h2⟩ := pickleStepsLoop_cons h
    obtain ⟨sid, step, js1, hsid, hstep, _, _, _, hcase⟩ := pickleStepBody_eq_ok h1
    rw [ih h2]
    rcases hcase with ⟨hb, hbg, _, _⟩ | ⟨hb, hbg, _, _⟩
    · have hown : self.ownedByBackground ps := ⟨sid, step, hsid, hstep, hb⟩
      constructor
      · intro _
        exact Or.inr ⟨ps, List.mem_cons_self _ _, hown⟩
      · intro _
        left
        rw [hbg]
        simp
    · have hnot : ¬ self.ownedByBackground ps := by
        rintro ⟨sid2, step2, hsid2, hstep2, hb2⟩
        rw [hsid] at hsid2
        cases hsid2
        rw [hstep] at hstep2
        cases hstep2
        rw [hb] at hb2
        cases hb2
      rw [hbg]
      constructor
      · rintro (h3 | ⟨ps2, hps2, hown⟩)
        · exact Or.inl h3
        · exact Or.inr ⟨ps2, List.mem_cons_of_mem _ hps2, hown⟩
      · rintro (h3 | ⟨ps2, hps2, hown⟩)
        · exact Or.inl h3
        · rcases List.mem_cons.mp hps2 with rfl | hps3
          · exact absurd hown hnot
          · exact Or.inr ⟨ps2, hps3, hown⟩

theorem backgroundElementsOf_eq_ok {st : PickleLoop} {bgs : List jsonFeatureElement}
    (h : backgroundElementsOf st = .ok bgs) :
    (st.backgroundJsonSteps = [] ∧ bgs = [])
    ∨ (st.backgroundJsonSteps ≠ [] ∧ ∃ background location, st.background = some background
        ∧ background.Location = some location
        ∧ bgs = [{ Description := background.Description, ID := "", Keyword := background.Keyword
                   Line := location.Line, Name := ""
                   Steps := st.backgroundJsonSteps, Type_ := "background", Tags := [] }]) := by
  unfold backgroundElementsOf at h
  split at h
  · rename_i hlen
    simp only [bind_eq_ok, deref_eq_ok] at h
    obtain ⟨b, hb, loc, hloc, h2⟩ := h
    cases h2
    right
    refine ⟨?_, b, loc, hb, hloc, rfl⟩
    intro h3
    rw [h3] at hlen
    simp at hlen
  · rename_i hlen
    cases h
    left
    refine ⟨?_, rfl⟩
    cases hs : st.backgroundJsonSteps with
    | nil => rfl
    | cons a l => simp [hs] at hlen

/-- The tags of the scenario element: the tags of the Pickle resolved, in the
order of the Pickle. -/
theorem pickleTagsLoop_eq_ok {self : Formatter} {tags : List PickleTag} {jts : List jsonTag}
    (h : self.pickleTagsLoop tags = .ok jts) :
    List.Forall₂ (fun (pt : PickleTag) (jt : jsonTag) =>
      ∃ tag location, self.lookup.LookupTagByID pt.SourceId = some tag
        ∧ tag.Location = some location
        ∧ jt = { Line := location.Line, Name := tag.Name }) tags jts := by
  induction tags generalizing jts with
  | nil =>
    simp only [Formatter.pickleTagsLoop, Except.ok.injEq] at h
    subst h
    exact List.Forall₂.nil
  | cons pt rest ih =>
    simp only [Formatter.pickleTagsLoop, bind_eq_ok, deref_eq_ok] at h
    obtain ⟨tag, htag, jt, hjt, restTags, hrest, h2⟩ := h
    cases h2
    simp only [newJsonTag, bind_eq_ok, deref_eq_ok] at hjt
    obtain ⟨loc, hloc, hjt2⟩ := hjt
    cases hjt2
    exact List.Forall₂.cons ⟨tag, loc, htag, hloc, rfl⟩ (ih hrest)

theorem ownedByBackground_congr {a b : Formatter} (h : a.lookup = b.lookup) (ps : PickleStep) :
    a.ownedByBackground ps ↔ b.ownedByBackground ps := by
  simp only [Formatter.ownedByBackground, Formatter.isBackgroundStep, h]

/-- C7: when a Pickle record is processed (`processEnvelope_pickle_total`: it
is whenever its references resolve and the records it resolves to carry their
`Location`), it appends to the elements of the feature of its URI (none before
the feature exists), after the elements there were and without changing them:
one element of type "background", with no id and no tags, exactly when a step
of the Pickle has a specification Step owned by a Background, and then one
element of type "scenario" whose tags are the tags of the Pickle, resolved to
line and name, in the order of the Pickle. -/
theorem pickle_appends_elements (F F' : Formatter) (p : Pickle)
    (hstep : F.processEnvelope (Envelope.pickle p) = .ok F') :
    ∃ (bgs : List jsonFeatureElement) (scn : jsonFeatureElement),
      F'.elementsOf p.Uri = F.elementsOf p.Uri ++ bgs ++ [scn]
      ∧ ((bgs = [] ∧ ¬ ∃ ps ∈ p.Steps, F'.ownedByBackground ps)
          ∨ (∃ bg, bgs = [bg] ∧ bg.Type_ = "background" ∧ bg.ID = "" ∧ bg.Tags = []
              ∧ ∃ ps ∈ p.Steps, F'.ownedByBackground ps))
      ∧ scn.Type_ = "scenario"
      ∧ List.Forall₂ (fun (pt : PickleTag) (jt : jsonTag) =>
          ∃ tag location, F'.lookup.LookupTagByID pt.SourceId = some tag
            ∧ tag.Location = some location
            ∧ jt = { Line := location.Line, Name := tag.Name }) p.Tags scn.Tags := by
  obtain ⟨l', hl, h2⟩ := processEnvelope_pickle hstep
  obtain ⟨self1, jf, fOld, sid, sc, st, bgs, idl, tags, hs1, _, _, _, hcase, hnew, _, _, _,
    hloop, hbgs, _, htags, _, _, hlk, _⟩ := processPickle_shape h2
  have hlk' : F'.lookup = self1.lookup := by rw [hlk, hs1]
  have hown : ∀ ps, F'.ownedByBackground ps ↔ self1.ownedByBackground ps :=
    fun ps => ownedByBackground_congr hlk' ps
  have hbg := pickleStepsLoop_background hloop
  refine ⟨bgs, newScenarioElement sc idl.1 idl.2 st.scenarioJsonSteps tags, ?_, ?_,
    rfl, ?_⟩
  · rcases hcase with ⟨hby, hold, hby', _⟩ | ⟨hby, hjf, ⟨doc, feat, _, _, hfo⟩, hby', _⟩
    · have hby2 : F.jsonFeaturesByURI p.Uri = some jf := hby
      have hold2 : F.jsonFeatures[jf]? = some fOld := hold
      have hby3 : F'.jsonFeaturesByURI p.Uri = some jf := by rw [hby']; exact hby
      simp only [Formatter.elementsOf, hby2, hold2, hby3, hnew]
    · have hby2 : F.jsonFeaturesByURI p.Uri = none := hby
      have hby3 : F'.jsonFeaturesByURI p.Uri = some jf := by rw [hby', GoMap.set_same]
      simp only [Formatter.elementsOf, hby2, hby3, hnew, (newJsonFeature_eq_ok hfo).1,
        List.nil_append]
  · rcases backgroundElementsOf_eq_ok hbgs with ⟨h3, h4⟩ | ⟨h3, b, loc, _, _, h4⟩
    · left
      refine ⟨h4, ?_⟩
      rintro ⟨ps, hps, hps2⟩
      exact (hbg.mpr (Or.inr ⟨ps, hps, (hown ps).mp hps2⟩)) h3
    · right
      rcases hbg.mp h3 with h5 | ⟨ps, hps, hps2⟩
      · exact absurd rfl h5
      · exact ⟨_, h4, rfl, rfl, rfl, ps, hps, (hown ps).mpr hps2⟩
  · have h5 := pickleTagsLoop_eq_ok htags
    rw [← hlk'] at h5
    exact h5

/-- The elements that `samplePickle` appends after the records of
`sampleHead`. -/
theorem pickle_appends_elements_witness :
    ∃ (bgs : List jsonFeatureElement) (scn : jsonFeatureElement),
      (finalOf (sampleHead ++ [Envelope.pickle samplePickle])).elementsOf samplePickle.Uri
          = (finalOf sampleHead).elementsOf samplePickle.Uri ++ bgs ++ [scn]
      ∧ ((bgs = [] ∧ ¬ ∃ ps ∈ samplePickle.Steps,
            (finalOf (sampleHead ++ [Envelope.pickle samplePickle])).ownedByBackground ps)
          ∨ (∃ bg, bgs = [bg] ∧ bg.Type_ = "background" ∧ bg.ID = "" ∧ bg.Tags = []
              ∧ ∃ ps ∈ samplePickle.Steps,
                (finalOf (sampleHead ++ [Envelope.pickle samplePickle])).ownedByBackground ps))
      ∧ scn.Type_ = "scenario"
      ∧ List.Forall₂ (fun (pt : PickleTag) (jt : jsonTag) =>
          ∃ tag location,
            (finalOf (sampleHead ++ [Envelope.pickle samplePickle])).lookup.LookupTagByID
                pt.SourceId = some tag
            ∧ tag.Location = some location
            ∧ jt = { Line := location.Line, Name := tag.Name }) samplePickle.Tags scn.Tags :=
  pickle_appends_elements (finalOf sampleHead)
    (finalOf (sampleHead ++ [Envelope.pickle samplePickle])) samplePickle
    (finalOf_step sampleHead (Envelope.pickle samplePickle) rfl)

/-- The elements on two sample streams: a Pickle with a Background step gets a
background element and a scenario element with the tag of the Pickle, a Pickle
without one gets the scenario element alone. -/
theorem sample_pickle_elements :
    (((finalOf (sampleHead ++ [Envelope.pickle samplePickle])).elementsOf "a.feature").map
        (fun e => (e.Type_, e.Tags)))
      = [("background", []), ("scenario", [{ Line := 4, Name := "@smoke" }])]
    ∧ (((finalOf (sampleHead ++ [Envelope.pickle plainPickle])).elementsOf "a.feature").map
        (fun e => (e.Type_, e.Tags))) = [("scenario", [])] := by
  decide

/-! ## Properties: the output steps -/

/-- What a Pickle record does to the step store and to the table of
pointers. -/
theorem processEnvelope_pickle_steps {F F' : Formatter} {p : Pickle}
    (h : F.processEnvelope (.pickle p) = .ok F') :
    (∃ new, F'.jsonSteps = F.jsonSteps ++ new ∧ new.length = p.Steps.length
      ∧ ∀ js ∈ new, js.Result = none ∧ js.Match = some { Location := p.Uri })
    ∧ ∀ k, F'.jsonStepsByPickleStepId k = F.jsonStepsByPickleStepId k
        ∨ ∃ i, F'.jsonStepsByPickleStepId k = some i ∧ F.jsonSteps.length ≤ i
            ∧ i < F'.jsonSteps.length := by
  obtain ⟨l', hl, h2⟩ := processEnvelope_pickle h
  obtain ⟨self1, jf, fOld, sid, sc, st, bgs, idl, tags, _, hs2, hs3, _, _, _, _, _, _,
    hloop, _, _, _, hst, hmap, _, _⟩ := processPickle_shape h2
  have hs2' : self1.jsonSteps = F.jsonSteps := hs2
  have hs3' : self1.jsonStepsByPickleStepId = F.jsonStepsByPickleStepId := hs3
  constructor
  · obtain ⟨new, hn1, hn2, hn3⟩ := pickleStepsLoop_steps hloop
    refine ⟨new, ?_, hn2, hn3⟩
    rw [hst, hn1]
    simp only [Formatter.pickleLoopStart, hs2']
  · intro k
    rcases pickleStepsLoop_map hloop k with h3 | ⟨i, h3, h4, h5⟩
    · left
      rw [hmap, h3]
      simp only [Formatter.pickleLoopStart, hs3']
    · right
      refine ⟨i, by rw [hmap]; exact h3, ?_, by rw [hst]; exact h5⟩
      simpa only [Formatter.pickleLoopStart, hs2'] using h4

/-- What a Test-step-finished record does: one write through the pointer of
its target. -/
theorem processEnvelope_tsf_steps {F F' : Formatter} {m : TestStepFinished}
    (h : F.processEnvelope (.testStepFinished m) = .ok F') :
    ∃ ptr tr newMatch, F.targetOf m = some ptr ∧ m.TestResult = some tr
      ∧ newStepMatch (F.definitionsOf m) = .ok newMatch
      ∧ F'.jsonSteps = updateAt F.jsonSteps ptr (attachResult tr newMatch)
      ∧ F'.jsonStepsByPickleStepId = F.jsonStepsByPickleStepId := by
  obtain ⟨ts, ps, ptr, tr, newMatch, h1, h2, h3, h4, h5, rfl⟩ := processEnvelope_tsf h
  refine ⟨ptr, tr, newMatch, ?_, h4, ?_, rfl, rfl⟩
  · simp only [Formatter.targetOf, h1, h2, h3]
  · simp only [Formatter.definitionsOf, h1]
    exact h5

/-- The other records leave the step store and the table of pointers. -/
theorem processEnvelope_steps_frame {F F' : Formatter} {e : Envelope}
    (hp : ∀ p, e ≠ .pickle p) (ht : ∀ m, e ≠ .testStepFinished m)
    (h : F.processEnvelope e = .ok F') :
    F'.jsonSteps = F.jsonSteps ∧ F'.jsonStepsByPickleStepId = F.jsonStepsByPickleStepId := by
  cases e with
  | pickle p => exact absurd rfl (hp p)
  | testStepFinished m => exact absurd rfl (ht m)
  | gherkinDocument d =>
    obtain ⟨l', feat, _, _, rfl⟩ := processEnvelope_document h
    exact ⟨rfl, rfl⟩
  | _ =>
    obtain ⟨l', _, rfl⟩ := processEnvelope_indexOnly (by intro d; simp) (by intro d; simp)
      (by intro d; simp) h
    exact ⟨rfl, rfl⟩

/-- Every registered pointer addresses a step of the store. -/
theorem run_pointers (es : List Envelope) (F : Formatter)
    (h : Formatter.reset.readLoop (es.map .msg) = .ok F) :
    ∀ k i, F.jsonStepsByPickleStepId k = some i → i < F.jsonSteps.length := by
  refine run_induction (fun _ F => ∀ k i, F.jsonStepsByPickleStepId k = some i →
    i < F.jsonSteps.length) ?_ ?_ es F h
  · intro k i hk
    simp [Formatter.reset, GoMap.empty] at hk
  · intro es F e F' _ ih hstep k i hk
    by_cases hp : ∃ p, e = .pickle p
    · obtain ⟨p, rfl⟩ := hp
      obtain ⟨⟨new, hn, _, _⟩, hmap⟩ := processEnvelope_pickle_steps hstep
      rcases hmap k with h3 | ⟨j, h3, _, h5⟩
      · rw [h3] at hk
        have := ih k i hk
        rw [hn]
        simp
        omega
      · rw [h3] at hk
        cases hk
        exact h5
    · by_cases ht : ∃ m, e = .testStepFinished m
      · obtain ⟨m, rfl⟩ := ht
        obtain ⟨ptr, tr, _, _, _, _, hs, hmap⟩ := processEnvelope_tsf_steps hstep
        rw [hmap] at hk
        rw [hs, updateAt_length]
        exact ih k i hk
      · obtain ⟨hs, hmap⟩ := processEnvelope_steps_frame (fun p h2 => hp ⟨p, h2⟩)
          (fun m h2 => ht ⟨m, h2⟩) hstep
        rw [hmap] at hk
        rw [hs]
        exact ih k i hk

theorem targetOf_lt {es : List Envelope} {F : Formatter}
    (h : Formatter.reset.readLoop (es.map .msg) = .ok F) {m : TestStepFinished} {ptr : Nat}
    (ht : F.targetOf m = some ptr) : ptr < F.jsonSteps.length := by
  unfold Formatter.targetOf at ht
  split at ht
  · split at ht
    · exact run_pointers es F h _ _ ht
    · cases ht
  · cases ht

theorem durationNanosUint64_eq (d : Duration)
    (h0 : 0 ≤ d.Seconds * 1000000000 + d.Nanos)
    (h1 : d.Seconds * 1000000000 + d.Nanos < 2 ^ 64) :
    (durationNanosUint64 d : Int) = d.Seconds * 1000000000 + d.Nanos := by
  unfold durationNanosUint64
  rw [Int.emod_eq_of_lt h0 h1]
  exact Int.toNat_of_nonneg h0

/-- The match of `newStepMatch` for an empty slice of definitions. -/
theorem newStepMatch_nil : newStepMatch [] = .ok none := rfl

/-- The match that `newStepMatch` returns for a slice with a first definition:
that definition carries a source reference with a location. -/
theorem newStepMatch_cons_eq_ok {d : StepDefinitionConfig} {rest : List StepDefinitionConfig}
    {newMatch : Option jsonStepMatch} (h : newStepMatch (d :: rest) = .ok newMatch) :
    ∃ reference location, d.Location = some reference ∧ reference.Location = some location
      ∧ newMatch = some { Location := reference.Uri ++ ":" ++ toString location.Line } := by
  simp only [newStepMatch, bind_eq_ok, deref_eq_ok] at h
  obtain ⟨reference, h1, location, h2, h3⟩ := h
  cases h3
  exact ⟨reference, location, h1, h2, rfl⟩

/-- A Test-step-finished record that carries a result, whose target step
exists and whose first resolved step definition, if there is one, carries a
source reference with a location is processed without a fault. -/
theorem processEnvelope_tsf_total (F : Formatter) (m : TestStepFinished) (ptr : Nat)
    (tr : TestResult) (newMatch : Option jsonStepMatch)
    (htgt : F.targetOf m = some ptr) (htr : m.TestResult = some tr)
    (hdefs : newStepMatch (F.definitionsOf m) = .ok newMatch) :
    ∃ F', F.processEnvelope (.testStepFinished m) = .ok F' := by
  unfold Formatter.targetOf at htgt
  unfold Formatter.definitionsOf at hdefs
  cases hts : F.lookup.LookupTestStepByID m.TestStepId with
  | none => simp [hts] at htgt
  | some testStep =>
    simp only [hts] at htgt hdefs
    cases hps : F.lookup.LookupPickleStepByID testStep.PickleStepId with
    | none => simp [hps] at htgt
    | some pickleStep =>
      simp only [hps] at htgt
      simp only [Formatter.processEnvelope, MessageLookup.ProcessMessage, bind_eq_ok,
        Formatter.processTestStepFinished, deref_eq_ok]
      exact ⟨_, F.lookup, rfl, testStep, hts, pickleStep, hps, ptr, htgt, tr, htr, newMatch,
        hdefs, rfl⟩

/-- C8, as amended: when a Test-step-finished record that carries a result and
resolves to an output step created before is processed, the Result of that
step is then one with the lower-cased name of the status (PASSED gives
"passed", FAILED gives "failed"), the message, and the duration 0 when the
record carries none, else the nanoseconds `Seconds * 10^9 + Nanos` when they
lie between 0 and `2^64 - 1`; keyword, line and name of the step stay. -/
theorem finished_sets_result (self0 : Formatter) (es : List Envelope) (F F' : Formatter)
    (m : TestStepFinished) (ptr : Nat) (tr : TestResult)
    (hrun : (Formatter.ProcessMessages self0 (es.map ReadResult.msg)).result = .ok F)
    (hstep : F.processEnvelope (Envelope.testStepFinished m) = .ok F')
    (htgt : F.targetOf m = some ptr) (htr : m.TestResult = some tr) :
    ∃ (js0 js : jsonStep) (r : jsonStepResult),
      F.jsonSteps[ptr]? = some js0 ∧ F'.jsonSteps[ptr]? = some js
      ∧ js.Result = some r
      ∧ r.Status = stringsToLower tr.Status.String
      ∧ r.ErrorMessage = tr.Message
      ∧ (tr.Duration = none → r.Duration = 0)
      ∧ (∀ d, tr.Duration = some d →
          0 ≤ d.Seconds * 1000000000 + d.Nanos → d.Seconds * 1000000000 + d.Nanos < 2 ^ 64 →
            (r.Duration : Int) = d.Seconds * 1000000000 + d.Nanos)
      ∧ stringsToLower Status.PASSED.String = "passed"
      ∧ stringsToLower Status.FAILED.String = "failed"
      ∧ js.Keyword = js0.Keyword ∧ js.Line = js0.Line ∧ js.Name = js0.Name := by
  rw [ProcessMessages_result] at hrun
  obtain ⟨ptr2, tr2, newMatch, ht, htr2, _, hs, _⟩ := processEnvelope_tsf_steps hstep
  rw [htgt] at ht
  cases ht
  rw [htr] at htr2
  cases htr2
  have hlt := targetOf_lt hrun htgt
  obtain ⟨js0, hjs0⟩ : ∃ js0, F.jsonSteps[ptr]? = some js0 :=
    ⟨F.jsonSteps[ptr], List.getElem?_eq_getElem hlt⟩
  have hjs : F'.jsonSteps[ptr]? = some (attachResult tr newMatch js0) := by
    rw [hs, updateAt_getElem?, if_pos rfl, hjs0]
    rfl
  have hres : (attachResult tr newMatch js0).Result = some (newJsonStepResult tr) := by
    unfold attachResult
    split <;> rfl
  refine ⟨js0, _, newJsonStepResult tr, hjs0, hjs, hres, rfl, rfl, ?_, ?_,
    by decide, by decide, ?_, ?_, ?_⟩
  · intro hd
    simp only [newJsonStepResult, hd]
  · intro d hd
    have hdur : (newJsonStepResult tr).Duration = durationNanosUint64 d := by
      simp only [newJsonStepResult, hd]
    rw [hdur]
    exact durationNanosUint64_eq d
  · unfold attachResult; split <;> rfl
  · unfold attachResult; split <;> rfl
  · unfold attachResult; split <;> rfl

/-- The Result that `sampleFinished` attaches after the records of
`sampleBody`. -/
theorem finished_sets_result_witness :
    ∃ (js0 js : jsonStep) (r : jsonStepResult),
      (finalOf sampleBody).jsonSteps[1]? = some js0
      ∧ (finalOf (sampleBody ++ [Envelope.testStepFinished sampleFinished])).jsonSteps[1]?
          = some js
      ∧ js.Result = some r
      ∧ r.Status
          = stringsToLower
              ({ Status := .PASSED, Message := "", Duration := some ⟨0, 1500000⟩ }
                : TestResult).Status.String
      ∧ r.ErrorMessage
          = ({ Status := .PASSED, Message := "", Duration := some ⟨0, 1500000⟩ }
              : TestResult).Message
      ∧ (({ Status := .PASSED, Message := "", Duration := some ⟨0, 1500000⟩ }
            : TestResult).Duration = none → r.Duration = 0)
      ∧ (∀ d, ({ Status := .PASSED, Message := "", Duration := some ⟨0, 1500000⟩ }
            : TestResult).Duration = some d →
          0 ≤ d.Seconds * 1000000000 + d.Nanos → d.Seconds * 1000000000 + d.Nanos < 2 ^ 64 →
            (r.Duration : Int) = d.Seconds * 1000000000 + d.Nanos)
      ∧ stringsToLower Status.PASSED.String = "passed"
      ∧ stringsToLower Status.FAILED.String = "failed"
      ∧ js.Keyword = js0.Keyword ∧ js.Line = js0.Line ∧ js.Name = js0.Name :=
  finished_sets_result Formatter.reset sampleBody (finalOf sampleBody)
    (finalOf (sampleBody ++ [Envelope.testStepFinished sampleFinished])) sampleFinished 1
    { Status := .PASSED, Message := "", Duration := some ⟨0, 1500000⟩ }
    (finalOf_run Formatter.reset sampleBody rfl)
    (finalOf_step sampleBody (Envelope.testStepFinished sampleFinished) rfl)
    (by decide) rfl

/-- The sample stream: the status PASSED with a duration of 1500000 ns gives
the status "passed" and the duration 1500000. -/
theorem sample_finished_result :
    ((finalOf sampleStream).jsonSteps[1]?).bind (fun js => js.Result)
      = some { Duration := 1500000, Status := "passed", ErrorMessage := "" } := by
  decide

/-- C8 as stated fails: a duration of 18446744074 s is not negative, and the
Result gets the duration 290448384, not 18446744074 * 10^9 nanoseconds. -/
theorem finished_duration_overflow :
    ((finalOf overflowStream).jsonSteps[1]?).bind (fun js => js.Result)
      = some { Duration := 290448384, Status := "passed", ErrorMessage := "" }
    ∧ overflowFinished.TestResult.bind (fun tr => tr.Duration) = some ⟨18446744074, 0⟩
    ∧ (0 : Int) ≤ 18446744074 * 1000000000 + 0
    ∧ (290448384 : Int) ≠ 18446744074 * 1000000000 + 0 := by
  refine ⟨by decide, rfl, by decide, by decide⟩

theorem run_prefix {es1 es2 : List Envelope} {F : Formatter}
    (h : Formatter.reset.readLoop ((es1 ++ es2).map .msg) = .ok F) :
    ∃ G, Formatter.reset.readLoop (es1.map .msg) = .ok G := by
  rw [readLoop_append, bind_eq_ok] at h
  obtain ⟨G, hG, _⟩ := h
  exact ⟨G, hG⟩

/-- The step of a run at any of its records. -/
theorem run_step_at {pre post : List Envelope} {e : Envelope} {F : Formatter}
    (h : Formatter.reset.readLoop ((pre ++ e :: post).map .msg) = .ok F) :
    Formatter.reset.readLoop (pre.map .msg) = .ok (finalOf pre)
    ∧ Formatter.reset.readLoop ((pre ++ [e]).map .msg) = .ok (finalOf (pre ++ [e]))
    ∧ (finalOf pre).processEnvelope e = .ok (finalOf (pre ++ [e])) := by
  have h2 : Formatter.reset.readLoop (((pre ++ [e]) ++ post).map .msg) = .ok F := by
    simpa using h
  obtain ⟨G', hG'⟩ := run_prefix h2
  obtain ⟨G, hG, hstep⟩ := (readLoop_snoc _ _ _ _).mp hG'
  rw [finalOf_eq hG, finalOf_eq hG']
  exact ⟨hG, hG', hstep⟩

theorem attachResult_none (tr : TestResult) (js : jsonStep) :
    (attachResult tr none js).Match = js.Match := rfl

theorem attachResult_some (tr : TestResult) (stepMatch : jsonStepMatch) (js : jsonStep) :
    (attachResult tr (some stepMatch) js).Match = some stepMatch := rfl

theorem attachResult_result (tr : TestResult) (newMatch : Option jsonStepMatch)
    (js : jsonStep) : (attachResult tr newMatch js).Result = some (newJsonStepResult tr) := by
  unfold attachResult
  split <;> rfl

theorem filterMap_head {α β : Type} (f : α → Option β) (xs : List α) (b : β) (rest : List β)
    (h : xs.filterMap f = b :: rest) :
    ∃ before x after, xs = before ++ x :: after ∧ (∀ y ∈ before, f y = none) ∧ f x = some b := by
  induction xs with
  | nil => simp at h
  | cons x xs ih =>
    cases hx : f x with
    | none =>
      rw [List.filterMap_cons_none hx] at h
      obtain ⟨before, y, after, h1, h2, h3⟩ := ih h
      refine ⟨x :: before, y, after, by rw [h1]; rfl, ?_, h3⟩
      intro z hz
      rcases List.mem_cons.mp hz with rfl | hz
      · exact hx
      · exact h2 z hz
    | some b' =>
      rw [List.filterMap_cons_some hx] at h
      cases h
      exact ⟨[], x, xs, rfl, by simp, hx⟩

/-- Every step of the store was allocated by a Pickle record of the stream, and
it keeps the URI of that Pickle as its match location as long as no
Test-step-finished record with a resolving step definition writes to it. -/
theorem run_match_default (es : List Envelope) (F : Formatter)
    (h : Formatter.reset.readLoop (es.map .msg) = .ok F) :
    ∀ ptr js, F.jsonSteps[ptr]? = some js →
      ∃ pre p post, es = pre ++ Envelope.pickle p :: post
        ∧ (finalOf pre).jsonSteps.length ≤ ptr
        ∧ ptr < (finalOf (pre ++ [Envelope.pickle p])).jsonSteps.length
        ∧ ((∀ pre2 m post2, es = pre2 ++ Envelope.testStepFinished m :: post2 →
              (finalOf pre2).targetOf m = some ptr → (finalOf pre2).definitionsOf m = []) →
            js.Match = some { Location := p.Uri }) := by
  refine run_induction (fun es F => ∀ ptr js, F.jsonSteps[ptr]? = some js →
      ∃ pre p post, es = pre ++ Envelope.pickle p :: post
        ∧ (finalOf pre).jsonSteps.length ≤ ptr
        ∧ ptr < (finalOf (pre ++ [Envelope.pickle p])).jsonSteps.length
        ∧ ((∀ pre2 m post2, es = pre2 ++ Envelope.testStepFinished m :: post2 →
              (finalOf pre2).targetOf m = some ptr → (finalOf pre2).definitionsOf m = []) →
            js.Match = some { Location := p.Uri })) ?_ ?_ es F h
  · intro ptr js hjs
    simp [Formatter.reset] at hjs
  · intro es F e F' hF ih hstep ptr js hjs
    have hF' : Formatter.reset.readLoop ((es ++ [e]).map .msg) = .ok F' :=
      (readLoop_snoc _ _ _ _).mpr ⟨F, hF, hstep⟩
    -- a step that was there before this record
    have hold : ∀ js0, F.jsonSteps[ptr]? = some js0 →
        ((∀ pre2 m post2, es ++ [e] = pre2 ++ Envelope.testStepFinished m :: post2 →
            (finalOf pre2).targetOf m = some ptr → (finalOf pre2).definitionsOf m = []) →
          js.Match = js0.Match) →
        ∃ pre p post, es ++ [e] = pre ++ Envelope.pickle p :: post
          ∧ (finalOf pre).jsonSteps.length ≤ ptr
          ∧ ptr < (finalOf (pre ++ [Envelope.pickle p])).jsonSteps.length
          ∧ ((∀ pre2 m post2, es ++ [e] = pre2 ++ Envelope.testStepFinished m :: post2 →
                (finalOf pre2).targetOf m = some ptr → (finalOf pre2).definitionsOf m = []) →
              js.Match = some { Location := p.Uri }) := by
      intro js0 hjs0 hsame
      obtain ⟨pre, p, post, heq, h1, h2, h3⟩ := ih ptr js0 hjs0
      refine ⟨pre, p, post ++ [e], by rw [heq]; simp, h1, h2, ?_⟩
      intro hno
      rw [hsame hno]
      apply h3
      intro pre2 m post2 heq2 ht
      exact hno pre2 m (post2 ++ [e]) (by rw [heq2]; simp) ht
    by_cases hp : ∃ p, e = .pickle p
    · obtain ⟨p, rfl⟩ := hp
      obtain ⟨⟨new, hn, _, hnew⟩, _⟩ := processEnvelope_pickle_steps hstep
      by_cases hlt : ptr < F.jsonSteps.length
      · apply hold js
        · rw [hn, List.getElem?_append_left hlt] at hjs
          exact hjs
        · intro _
          rfl
      · have hge : F.jsonSteps.length ≤ ptr := Nat.le_of_not_lt hlt
        refine ⟨es, p, [], rfl, by rw [finalOf_eq hF]; exact hge, ?_, ?_⟩
        · rw [finalOf_eq hF']
          exact (List.getElem?_eq_some.mp hjs).1
        · intro _
          rw [hn, List.getElem?_append_right hge] at hjs
          exact (hnew js (List.mem_iff_getElem?.mpr ⟨_, hjs⟩)).2
    · by_cases ht : ∃ m, e = .testStepFinished m
      · obtain ⟨m, rfl⟩ := ht
        obtain ⟨ptr0, tr, newMatch, htgt, _, hnm, hs, _⟩ := processEnvelope_tsf_steps hstep
        rw [hs, updateAt_getElem?] at hjs
        by_cases hpp : ptr = ptr0
        · subst hpp
          rw [if_pos rfl] at hjs
          cases hjs0 : F.jsonSteps[ptr]? with
          | none => simp [hjs0] at hjs
          | some js0 =>
            simp only [hjs0, Option.map_some', Option.some.injEq] at hjs
            apply hold js0 hjs0
            intro hno
            have hdefs := hno es m [] rfl (by rw [finalOf_eq hF]; exact htgt)
            rw [finalOf_eq hF] at hdefs
            rw [hdefs, newStepMatch_nil] at hnm
            cases hnm
            rw [← hjs]
            rfl
        · rw [if_neg hpp] at hjs
          exact hold js hjs (fun _ => rfl)
      · obtain ⟨hs, _⟩ := processEnvelope_steps_frame (fun p h2 => hp ⟨p, h2⟩)
          (fun m h2 => ht ⟨m, h2⟩) hstep
        rw [hs] at hjs
        exact hold js hjs (fun _ => rfl)

/-- C9: after a run of `ProcessMessages`, every step of the store was allocated
by a Pickle record of the stream, and if no Test-step-finished record with a
resolving step definition was processed for it, its match location is the URI
of that Pickle, without a line; a Test-step-finished record whose candidate
ids resolve to the definitions `d :: rest` sets the match location of its
target step to `uri:line` of `d`, and `d` is the definition of the first
candidate id that resolves. -/
theorem match_location (self0 : Formatter) (es : List Envelope) (F : Formatter)
    (hrun : (Formatter.ProcessMessages self0 (es.map ReadResult.msg)).result = .ok F) :
    (∀ ptr js, F.jsonSteps[ptr]? = some js →
      ∃ pre p post, es = pre ++ Envelope.pickle p :: post
        ∧ (finalOf pre).jsonSteps.length ≤ ptr
        ∧ ptr < (finalOf (pre ++ [Envelope.pickle p])).jsonSteps.length
        ∧ ((∀ pre2 m post2, es = pre2 ++ Envelope.testStepFinished m :: post2 →
              (finalOf pre2).targetOf m = some ptr → (finalOf pre2).definitionsOf m = []) →
            js.Match = some { Location := p.Uri }))
    ∧ (∀ pre m post d rest, es = pre ++ Envelope.testStepFinished m :: post →
        (finalOf pre).definitionsOf m = d :: rest →
        (∃ ptr js reference location, (finalOf pre).targetOf m = some ptr
          ∧ (finalOf (pre ++ [Envelope.testStepFinished m])).jsonSteps[ptr]? = some js
          ∧ d.Location = some reference ∧ reference.Location = some location
          ∧ js.Match = some { Location := reference.Uri ++ ":" ++ toString location.Line })
        ∧ ∃ testStep before id after,
            (finalOf pre).lookup.LookupTestStepByID m.TestStepId = some testStep
            ∧ testStep.StepDefinitionId = before ++ id :: after
            ∧ (∀ x ∈ before, (finalOf pre).lookup.stepDefinitionByID x = none)
            ∧ (finalOf pre).lookup.stepDefinitionByID id = some d) := by
  rw [ProcessMessages_result] at hrun
  refine ⟨run_match_default es F hrun, ?_⟩
  intro pre m post d rest heq hdefs
  rw [heq] at hrun
  obtain ⟨hG, hG', hstep⟩ := run_step_at hrun
  obtain ⟨ptr, tr, newMatch, htgt, _, hnm, hs, _⟩ := processEnvelope_tsf_steps hstep
  have hlt := targetOf_lt hG htgt
  rw [hdefs] at hnm
  obtain ⟨reference, location, hd1, hd2, rfl⟩ := newStepMatch_cons_eq_ok hnm
  constructor
  · refine ⟨ptr, attachResult tr
        (some { Location := reference.Uri ++ ":" ++ toString location.Line })
        (finalOf pre).jsonSteps[ptr], reference, location, htgt, ?_, hd1, hd2, rfl⟩
    rw [hs, updateAt_getElem?, if_pos rfl, List.getElem?_eq_getElem hlt]
    rfl
  · unfold Formatter.definitionsOf at hdefs
    cases hts : (finalOf pre).lookup.LookupTestStepByID m.TestStepId with
    | none => simp [hts] at hdefs
    | some testStep =>
      simp only [hts, MessageLookup.LookupStepDefinitionConfigsByIDs] at hdefs
      obtain ⟨before, id, after, h1, h2, h3⟩ := filterMap_head _ _ _ _ hdefs
      exact ⟨testStep, before, id, after, rfl, h1, h2, h3⟩

/-- The match locations after the run over `sampleStream`. -/
theorem match_location_witness :
    (∀ ptr js, (finalOf sampleStream).jsonSteps[ptr]? = some js →
      ∃ pre p post, sampleStream = pre ++ Envelope.pickle p :: post
        ∧ (finalOf pre).jsonSteps.length ≤ ptr
        ∧ ptr < (finalOf (pre ++ [Envelope.pickle p])).jsonSteps.length
        ∧ ((∀ pre2 m post2, sampleStream = pre2 ++ Envelope.testStepFinished m :: post2 →
              (finalOf pre2).targetOf m = some ptr → (finalOf pre2).definitionsOf m = []) →
            js.Match = some { Location := p.Uri }))
    ∧ (∀ pre m post d rest, sampleStream = pre ++ Envelope.testStepFinished m :: post →
        (finalOf pre).definitionsOf m = d :: rest →
        (∃ ptr js reference location, (finalOf pre).targetOf m = some ptr
          ∧ (finalOf (pre ++ [Envelope.testStepFinished m])).jsonSteps[ptr]? = some js
          ∧ d.Location = some reference ∧ reference.Location = some location
          ∧ js.Match = some { Location := reference.Uri ++ ":" ++ toString location.Line })
        ∧ ∃ testStep before id after,
            (finalOf pre).lookup.LookupTestStepByID m.TestStepId = some testStep
            ∧ testStep.StepDefinitionId = before ++ id :: after
            ∧ (∀ x ∈ before, (finalOf pre).lookup.stepDefinitionByID x = none)
            ∧ (finalOf pre).lookup.stepDefinitionByID id = some d) :=
  match_location Formatter.reset sampleStream (finalOf sampleStream)
    (finalOf_run Formatter.reset sampleStream rfl)

/-- The sample stream: the Background step, for which no result arrives, keeps
the URI of the Pickle as its match location; the scenario step, whose second
candidate is the definition at line 12 of `support_code.go`, gets
"support_code.go:12". -/
theorem sample_match_locations :
    (finalOf sampleStream).jsonSteps.map (fun js => js.Match)
      = [some { Location := "a.feature" }, some { Location := "support_code.go:12" }] := by
  decide

theorem snoc_eq_append_cons {α : Type} {es pre post : List α} {e x : α}
    (h : es ++ [e] = pre ++ x :: post) :
    (post = [] ∧ es = pre ∧ e = x) ∨ ∃ post', post = post' ++ [e] ∧ es = pre ++ x :: post' := by
  rcases List.eq_nil_or_concat post with rfl | ⟨L, b, rfl⟩
  · left
    have h2 := List.append_inj' h rfl
    simp only [List.cons.injEq, and_true] at h2
    exact ⟨rfl, h2.1, h2.2⟩
  · right
    have h3 : es ++ [e] = (pre ++ x :: L) ++ [b] := by rw [h]; simp
    have h2 := List.append_inj' h3 rfl
    simp only [List.cons.injEq, and_true] at h2
    exact ⟨L, by rw [h2.2]; simp, h2.1⟩

/-- A step of the store has a Result exactly when a Test-step-finished record
of the stream had it as its target; and the targets are steps of the store. -/
theorem run_result_iff (es : List Envelope) (F : Formatter)
    (h : Formatter.reset.readLoop (es.map .msg) = .ok F) :
    (∀ ptr js, F.jsonSteps[ptr]? = some js →
      (js.Result ≠ none ↔ ∃ pre m post, es = pre ++ Envelope.testStepFinished m :: post
        ∧ (finalOf pre).targetOf m = some ptr))
    ∧ (∀ pre m post ptr, es = pre ++ Envelope.testStepFinished m :: post →
        (finalOf pre).targetOf m = some ptr → ptr < F.jsonSteps.length) := by
  refine run_induction (fun es F =>
    (∀ ptr js, F.jsonSteps[ptr]? = some js →
      (js.Result ≠ none ↔ ∃ pre m post, es = pre ++ Envelope.testStepFinished m :: post
        ∧ (finalOf pre).targetOf m = some ptr))
    ∧ (∀ pre m post ptr, es = pre ++ Envelope.testStepFinished m :: post →
        (finalOf pre).targetOf m = some ptr → ptr < F.jsonSteps.length)) ?_ ?_ es F h
  · constructor
    · intro ptr js hjs
      simp [Formatter.reset] at hjs
    · intro pre m post ptr heq
      simp at heq
  · intro es F e F' hF ih hstep
    obtain ⟨ih1, ih2⟩ := ih
    -- a record that is not a Test-step-finished record adds no target
    have hother : (∀ m, e ≠ Envelope.testStepFinished m) → ∀ ptr,
        ((∃ pre m post, es ++ [e] = pre ++ Envelope.testStepFinished m :: post
            ∧ (finalOf pre).targetOf m = some ptr)
          ↔ ∃ pre m post, es = pre ++ Envelope.testStepFinished m :: post
            ∧ (finalOf pre).targetOf m = some ptr) := by
      intro hne ptr
      constructor
      · rintro ⟨pre, m, post, heq, ht⟩
        rcases snoc_eq_append_cons heq with ⟨_, _, he⟩ | ⟨post', _, hes⟩
        · exact absurd he (hne m)
        · exact ⟨pre, m, post', hes, ht⟩
      · rintro ⟨pre, m, post, heq, ht⟩
        exact ⟨pre, m, post ++ [e], by rw [heq]; simp, ht⟩
    by_cases hp : ∃ p, e = .pickle p
    · obtain ⟨p, rfl⟩ := hp
      obtain ⟨⟨new, hn, _, hnew⟩, _⟩ := processEnvelope_pickle_steps hstep
      have hne : ∀ m, Envelope.pickle p ≠ Envelope.testStepFinished m := by intro m; simp
      constructor
      · intro ptr js hjs
        rw [hother hne ptr]
        by_cases hlt : ptr < F.jsonSteps.length
        · rw [hn, List.getElem?_append_left hlt] at hjs
          exact ih1 ptr js hjs
        · have hge : F.jsonSteps.length ≤ ptr := Nat.le_of_not_lt hlt
          rw [hn, List.getElem?_append_right hge] at hjs
          have hres := (hnew js (List.mem_iff_getElem?.mpr ⟨_, hjs⟩)).1
          constructor
          · intro h2
            exact absurd hres h2
          · rintro ⟨pre, m, post, heq, ht⟩
            exact absurd (ih2 pre m post ptr heq ht) hlt
      · intro pre m post ptr heq ht
        rcases snoc_eq_append_cons heq with ⟨_, _, he⟩ | ⟨post', _, hes⟩
        · exact absurd he (hne m)
        · have := ih2 pre m post' ptr hes ht
          rw [hn]
          simp
          omega
    · by_cases ht : ∃ m, e = .testStepFinished m
      · obtain ⟨m, rfl⟩ := ht
        obtain ⟨ptr0, tr, newMatch, htgt, _, _, hs, _⟩ := processEnvelope_tsf_steps hstep
        constructor
        · intro ptr js hjs
          rw [hs, updateAt_getElem?] at hjs
          by_cases hpp : ptr = ptr0
          · subst hpp
            rw [if_pos rfl] at hjs
            cases hjs0 : F.jsonSteps[ptr]? with
            | none => simp [hjs0] at hjs
            | some js0 =>
              simp only [hjs0, Option.map_some', Option.some.injEq] at hjs
              constructor
              · intro _
                exact ⟨es, m, [], rfl, by rw [finalOf_eq hF]; exact htgt⟩
              · intro _
                rw [← hjs, attachResult_result]
                simp
          · rw [if_neg hpp] at hjs
            rw [ih1 ptr js hjs]
            constructor
            · rintro ⟨pre, m2, post, heq, ht2⟩
              exact ⟨pre, m2, post ++ [Envelope.testStepFinished m], by rw [heq]; simp, ht2⟩
            · rintro ⟨pre, m2, post, heq, ht2⟩
              rcases snoc_eq_append_cons heq with ⟨_, hes, he⟩ | ⟨post', _, hes⟩
              · cases he
                rw [← hes, finalOf_eq hF, htgt] at ht2
                cases ht2
                exact absurd rfl hpp
              · exact ⟨pre, m2, post', hes, ht2⟩
        · intro pre m2 post ptr heq ht2
          rw [hs, updateAt_length]
          rcases snoc_eq_append_cons heq with ⟨_, hes, he⟩ | ⟨post', _, hes⟩
          · cases he
            rw [← hes, finalOf_eq hF] at ht2
            exact targetOf_lt hF ht2
          · exact ih2 pre m2 post' ptr hes ht2
      · have hne : ∀ m, e ≠ Envelope.testStepFinished m := fun m h2 => ht ⟨m, h2⟩
        obtain ⟨hs, _⟩ := processEnvelope_steps_frame (fun p h2 => hp ⟨p, h2⟩) hne hstep
        constructor
        · intro ptr js hjs
          rw [hother hne ptr]
          rw [hs] at hjs
          exact ih1 ptr js hjs
        · intro pre m post ptr heq ht2
          rcases snoc_eq_append_cons heq with ⟨_, _, he⟩ | ⟨post', _, hes⟩
          · exact absurd he (hne m)
          · rw [hs]
            exact ih2 pre m post' ptr hes ht2

/-- C10, as amended: after a run of `ProcessMessages`, a step of the store has
a Result exactly when at least one Test-step-finished record of the stream had
it as its target; and every Test-step-finished record of the stream, a second
one for the same step as well, leaves its own result in its target step. -/
theorem result_iff_finished (self0 : Formatter) (es : List Envelope) (F : Formatter)
    (hrun : (Formatter.ProcessMessages self0 (es.map ReadResult.msg)).result = .ok F) :
    (∀ ptr js, F.jsonSteps[ptr]? = some js →
      (js.Result ≠ none ↔ ∃ pre m post, es = pre ++ Envelope.testStepFinished m :: post
        ∧ (finalOf pre).targetOf m = some ptr))
    ∧ (∀ pre m post, es = pre ++ Envelope.testStepFinished m :: post →
        ∃ ptr tr js, (finalOf pre).targetOf m = some ptr ∧ m.TestResult = some tr
          ∧ (finalOf (pre ++ [Envelope.testStepFinished m])).jsonSteps[ptr]? = some js
          ∧ js.Result = some (newJsonStepResult tr)) := by
  rw [ProcessMessages_result] at hrun
  refine ⟨(run_result_iff es F hrun).1, ?_⟩
  intro pre m post heq
  rw [heq] at hrun
  obtain ⟨hG, hG', hstep⟩ := run_step_at hrun
  obtain ⟨ptr, tr, newMatch, htgt, htr, _, hs, _⟩ := processEnvelope_tsf_steps hstep
  have hlt := targetOf_lt hG htgt
  refine ⟨ptr, tr, attachResult tr newMatch (finalOf pre).jsonSteps[ptr],
    htgt, htr, ?_, attachResult_result _ _ _⟩
  rw [hs, updateAt_getElem?, if_pos rfl, List.getElem?_eq_getElem hlt]
  rfl

/-- The Results after the run over `doubleStream`. -/
theorem result_iff_finished_witness :
    (∀ ptr js, (finalOf doubleStream).jsonSteps[ptr]? = some js →
      (js.Result ≠ none ↔ ∃ pre m post, doubleStream = pre ++ Envelope.testStepFinished m :: post
        ∧ (finalOf pre).targetOf m = some ptr))
    ∧ (∀ pre m post, doubleStream = pre ++ Envelope.testStepFinished m :: post →
        ∃ ptr tr js, (finalOf pre).targetOf m = some ptr ∧ m.TestResult = some tr
          ∧ (finalOf (pre ++ [Envelope.testStepFinished m])).jsonSteps[ptr]? = some js
          ∧ js.Result = some (newJsonStepResult tr)) :=
  result_iff_finished Formatter.reset doubleStream (finalOf doubleStream)
    (finalOf_run Formatter.reset doubleStream rfl)

/-- C10 as stated fails on `doubleStream`: two Test-step-finished records have
the scenario step as their target, the second one attaches its result again
(the status "passed" becomes "failed"), and the Result is not empty although
it is not exactly one record that was processed for the step. -/
theorem second_finished_attaches :
    (finalOf sampleBody).targetOf sampleFinished = some 1
    ∧ (finalOf sampleStream).targetOf secondFinished = some 1
    ∧ ((finalOf sampleStream).jsonSteps[1]?).bind (fun js => js.Result)
        = some { Duration := 1500000, Status := "passed", ErrorMessage := "" }
    ∧ ((finalOf doubleStream).jsonSteps[1]?).bind (fun js => js.Result)
        = some { Duration := 0, Status := "failed", ErrorMessage := "boom" }
    ∧ ¬ (∀ ptr js, (finalOf doubleStream).jsonSteps[ptr]? = some js →
          (js.Result ≠ none ↔ ∃! pre, ∃ m post,
            doubleStream = pre ++ Envelope.testStepFinished m :: post
            ∧ (finalOf pre).targetOf m = some ptr)) := by
  have h1 : (finalOf sampleBody).targetOf sampleFinished = some 1 := by decide
  have h2 : (finalOf sampleStream).targetOf secondFinished = some 1 := by decide
  refine ⟨h1, h2, by decide, by decide, ?_⟩
  intro H
  have hjs : (finalOf doubleStream).jsonSteps[1]?
      = some (finalOf doubleStream).jsonSteps[1] := rfl
  have hres : (finalOf doubleStream).jsonSteps[1].Result ≠ none := by decide
  obtain ⟨pre, _, huniq⟩ := (H 1 _ hjs).mp hres
  have e1 := huniq sampleBody ⟨sampleFinished, [Envelope.testStepFinished secondFinished], rfl, h1⟩
  have e2 := huniq sampleStream ⟨secondFinished, [], rfl, h2⟩
  have e3 : sampleBody = sampleStream := e1.trans e2.symm
  have e4 := congrArg List.length e3
  simp [sampleStream, sampleBody, sampleHead] at e4

/-! ## Properties: the order of features and elements -/

theorem firstSeen_snoc (l : List String) (u : String) :
    firstSeen (l ++ [u]) = if u ∈ firstSeen l then firstSeen l else firstSeen l ++ [u] := by
  simp only [firstSeen, List.foldl_append, List.foldl_cons, List.foldl_nil]

theorem mem_firstSeen (l : List String) (u : String) : u ∈ firstSeen l ↔ u ∈ l := by
  induction l using List.reverseRecOn with
  | nil => simp [firstSeen]
  | append_singleton l v ih =>
    rw [firstSeen_snoc]
    by_cases hv : v ∈ firstSeen l
    · rw [if_pos hv]
      simp only [List.mem_append, List.mem_singleton]
      constructor
      · intro h; exact Or.inl (ih.mp h)
      · rintro (h | h)
        · exact ih.mpr h
        · rw [h]; exact hv
    · rw [if_neg hv]
      simp only [List.mem_append, List.mem_singleton, ih]

theorem nodup_firstSeen (l : List String) : (firstSeen l).Nodup := by
  induction l using List.reverseRecOn with
  | nil => simp [firstSeen]
  | append_singleton l v ih =>
    rw [firstSeen_snoc]
    by_cases hv : v ∈ firstSeen l
    · rw [if_pos hv]; exact ih
    · rw [if_neg hv]
      rw [List.nodup_append]
      refine ⟨ih, by simp, ?_⟩
      intro a ha hb
      simp only [List.mem_singleton] at hb
      subst hb
      exact hv ha

theorem picklesOf_snoc_pickle (es : List Envelope) (p : Pickle) :
    picklesOf (es ++ [Envelope.pickle p]) = picklesOf es ++ [p] := by
  simp [picklesOf, List.filterMap_append]

theorem picklesOf_snoc_other (es : List Envelope) (e : Envelope)
    (h : ∀ p, e ≠ Envelope.pickle p) : picklesOf (es ++ [e]) = picklesOf es := by
  cases e <;> first | exact absurd rfl (h _) | simp [picklesOf, List.filterMap_append]

/-- The features and the table of features agree: a URI is registered exactly
when a Pickle record carried it, each feature is registered under its own URI
at its own place, and the URIs of the features are those of the Pickle
records in the order of their first occurrence. -/
theorem run_feature_list (es : List Envelope) (F : Formatter)
    (h : Formatter.reset.readLoop (es.map .msg) = .ok F) :
    F.jsonFeatures.map (fun f => f.URI) = firstSeen ((picklesOf es).map (fun p => p.Uri))
    ∧ (∀ i f, F.jsonFeatures[i]? = some f → F.jsonFeaturesByURI f.URI = some i)
    ∧ (∀ uri, F.jsonFeaturesByURI uri = none → uri ∉ (picklesOf es).map (fun p => p.Uri)) := by
  refine run_induction (fun es F =>
    F.jsonFeatures.map (fun f => f.URI) = firstSeen ((picklesOf es).map (fun p => p.Uri))
    ∧ (∀ i f, F.jsonFeatures[i]? = some f → F.jsonFeaturesByURI f.URI = some i)
    ∧ (∀ uri, F.jsonFeaturesByURI uri = none → uri ∉ (picklesOf es).map (fun p => p.Uri)))
    ?_ ?_ es F h
  · refine ⟨by simp [Formatter.reset, picklesOf, firstSeen], ?_, ?_⟩
    · intro i f hf
      simp [Formatter.reset] at hf
    · intro uri _
      simp [picklesOf]
  · intro es F e F' hF ih hstep
    obtain ⟨ih1, ih2, ih3⟩ := ih
    by_cases hp : ∃ p, e = .pickle p
    · obtain ⟨p, rfl⟩ := hp
      obtain ⟨l', hl, h2⟩ := processEnvelope_pickle hstep
      obtain ⟨self1, jf, fOld, sid, sc, st, bgs, idl, tags, _, _, _, _, hcase, hnew, hother, _⟩ :=
        processPickle_shape h2
      rw [picklesOf_snoc_pickle, List.map_append, List.map_cons, List.map_nil, firstSeen_snoc]
      rcases hcase with ⟨hby, hold, hby', hlen⟩ | ⟨hby, hjf, ⟨doc, feat, _, _, hfo⟩, hby', hlen⟩
      · have hby2 : F.jsonFeaturesByURI p.Uri = some jf := hby
        have hold2 : F.jsonFeatures[jf]? = some fOld := hold
        have hlen2 : F'.jsonFeatures.length = F.jsonFeatures.length := hlen
        have hother2 : ∀ j, j ≠ jf → F'.jsonFeatures[j]? = F.jsonFeatures[j]? := hother
        have huri : fOld.URI = p.Uri := by
          obtain ⟨f, hf, hu, _⟩ := run_features es F hF p.Uri jf hby2
          rw [hold2] at hf
          cases hf
          exact hu
        have hmem : p.Uri ∈ firstSeen ((picklesOf es).map (fun p => p.Uri)) := by
          rw [← ih1]
          exact List.mem_map.mpr ⟨fOld, List.mem_iff_getElem?.mpr ⟨jf, hold2⟩, huri⟩
        have hmap : F'.jsonFeatures.map (fun f => f.URI) = F.jsonFeatures.map (fun f => f.URI) := by
          apply List.ext_getElem?
          intro n
          simp only [List.getElem?_map]
          by_cases hn : n = jf
          · rw [hn, hnew, hold2]
            rfl
          · rw [hother2 n hn]
        refine ⟨by rw [if_pos hmem, hmap, ih1], ?_, ?_⟩
        · intro i f hf
          rw [hby']
          by_cases hi : i = jf
          · rw [hi, hnew] at hf
            cases hf
            rw [hi]
            exact (congrArg _ huri).trans hby2
          · rw [hother2 i hi] at hf
            exact ih2 i f hf
        · intro uri hnone
          rw [hby'] at hnone
          have h3 := ih3 uri hnone
          have hne : uri ≠ p.Uri := by
            intro h4
            rw [h4, hby2] at hnone
            cases hnone
          simp only [List.mem_append, List.mem_singleton, not_or]
          exact ⟨h3, hne⟩
      · have hby2 : F.jsonFeaturesByURI p.Uri = none := hby
        have hlen2 : F'.jsonFeatures.length = F.jsonFeatures.length + 1 := hlen
        have hother2 : ∀ j, j ≠ jf → F'.jsonFeatures[j]? = F.jsonFeatures[j]? := hother
        have hjf2 : jf = F.jsonFeatures.length := hjf
        have hnot : p.Uri ∉ firstSeen ((picklesOf es).map (fun p => p.Uri)) := by
          rw [mem_firstSeen]
          exact ih3 _ hby2
        have hmap : F'.jsonFeatures.map (fun f => f.URI)
            = F.jsonFeatures.map (fun f => f.URI) ++ [p.Uri] := by
          apply List.ext_getElem?
          intro n
          simp only [List.getElem?_map]
          by_cases hn : n = jf
          · rw [hn, hnew, hjf2, List.getElem?_append_right (by simp)]
            simp [(newJsonFeature_eq_ok hfo).2.2.1]
          · rw [hother2 n hn]
            rcases Nat.lt_or_gt_of_ne hn with hlt | hgt
            · rw [List.getElem?_append_left (by simp; omega)]
              simp
            · rw [List.getElem?_eq_none (by omega)]
              rw [List.getElem?_eq_none (by simp; omega)]
              rfl
        refine ⟨by rw [if_neg hnot, hmap, ih1], ?_, ?_⟩
        · intro i f hf
          rw [hby']
          by_cases hi : i = jf
          · rw [hi, hnew] at hf
            cases hf
            rw [hi]
            have hu : fOld.URI = p.Uri := (newJsonFeature_eq_ok hfo).2.2.1
            show (F.jsonFeaturesByURI.set p.Uri jf) fOld.URI = some jf
            rw [hu]
            exact GoMap.set_same _ _ _
          · rw [hother2 i hi] at hf
            have h4 := ih2 i f hf
            have hne : f.URI ≠ p.Uri := by
              intro h5
              rw [h5, hby2] at h4
              cases h4
            rw [GoMap.set_other _ _ _ _ hne]
            exact h4
        · intro uri hnone
          rw [hby'] at hnone
          have hne : uri ≠ p.Uri := by
            intro h4
            rw [h4, GoMap.set_same] at hnone
            cases hnone
          rw [GoMap.set_other _ _ _ _ hne] at hnone
          simp only [List.mem_append, List.mem_singleton, not_or]
          exact ⟨ih3 uri hnone, hne⟩
    · have hne : ∀ p, e ≠ Envelope.pickle p := fun p h2 => hp ⟨p, h2⟩
      obtain ⟨h1, h2⟩ := processEnvelope_features_frame hne hstep
      rw [picklesOf_snoc_other es e hne, h1, h2]
      exact ⟨ih1, ih2, ih3⟩

/-- The elements a Pickle record appends to the feature of its URI. -/
theorem pickle_elements_step {F F' : Formatter} {p : Pickle}
    (hstep : F.processEnvelope (.pickle p) = .ok F') :
    ∃ (bgs : List jsonFeatureElement) (scn : jsonFeatureElement),
      F'.elementsOf p.Uri = F.elementsOf p.Uri ++ bgs ++ [scn]
      ∧ (∀ b ∈ bgs, b.Type_ = "background") ∧ scn.Type_ = "scenario" := by
  obtain ⟨l', hl, h2⟩ := processEnvelope_pickle hstep
  obtain ⟨self1, jf, fOld, sid, sc, st, bgs, idl, tags, _, _, _, _, hcase, hnew, _, _, _,
    _, hbgs, _⟩ := processPickle_shape h2
  refine ⟨bgs, newScenarioElement sc idl.1 idl.2 st.scenarioJsonSteps tags, ?_, ?_, rfl⟩
  · rcases hcase with ⟨hby, hold, hby', _⟩ | ⟨hby, hjf, ⟨doc, feat, _, _, hfo⟩, hby', _⟩
    · have hby2 : F.jsonFeaturesByURI p.Uri = some jf := hby
      have hold2 : F.jsonFeatures[jf]? = some fOld := hold
      have hby3 : F'.jsonFeaturesByURI p.Uri = some jf := by rw [hby']; exact hby
      simp only [Formatter.elementsOf, hby2, hold2, hby3, hnew]
    · have hby2 : F.jsonFeaturesByURI p.Uri = none := hby
      have hby3 : F'.jsonFeaturesByURI p.Uri = some jf := by rw [hby', GoMap.set_same]
      simp only [Formatter.elementsOf, hby2, hby3, hnew, (newJsonFeature_eq_ok hfo).1,
        List.nil_append]
  · rcases backgroundElementsOf_eq_ok hbgs with ⟨_, h4⟩ | ⟨_, b, _, _, _, h4⟩
    · rw [h4]; simp
    · rw [h4]
      intro b2 hb2
      simp only [List.mem_singleton] at hb2
      rw [hb2]

/-- A Pickle record leaves the elements of the features of the other URIs. -/
theorem pickle_elements_other {es : List Envelope} {F F' : Formatter} {p : Pickle}
    (hF : Formatter.reset.readLoop (es.map .msg) = .ok F)
    (hstep : F.processEnvelope (.pickle p) = .ok F') (uri : String) (hne : uri ≠ p.Uri) :
    F'.elementsOf uri = F.elementsOf uri := by
  obtain ⟨l', hl, h2⟩ := processEnvelope_pickle hstep
  obtain ⟨self1, jf, fOld, sid, sc, st, bgs, idl, tags, _, _, _, _, hcase, hnew, hother, _⟩ :=
    processPickle_shape h2
  have hother2 : ∀ j, j ≠ jf → F'.jsonFeatures[j]? = F.jsonFeatures[j]? := hother
  have hfeat := run_features es F hF
  have hby' : F'.jsonFeaturesByURI uri = F.jsonFeaturesByURI uri := by
    rcases hcase with ⟨_, _, hby', _⟩ | ⟨_, _, _, hby', _⟩
    · rw [hby']
    · rw [hby', GoMap.set_other _ _ _ _ hne]
  unfold Formatter.elementsOf
  rw [hby']
  cases hu : F.jsonFeaturesByURI uri with
  | none => rfl
  | some i =>
    obtain ⟨f, hf, hfu, _⟩ := hfeat uri i hu
    have hij : i ≠ jf := by
      rcases hcase with ⟨hby, hold, _, _⟩ | ⟨_, hjf, _, _, _⟩
      · intro h3
        have hby2 : F.jsonFeaturesByURI p.Uri = some jf := hby
        obtain ⟨f2, hf2, hfu2, _⟩ := hfeat p.Uri jf hby2
        rw [h3, hf2] at hf
        cases hf
        exact hne (hfu.symm.trans hfu2)
      · intro h3
        have hjf2 : jf = F.jsonFeatures.length := hjf
        have := (List.getElem?_eq_some.mp hf).1
        omega
    simp only [hother2 i hij]

/-- The records other than Pickles leave the elements of every feature. -/
theorem elementsOf_frame {F F' : Formatter} {e : Envelope}
    (hp : ∀ p, e ≠ Envelope.pickle p) (h : F.processEnvelope e = .ok F') (uri : String) :
    F'.elementsOf uri = F.elementsOf uri := by
  obtain ⟨h1, h2⟩ := processEnvelope_features_frame hp h
  simp only [Formatter.elementsOf, h1, h2]

/-- The elements of a feature are only ever appended to. -/
theorem elementsOf_step {es : List Envelope} {F F' : Formatter} {e : Envelope}
    (hF : Formatter.reset.readLoop (es.map .msg) = .ok F)
    (hstep : F.processEnvelope e = .ok F') (uri : String) :
    ∃ more, F'.elementsOf uri = F.elementsOf uri ++ more := by
  by_cases hp : ∃ p, e = .pickle p
  · obtain ⟨p, rfl⟩ := hp
    by_cases hu : uri = p.Uri
    · subst hu
      obtain ⟨bgs, scn, h1, _⟩ := pickle_elements_step hstep
      exact ⟨bgs ++ [scn], by rw [h1, List.append_assoc]⟩
    · exact ⟨[], by rw [pickle_elements_other hF hstep uri hu, List.append_nil]⟩
  · exact ⟨[], by rw [elementsOf_frame (fun p h2 => hp ⟨p, h2⟩) hstep uri, List.append_nil]⟩

theorem elementsOf_extends (es1 es2 : List Envelope) (F : Formatter)
    (h : Formatter.reset.readLoop ((es1 ++ es2).map .msg) = .ok F) (uri : String) :
    ∃ more, F.elementsOf uri = (finalOf es1).elementsOf uri ++ more := by
  induction es2 using List.reverseRecOn generalizing F with
  | nil =>
    rw [List.append_nil] at h
    exact ⟨[], by rw [finalOf_eq h, List.append_nil]⟩
  | append_singleton es2 e ih =>
    rw [← List.append_assoc] at h
    obtain ⟨G, hG, hstep⟩ := (readLoop_snoc _ _ _ _).mp h
    obtain ⟨more1, h1⟩ := ih G hG
    obtain ⟨more2, h2⟩ := elementsOf_step hG hstep uri
    exact ⟨more1 ++ more2, by rw [h2, h1, List.append_assoc]⟩

/-- A feature has as many scenario elements as Pickle records carried its
URI. -/
theorem run_scenario_count (es : List Envelope) (F : Formatter)
    (h : Formatter.reset.readLoop (es.map .msg) = .ok F) :
    ∀ uri, (F.scenarioElementsOf uri).length
      = ((picklesOf es).filter (fun q => decide (q.Uri = uri))).length := by
  refine run_induction (fun es F => ∀ uri, (F.scenarioElementsOf uri).length
      = ((picklesOf es).filter (fun q => decide (q.Uri = uri))).length) ?_ ?_ es F h
  · intro uri
    simp [Formatter.scenarioElementsOf, Formatter.elementsOf, Formatter.reset, GoMap.empty,
      picklesOf]
  · intro es F e F' hF ih hstep uri
    by_cases hp : ∃ p, e = .pickle p
    · obtain ⟨p, rfl⟩ := hp
      rw [picklesOf_snoc_pickle, List.filter_append, List.length_append, ← ih uri]
      by_cases hu : uri = p.Uri
      · subst hu
        obtain ⟨bgs, scn, h1, h2, h3⟩ := pickle_elements_step hstep
        have hbg : bgs.filter (fun e => decide (e.Type_ = "scenario")) = [] := by
          rw [List.filter_eq_nil_iff]
          intro b hb
          rw [h2 b hb]
          decide
        simp only [Formatter.scenarioElementsOf, h1, List.filter_append, hbg, List.append_nil,
          List.length_append]
        simp [h3]
      · have hu2 : ¬ p.Uri = uri := fun h2 => hu h2.symm
        simp only [Formatter.scenarioElementsOf, pickle_elements_other hF hstep uri hu]
        simp [hu2]
    · have hne : ∀ p, e ≠ Envelope.pickle p := fun p h2 => hp ⟨p, h2⟩
      rw [picklesOf_snoc_other es e hne]
      simp only [Formatter.scenarioElementsOf, elementsOf_frame hne hstep uri]
      exact ih uri

/-- C6: after a run of `ProcessMessages`, the URIs of the features are the
URIs of the Pickle records of the stream in the order of their first
occurrence, each once; each feature is the one registered under its URI; and
the scenario elements of a feature are those of the Pickle records of its URI
in their order of arrival: the scenario element that a Pickle record appends
is, at the end of the run, the scenario element whose place among the scenario
elements of the feature is the number of earlier Pickle records of that
URI. -/
theorem feature_and_element_order (self0 : Formatter) (es : List Envelope) (F : Formatter)
    (hrun : (Formatter.ProcessMessages self0 (es.map ReadResult.msg)).result = .ok F) :
    F.jsonFeatures.map (fun f => f.URI) = firstSeen ((picklesOf es).map (fun p => p.Uri))
    ∧ (F.jsonFeatures.map (fun f => f.URI)).Nodup
    ∧ (∀ uri, uri ∈ F.jsonFeatures.map (fun f => f.URI) ↔ ∃ p ∈ picklesOf es, p.Uri = uri)
    ∧ (∀ (i : Nat) (f : jsonFeature), F.jsonFeatures[i]? = some f →
        F.elementsOf f.URI = f.Elements)
    ∧ (∀ uri, (F.scenarioElementsOf uri).length
        = ((picklesOf es).filter (fun q => decide (q.Uri = uri))).length)
    ∧ (∀ pre p post, es = pre ++ Envelope.pickle p :: post →
        ∃ old scn, (finalOf (pre ++ [Envelope.pickle p])).elementsOf p.Uri = old ++ [scn]
          ∧ scn.Type_ = "scenario"
          ∧ (F.scenarioElementsOf p.Uri)[((picklesOf pre).filter
              (fun q => decide (q.Uri = p.Uri))).length]? = some scn) := by
  rw [ProcessMessages_result] at hrun
  obtain ⟨h1, h2, _⟩ := run_feature_list es F hrun
  refine ⟨h1, ?_, ?_, ?_, run_scenario_count es F hrun, ?_⟩
  · rw [h1]
    exact nodup_firstSeen _
  · intro uri
    rw [h1, mem_firstSeen, List.mem_map]
  · intro i f hf
    simp only [Formatter.elementsOf, h2 i f hf, hf]
  · intro pre p post heq
    have hrun2 : Formatter.reset.readLoop (((pre ++ [Envelope.pickle p]) ++ post).map .msg)
        = .ok F := by
      rw [heq] at hrun
      simpa using hrun
    rw [heq] at hrun
    obtain ⟨hG, hG', hstep⟩ := run_step_at hrun
    obtain ⟨bgs, scn, h3, h4, h5⟩ := pickle_elements_step hstep
    obtain ⟨more, h6⟩ := elementsOf_extends _ _ F hrun2 p.Uri
    have hcount := run_scenario_count pre _ hG p.Uri
    have hbg : bgs.filter (fun e => decide (e.Type_ = "scenario")) = [] := by
      rw [List.filter_eq_nil_iff]
      intro b hb
      rw [h4 b hb]
      decide
    refine ⟨(finalOf pre).elementsOf p.Uri ++ bgs, scn, h3, h5, ?_⟩
    have h7 : F.scenarioElementsOf p.Uri
        = (finalOf pre).scenarioElementsOf p.Uri
          ++ (scn :: more.filter (fun e => decide (e.Type_ = "scenario"))) := by
      simp only [Formatter.scenarioElementsOf, h6, h3, List.filter_append, hbg, List.append_nil]
      simp [h5]
    rw [h7, ← hcount, List.getElem?_append_right (Nat.le_refl _), Nat.sub_self]
    simp

/-- The order of features and elements after the run over `sampleStream`. -/
theorem feature_and_element_order_witness :
    (finalOf sampleStream).jsonFeatures.map (fun f => f.URI)
      = firstSeen ((picklesOf sampleStream).map (fun p => p.Uri))
    ∧ ((finalOf sampleStream).jsonFeatures.map (fun f => f.URI)).Nodup
    ∧ (∀ uri, uri ∈ (finalOf sampleStream).jsonFeatures.map (fun f => f.URI)
        ↔ ∃ p ∈ picklesOf sampleStream, p.Uri = uri)
    ∧ (∀ (i : Nat) (f : jsonFeature), (finalOf sampleStream).jsonFeatures[i]? = some f →
        (finalOf sampleStream).elementsOf f.URI = f.Elements)
    ∧ (∀ uri, ((finalOf sampleStream).scenarioElementsOf uri).length
        = ((picklesOf sampleStream).filter (fun q => decide (q.Uri = uri))).length)
    ∧ (∀ pre p post, sampleStream = pre ++ Envelope.pickle p :: post →
        ∃ old scn, (finalOf (pre ++ [Envelope.pickle p])).elementsOf p.Uri = old ++ [scn]
          ∧ scn.Type_ = "scenario"
          ∧ ((finalOf sampleStream).scenarioElementsOf p.Uri)[((picklesOf pre).filter
              (fun q => decide (q.Uri = p.Uri))).length]? = some scn) :=
  feature_and_element_order Formatter.reset sampleStream (finalOf sampleStream)
    (finalOf_run Formatter.reset sampleStream rfl)

/-- The features of `twoFeatureStream`: the feature of the URI seen first comes
first, and its two scenario elements (told apart by the pointers of their
steps) are in the order of arrival of their Pickles. -/
theorem sample_feature_order :
    (finalOf twoFeatureStream).jsonFeatures.map
        (fun f => (f.URI, f.ID, f.Elements.map (fun e => (e.Type_, e.Steps))))
      = [("b.feature", "second-feature", [("scenario", [0]), ("scenario", [2])]),
         ("a.feature", "my-feature", [("scenario", [1])])] := by
  decide

theorem isHook_eq_false (s : TestStep) : s.isHook = false ↔ s.Hook = none := by
  cases h : s.Hook <;> simp [TestStep.isHook, h]

theorem isHook_eq_true (s : TestStep) : s.isHook = true ↔ s.Hook ≠ none := by
  cases h : s.Hook <;> simp [TestStep.isHook, h]

theorem sortLoop_AfterHook (sorted : SortedSteps) (steps : List TestStep) :
    sortLoop .AfterHook sorted steps
      = (.AfterHook, { sorted with AfterHook := sorted.AfterHook ++ steps }) := by
  induction steps generalizing sorted with
  | nil => simp [sortLoop]
  | cons x rest ih =>
    show sortLoop (Group.AfterHook.advance x) (sorted.appendTo (Group.AfterHook.advance x) x) rest = _
    have hx : Group.AfterHook.advance x = .AfterHook := by simp [Group.advance]
    rw [hx, ih]
    simp [SortedSteps.appendTo]

theorem sortLoop_Steps (sorted : SortedSteps) (steps : List TestStep) :
    (sortLoop .Steps sorted steps).2
      = { sorted with
          Steps := sorted.Steps ++ steps.takeWhile (fun s => !s.isHook)
          AfterHook := sorted.AfterHook ++ steps.dropWhile (fun s => !s.isHook) } := by
  induction steps generalizing sorted with
  | nil => simp [sortLoop]
  | cons x rest ih =>
    show (sortLoop (Group.Steps.advance x) (sorted.appendTo (Group.Steps.advance x) x) rest).2 = _
    cases hh : x.isHook
    · have hx : Group.Steps.advance x = .Steps := by
        simp [Group.advance, (isHook_eq_false x).mp hh]
      rw [hx, ih]
      simp [SortedSteps.appendTo, List.takeWhile_cons, List.dropWhile_cons, hh]
    · have hx : Group.Steps.advance x = .AfterHook := by
        simp [Group.advance, (isHook_eq_true x).mp hh]
      rw [hx, sortLoop_AfterHook]
      simp [SortedSteps.appendTo, List.takeWhile_cons, List.dropWhile_cons, hh]

theorem sortLoop_Background (sorted : SortedSteps) (steps : List TestStep) :
    (sortLoop .Background sorted steps).2
      = { sorted with
          Background := sorted.Background ++ steps.takeWhile (fun s => s.IsBackgroundStep)
          Steps := sorted.Steps
            ++ (steps.dropWhile (fun s => s.IsBackgroundStep)).takeWhile (fun s => !s.isHook)
          AfterHook := sorted.AfterHook
            ++ (steps.dropWhile (fun s => s.IsBackgroundStep)).dropWhile (fun s => !s.isHook) } := by
  induction steps generalizing sorted with
  | nil => simp [sortLoop]
  | cons x rest ih =>
    cases hb : x.IsBackgroundStep
    · have hsame : sortLoop .Background sorted (x :: rest) = sortLoop .Steps sorted (x :: rest) := by
        show sortLoop (Group.Background.advance x) _ rest = sortLoop (Group.Steps.advance x) _ rest
        have : Group.Background.advance x = Group.Steps.advance x := by
          simp [Group.advance, hb]
        rw [this]
      rw [hsame, sortLoop_Steps]
      simp [List.takeWhile_cons, List.dropWhile_cons, hb]
    · show (sortLoop (Group.Background.advance x) (sorted.appendTo (Group.Background.advance x) x) rest).2 = _
      have hx : Group.Background.advance x = .Background := by
        simp [Group.advance, hb]
      rw [hx, ih]
      simp [SortedSteps.appendTo, List.takeWhile_cons, List.dropWhile_cons, hb]

theorem sortLoop_BeforeHook (sorted : SortedSteps) (steps : List TestStep) :
    (sortLoop .BeforeHook sorted steps).2
      = { BeforeHook := sorted.BeforeHook ++ (referenceSplit steps).BeforeHook
          Background := sorted.Background ++ (referenceSplit steps).Background
          Steps := sorted.Steps ++ (referenceSplit steps).Steps
          AfterHook := sorted.AfterHook ++ (referenceSplit steps).AfterHook } := by
  induction steps generalizing sorted with
  | nil => simp [sortLoop, referenceSplit]
  | cons x rest ih =>
    cases hh : x.isHook
    · have hsame : sortLoop .BeforeHook sorted (x :: rest)
          = sortLoop .Background sorted (x :: rest) := by
        show sortLoop (Group.BeforeHook.advance x) _ rest
          = sortLoop (Group.Background.advance x) _ rest
        have : Group.BeforeHook.advance x = Group.Background.advance x := by
          simp [Group.advance, (isHook_eq_false x).mp hh]
        rw [this]
      rw [hsame, sortLoop_Background]
      simp [referenceSplit, List.takeWhile_cons, List.dropWhile_cons, hh]
    · show (sortLoop (Group.BeforeHook.advance x) (sorted.appendTo (Group.BeforeHook.advance x) x) rest).2 = _
      have hx : Group.BeforeHook.advance x = .BeforeHook := by
        simp [Group.advance, (isHook_eq_true x).mp hh]
      rw [hx, ih]
      simp [SortedSteps.appendTo, referenceSplit, List.takeWhile_cons, List.dropWhile_cons, hh]

/-- C18: for every step list `SortedSteps` returns the reference split (hooks
prefix, then Background-owned prefix of the remainder, then non-hook prefix of
what remains, then the rest); when the first step that is not a hook is not
Background-owned the Background group is empty, and a list of hooks only goes
entirely to BeforeHook. -/
theorem SortedSteps_refines_split (tc : TestCase) :
    tc.SortedSteps = referenceSplit tc.Steps
      ∧ (∀ (hooks rest : List TestStep) (x : TestStep),
          tc.Steps = hooks ++ x :: rest → (∀ h ∈ hooks, h.Hook ≠ none) → x.Hook = none →
            x.IsBackgroundStep = false → tc.SortedSteps.Background = [])
      ∧ ((∀ x ∈ tc.Steps, x.Hook ≠ none) →
          tc.SortedSteps
            = { BeforeHook := tc.Steps, Background := [], Steps := [], AfterHook := [] }) := by
  have hmain : tc.SortedSteps = referenceSplit tc.Steps := by
    unfold TestCase.SortedSteps
    rw [sortLoop_BeforeHook]
    simp
  refine ⟨hmain, ?_, ?_⟩
  · intro hooks rest x hsteps hhooks hx hbg
    rw [hmain, hsteps]
    have h1 : ∀ h ∈ hooks, TestStep.isHook h = true := fun h hh =>
      (isHook_eq_true h).mpr (hhooks h hh)
    have h2 : (hooks ++ x :: rest).dropWhile TestStep.isHook = x :: rest := by
      rw [List.dropWhile_append_of_pos h1]
      simp [List.dropWhile_cons, (isHook_eq_false x).mpr hx]
    simp [referenceSplit, h2, List.takeWhile_cons, hbg]
  · intro hall
    rw [hmain]
    have h1 : ∀ h ∈ tc.Steps, TestStep.isHook h = true := fun h hh =>
      (isHook_eq_true h).mpr (hall h hh)
    have ht : tc.Steps.takeWhile TestStep.isHook = tc.Steps := List.takeWhile_eq_self_iff.mpr h1
    have hd : tc.Steps.dropWhile TestStep.isHook = [] := List.dropWhile_eq_nil_iff.mpr h1
    simp [referenceSplit, ht, hd]

theorem sample_mixed_split :
    ({ sampleTestCase with Steps := mixedSteps } : TestCase).SortedSteps
      = { BeforeHook := [sampleHookStep]
          Background := [sampleBackgroundStep, { sampleHookStep with IsBackgroundStep := true }]
          Steps := [sampleScenarioStep]
          AfterHook := [sampleHookStep, sampleScenarioStep] } := by
  decide

theorem sortLoop_append (g : Group) (sorted : SortedSteps) (xs ys : List TestStep) :
    sortLoop g sorted (xs ++ ys)
      = sortLoop (sortLoop g sorted xs).1 (sortLoop g sorted xs).2 ys := by
  induction xs generalizing g sorted with
  | nil => simp [sortLoop]
  | cons x xs ih =>
    show sortLoop (g.advance x) (sorted.appendTo (g.advance x) x) (xs ++ ys) = _
    rw [ih]
    rfl

theorem sortLoop_cursor_rank (g : Group) (sorted : SortedSteps) (xs : List TestStep) :
    g.rank ≤ (sortLoop g sorted xs).1.rank := by
  induction xs generalizing g sorted with
  | nil => simp [sortLoop]
  | cons x xs ih =>
    show g.rank ≤ (sortLoop (g.advance x) (sorted.appendTo (g.advance x) x) xs).1.rank
    exact Nat.le_trans (advance_rank_le g x) (ih _ _)

theorem sortLoop_cursor_left (g : Group) (sorted : SortedSteps) (xs : List TestStep)
    (h : ∃ x ∈ xs, x.Hook = none) : 1 ≤ (sortLoop g sorted xs).1.rank := by
  induction xs generalizing g sorted with
  | nil => simp at h
  | cons x xs ih =>
    show 1 ≤ (sortLoop (g.advance x) (sorted.appendTo (g.advance x) x) xs).1.rank
    obtain ⟨y, hy, hnone⟩ := h
    rcases List.mem_cons.mp hy with rfl | hy
    · have h1 : 1 ≤ (g.advance y).rank := by
        cases g <;> cases hb : y.IsBackgroundStep <;> simp [Group.advance, Group.rank, hnone, hb]
      exact Nat.le_trans h1 (sortLoop_cursor_rank _ _ _)
    · exact ih _ _ ⟨y, hy, hnone⟩

theorem advance_hook (g : Group) (h : TestStep) (hg : 1 ≤ g.rank) (hh : h.Hook ≠ none)
    (hb : h.IsBackgroundStep = false) : g.advance h = .AfterHook := by
  cases g
  · simp [Group.rank] at hg
  · simp [Group.advance, hh, hb]
  · simp [Group.advance, hh]
  · simp [Group.advance]

/-- C19: in a step list whose hooks are not Background-owned, a hook that comes
after at least one step that is not a hook is placed in AfterHook together
with every step after it: AfterHook ends with the hook and all that follows,
and the part of the list before the hook is the four groups without that
ending. -/
theorem hook_after_step_is_AfterHook (tc : TestCase) (before after : List TestStep)
    (h : TestStep)
    (hsteps : tc.Steps = before ++ h :: after)
    (hown : ∀ x ∈ tc.Steps, x.Hook ≠ none → x.IsBackgroundStep = false)
    (hh : h.Hook ≠ none)
    (hbefore : ∃ x ∈ before, x.Hook = none) :
    ∃ early : List TestStep,
      tc.SortedSteps.AfterHook = early ++ h :: after
        ∧ tc.SortedSteps.BeforeHook ++ tc.SortedSteps.Background ++ tc.SortedSteps.Steps ++ early
            = before := by
  have hb : h.IsBackgroundStep = false :=
    hown h (by rw [hsteps]; simp) hh
  have hcur := sortLoop_cursor_left .BeforeHook
    { BeforeHook := [], Background := [], Steps := [], AfterHook := [] } before hbefore
  have hcat := sortLoop_concat .BeforeHook
    { BeforeHook := [], Background := [], Steps := [], AfterHook := [] } before
  refine ⟨(sortLoop .BeforeHook
    { BeforeHook := [], Background := [], Steps := [], AfterHook := [] } before).2.AfterHook, ?_, ?_⟩
  · unfold TestCase.SortedSteps
    rw [hsteps, sortLoop_append]
    show (sortLoop (Group.advance _ h) (SortedSteps.appendTo _ (Group.advance _ h) h) after).2.AfterHook = _
    rw [advance_hook _ h hcur hh hb, sortLoop_AfterHook]
    simp [SortedSteps.appendTo]
  · unfold TestCase.SortedSteps
    rw [hsteps, sortLoop_append]
    show (sortLoop (Group.advance _ h) (SortedSteps.appendTo _ (Group.advance _ h) h) after).2.BeforeHook
      ++ (sortLoop (Group.advance _ h) (SortedSteps.appendTo _ (Group.advance _ h) h) after).2.Background
      ++ (sortLoop (Group.advance _ h) (SortedSteps.appendTo _ (Group.advance _ h) h) after).2.Steps
      ++ _ = _
    rw [advance_hook _ h hcur hh hb, sortLoop_AfterHook]
    simpa [SortedSteps.appendTo] using hcat


theorem hook_after_step_is_AfterHook_witness :
    ∃ early : List TestStep,
      ({ sampleTestCase with Steps := [sampleHookStep, sampleScenarioStep, sampleHookStep,
          sampleScenarioStep] } : TestCase).SortedSteps.AfterHook
        = early ++ sampleHookStep :: [sampleScenarioStep]
      ∧ ({ sampleTestCase with Steps := [sampleHookStep, sampleScenarioStep, sampleHookStep,
          sampleScenarioStep] } : TestCase).SortedSteps.BeforeHook
        ++ ({ sampleTestCase with Steps := [sampleHookStep, sampleScenarioStep, sampleHookStep,
          sampleScenarioStep] } : TestCase).SortedSteps.Background
        ++ ({ sampleTestCase with Steps := [sampleHookStep, sampleScenarioStep, sampleHookStep,
          sampleScenarioStep] } : TestCase).SortedSteps.Steps ++ early
        = [sampleHookStep, sampleScenarioStep] :=
  hook_after_step_is_AfterHook
    { sampleTestCase with Steps := [sampleHookStep, sampleScenarioStep, sampleHookStep,
        sampleScenarioStep] }
    [sampleHookStep, sampleScenarioStep] [sampleScenarioStep] sampleHookStep rfl
    (by decide) (by decide) ⟨sampleScenarioStep, by decide, by decide⟩

theorem resolveTags_eq_none (lookup : MessageLookup) (tags : List PickleTag) :
    resolveTags lookup tags = none ↔ ∃ t ∈ tags, lookup.LookupTag t.SourceId = none := by
  induction tags with
  | nil => simp [resolveTags]
  | cons t rest ih =>
    cases h : lookup.LookupTag t.SourceId with
    | none => simp [resolveTags, h]
    | some sourceTag =>
      cases hr : resolveTags lookup rest with
      | none => simpa [resolveTags, h, hr] using ih.mp hr
      | some resolved =>
        have : ¬ ∃ t ∈ rest, lookup.LookupTag t.SourceId = none := by
          intro hex
          have := ih.mpr hex
          rw [hr] at this
          cases this
        simpa [resolveTags, h, hr] using this

theorem resolveTags_eq_some (lookup : MessageLookup) (tags : List PickleTag) (resolved : List Tag)
    (h : resolveTags lookup tags = some resolved) :
    List.Forall₂ (fun (t : PickleTag) (r : Tag) => lookup.LookupTag t.SourceId = some r)
      tags resolved := by
  induction tags generalizing resolved with
  | nil =>
    simp [resolveTags] at h
    subst h
    exact List.Forall₂.nil
  | cons t rest ih =>
    cases ht : lookup.LookupTag t.SourceId with
    | none => simp [resolveTags, ht] at h
    | some sourceTag =>
      cases hr : resolveTags lookup rest with
      | none => simp [resolveTags, ht, hr] at h
      | some res =>
        simp [resolveTags, ht, hr] at h
        subst h
        exact List.Forall₂.cons ht (ih res hr)

/-- The behaviour of `ProcessTestCaseStarted` on a lookup in which the Document
of the Pickle's URI, when it resolves, has a feature: the call returns; it
returns nil exactly when the test case, its Pickle, a source id of the Pickle,
one of the Pickle's tags, the Scenario of the first source id or the Document
is missing; and a TestCase it returns holds the feature name of the Document,
the Scenario, the Pickle, the test case, the resolved tags in the order of the
Pickle's tags and no step. -/
theorem ProcessTestCaseStarted_with_feature (tcs : TestCaseStarted) (lookup : MessageLookup)
    (hfeat : ∀ (tc : MsgTestCase) (p : Pickle) (doc : GherkinDocument),
      lookup.LookupTestCase tcs.TestCaseId = some tc → lookup.LookupPickle tc.PickleId = some p →
        lookup.LookupGherkinDocument p.Uri = some doc → doc.Feature ≠ none) :
    (∃ r, ProcessTestCaseStarted tcs lookup = .ok r)
    ∧ (ProcessTestCaseStarted tcs lookup = .ok none ↔
        (lookup.LookupTestCase tcs.TestCaseId = none
          ∨ ∃ tc, lookup.LookupTestCase tcs.TestCaseId = some tc
              ∧ (lookup.LookupPickle tc.PickleId = none
                  ∨ ∃ p, lookup.LookupPickle tc.PickleId = some p
                      ∧ (p.SourceIds = []
                          ∨ (∃ t ∈ p.Tags, lookup.LookupTag t.SourceId = none)
                          ∨ (∃ id0, p.SourceIds.head? = some id0
                                ∧ lookup.LookupScenario id0 = none)
                          ∨ lookup.LookupGherkinDocument p.Uri = none))))
    ∧ (∀ t, ProcessTestCaseStarted tcs lookup = .ok (some t) →
        ∃ doc f id0 tc p sc tags,
          t.TestCase_ = some tc ∧ t.Pickle = some p ∧ t.Scenario = some sc
          ∧ t.Tags = tags.map some
          ∧ lookup.LookupTestCase tcs.TestCaseId = some tc
          ∧ lookup.LookupPickle tc.PickleId = some p
          ∧ p.SourceIds.head? = some id0
          ∧ lookup.LookupScenario id0 = some sc
          ∧ lookup.LookupGherkinDocument p.Uri = some doc
          ∧ doc.Feature = some f ∧ t.FeatureName = f.Name
          ∧ List.Forall₂ (fun (pt : PickleTag) (r : Tag) =>
              lookup.LookupTag pt.SourceId = some r) p.Tags tags
          ∧ t.Steps = []) := by
  unfold ProcessTestCaseStarted
  cases htc : lookup.LookupTestCase tcs.TestCaseId with
  | none => simp
  | some tc =>
    cases hp : lookup.LookupPickle tc.PickleId with
    | none => simp [hp]
    | some p =>
      cases hs : p.SourceIds with
      | nil => simp [hp, hs]
      | cons id0 ids =>
        cases htags : resolveTags lookup p.Tags with
        | none =>
          have := (resolveTags_eq_none lookup p.Tags).mp htags
          simp [hp, hs, htags, this]
        | some tags =>
          have hno : ¬ ∃ t ∈ p.Tags, lookup.LookupTag t.SourceId = none := by
            intro hex
            have := (resolveTags_eq_none lookup p.Tags).mpr hex
            rw [htags] at this
            cases this
          have hall := resolveTags_eq_some lookup p.Tags tags htags
          cases hsc : lookup.LookupScenario id0 with
          | none => simp [hp, hs, htags, index0, Bind.bind, Except.bind, hsc]
          | some sc =>
            cases hdoc : lookup.LookupGherkinDocument p.Uri with
            | none => simp [hp, hs, htags, index0, Bind.bind, Except.bind, hsc, hdoc]
            | some doc =>
              cases hf : doc.Feature with
              | none => exact absurd hf (hfeat tc p doc htc hp hdoc)
              | some f =>
                refine ⟨?_, ?_, ?_⟩
                · simp [hp, hs, htags, index0, Bind.bind, Except.bind, hsc, hdoc, deref, hf]
                · simp [hp, hs, htags, index0, Bind.bind, Except.bind, hsc, hdoc, deref, hf, hno]
                · intro t ht
                  simp [hp, hs, htags, index0, Bind.bind, Except.bind, hsc, hdoc, deref, hf] at ht
                  subst ht
                  exact ⟨doc, f, id0, tc, p, sc, tags, rfl, rfl, rfl, rfl, rfl, hp, by simp [hs],
                    hsc, hdoc, hf, rfl, hall, rfl⟩

theorem sample_started_test_case :
    ProcessTestCaseStarted sampleStarted
        (lookupOf [.gherkinDocument sampleDocument, .pickle samplePickle,
          .testCase sampleMsgTestCase])
      = .ok (some
          { FeatureName := "My Feature", Scenario := some sampleScenario
            Pickle := some samplePickle, TestCase_ := some sampleMsgTestCase, Steps := []
            Tags := [some { Location := some ⟨4, 3⟩, Name := "@smoke", Id := "tag-1" }] }) := by
  rfl

/-- C16: on the identifier index of `strayStream`, where the test case, its
Pickle, the Pickle's tag, the Scenario of its first source id and the Document
of its URI all resolve but that Document has no feature, the call of
`ProcessTestCaseStarted` does not return: it ends in a run-time panic. -/
theorem ProcessTestCaseStarted_panics_without_feature :
    ProcessTestCaseStarted sampleStarted (lookupOf strayStream) = .error .panic
      ∧ (lookupOf strayStream).LookupTestCase sampleStarted.TestCaseId = some sampleMsgTestCase
      ∧ (lookupOf strayStream).LookupPickle "pickle-1"
          = some { samplePickle with Uri := "empty.feature" }
      ∧ (lookupOf strayStream).LookupScenario "scenario-1" = some sampleScenario
      ∧ (lookupOf strayStream).LookupGherkinDocument "empty.feature" = some emptyDocument :=
  ⟨rfl, rfl, rfl, rfl, rfl⟩

/-! ## Properties: the start and the end of a run -/

/-- The first statements of `ProcessMessages` leave the same formatter whatever
the receiver held at the call. -/
theorem initialise_eq_reset (self : Formatter) : self.initialise = Formatter.reset := by
  cases self
  rfl

/-- C14: for every reader and every two states of the receiver at the call
(a fresh formatter, one left by a run over another stream), `ProcessMessages`
writes the same trees and ends the same way, since its first statements
overwrite the whole state; and the tree written by a run that returns is the
tree of the records read, processed from the fresh state. -/
theorem ProcessMessages_state_independent (self1 self2 : Formatter)
    (reader : List ReadResult) :
    Formatter.ProcessMessages self1 reader = Formatter.ProcessMessages self2 reader
      ∧ (Formatter.ProcessMessages self1 reader).stdout
          = (Formatter.ProcessMessages self2 reader).stdout
      ∧ ∀ other : List Envelope,
          Formatter.ProcessMessages (finalOf other) reader
            = Formatter.ProcessMessages Formatter.reset reader := by
  have h : ∀ a b : Formatter,
      Formatter.ProcessMessages a reader = Formatter.ProcessMessages b reader := by
    intro a b
    unfold Formatter.ProcessMessages
    rw [initialise_eq_reset a, initialise_eq_reset b]
  exact ⟨h self1 self2, by rw [h self1 self2], fun other => h _ _⟩

theorem sample_rerun :
    (Formatter.ProcessMessages (finalOf twoFeatureStream) (sampleStream.map .msg)).stdout
      = [(finalOf sampleStream).outputTree] := by
  rfl

theorem readLoop_fail (self : Formatter) (pre : List Envelope) (e : String)
    (rest : List ReadResult) (G : Formatter) (hpre : self.readLoop (pre.map .msg) = .ok G) :
    self.readLoop (pre.map .msg ++ .fail e :: rest) = .error (.err e) := by
  induction pre generalizing self with
  | nil => simp [Formatter.readLoop]
  | cons x pre ih =>
    simp only [List.map_cons, Formatter.readLoop, bind_eq_ok] at hpre
    obtain ⟨s, hs, hrest⟩ := hpre
    simp only [List.map_cons, List.cons_append, Formatter.readLoop, hs]
    exact ih s hrest

theorem readLoop_fail_mem (self : Formatter) (reader : List ReadResult) (e : String)
    (h : ReadResult.fail e ∈ reader) : ∃ f, self.readLoop reader = .error f := by
  induction reader generalizing self with
  | nil => simp at h
  | cons r reader ih =>
    cases r with
    | fail e1 => exact ⟨.err e1, rfl⟩
    | msg x =>
      have hmem : ReadResult.fail e ∈ reader := by
        rcases List.mem_cons.mp h with h1 | h1
        · cases h1
        · exact h1
      simp only [Formatter.readLoop]
      cases hs : self.processEnvelope x with
      | error f => exact ⟨f, rfl⟩
      | ok s => exact ih s hmem

/-- C13: after records that were read and processed, (a) if the reader is at
its end, the run returns and has written the tree exactly once; (b) if the
reader signals an error instead, `ProcessMessages` returns that error and has
written nothing. And in every run in which the reader holds an error, whatever
comes before it, nothing is written and the run does not return normally. -/
theorem reader_error_or_single_report (self0 G : Formatter) (pre : List Envelope)
    (hpre : (Formatter.ProcessMessages self0 (pre.map ReadResult.msg)).result = .ok G) :
    (Formatter.ProcessMessages self0 (pre.map ReadResult.msg)).stdout = [G.outputTree]
      ∧ (∀ (e : String) (rest : List ReadResult),
          Formatter.ProcessMessages self0 (pre.map ReadResult.msg ++ ReadResult.fail e :: rest)
            = { stdout := [], result := .error (.err e) })
      ∧ (∀ (self1 : Formatter) (reader : List ReadResult) (e : String),
          ReadResult.fail e ∈ reader →
            (Formatter.ProcessMessages self1 reader).stdout = []
              ∧ ∃ f, (Formatter.ProcessMessages self1 reader).result = .error f) := by
  have hG : Formatter.reset.readLoop (pre.map .msg) = .ok G := by
    rw [ProcessMessages_result] at hpre
    exact hpre
  refine ⟨?_, ?_, ?_⟩
  · unfold Formatter.ProcessMessages
    rw [initialise_eq_reset, hG]
  · intro e rest
    unfold Formatter.ProcessMessages
    rw [initialise_eq_reset, readLoop_fail _ pre e rest G hG]
  · intro self1 reader e hmem
    obtain ⟨f, hf⟩ := readLoop_fail_mem Formatter.reset reader e hmem
    unfold Formatter.ProcessMessages
    rw [initialise_eq_reset, hf]
    exact ⟨rfl, f, rfl⟩

theorem reader_error_or_single_report_witness :
    (Formatter.ProcessMessages Formatter.reset (sampleStream.map ReadResult.msg)).stdout
        = [(finalOf sampleStream).outputTree]
      ∧ (∀ (e : String) (rest : List ReadResult),
          Formatter.ProcessMessages Formatter.reset
              (sampleStream.map ReadResult.msg ++ ReadResult.fail e :: rest)
            = { stdout := [], result := .error (.err e) })
      ∧ (∀ (self1 : Formatter) (reader : List ReadResult) (e : String),
          ReadResult.fail e ∈ reader →
            (Formatter.ProcessMessages self1 reader).stdout = []
              ∧ ∃ f, (Formatter.ProcessMessages self1 reader).result = .error f) :=
  reader_error_or_single_report Formatter.reset (finalOf sampleStream) sampleStream
    (finalOf_run Formatter.reset sampleStream rfl)

/-! ## Properties: the frame of a Test-step-finished record -/

theorem attachResult_withoutResult (tr : TestResult) (defs : Option jsonStepMatch)
    (js : jsonStep) : (attachResult tr defs js).withoutResult = js.withoutResult := by
  unfold attachResult
  split <;> rfl

theorem updateAt_withoutResult (steps : List jsonStep) (ptr j : Nat) (tr : TestResult)
    (defs : Option jsonStepMatch) :
    ((updateAt steps ptr (attachResult tr defs))[j]?).map jsonStep.withoutResult
      = (steps[j]?).map jsonStep.withoutResult := by
  rw [updateAt_getElem?]
  by_cases hj : j = ptr
  · rw [if_pos hj]
    cases steps[j]? with
    | none => rfl
    | some js => simp [attachResult_withoutResult]
  · rw [if_neg hj]

/-- C17: when a Test-step-finished record is processed, it leaves the list of
features, the feature table, the step table, the row-index table and the index
as they were, the store of steps with the same length and every step but the
one registered under the resolved Pickle Step id unchanged; that step keeps
its keyword, line, name, doc string and rows, so the output tree without
Results and match locations is the same before and after. -/
theorem finished_frame (self0 : Formatter) (es : List Envelope) (F F' : Formatter)
    (m : TestStepFinished)
    (hrun : (Formatter.ProcessMessages self0 (es.map ReadResult.msg)).result = .ok F)
    (hstep : F.processEnvelope (Envelope.testStepFinished m) = .ok F') :
    ∃ (ptr : Nat) (js0 js : jsonStep),
      F.targetOf m = some ptr
      ∧ F'.jsonFeatures = F.jsonFeatures
      ∧ F'.jsonFeaturesByURI = F.jsonFeaturesByURI
      ∧ F'.jsonStepsByPickleStepId = F.jsonStepsByPickleStepId
      ∧ F'.exampleRowIndexById = F.exampleRowIndexById
      ∧ F'.lookup = F.lookup
      ∧ F'.jsonSteps.length = F.jsonSteps.length
      ∧ (∀ j, j ≠ ptr → F'.jsonSteps[j]? = F.jsonSteps[j]?)
      ∧ F.jsonSteps[ptr]? = some js0 ∧ F'.jsonSteps[ptr]? = some js
      ∧ js = { js0 with Result := js.Result, Match := js.Match }
      ∧ treeWithoutResults F'.outputTree = treeWithoutResults F.outputTree := by
  rw [ProcessMessages_result] at hrun
  obtain ⟨testStep, pickleStep, ptr, tr, newMatch, h1, h2, h3, h4, _, hF'⟩ :=
    processEnvelope_tsf hstep
  have htgt : F.targetOf m = some ptr := by
    simp only [Formatter.targetOf, h1, h2]
    exact h3
  have hlt := targetOf_lt hrun htgt
  have hjs0 : F.jsonSteps[ptr]? = some F.jsonSteps[ptr] := List.getElem?_eq_getElem hlt
  subst hF'
  refine ⟨ptr, F.jsonSteps[ptr], attachResult tr newMatch F.jsonSteps[ptr],
    htgt, rfl, rfl, rfl, rfl, rfl, updateAt_length _ _ _, ?_, hjs0, ?_, ?_, ?_⟩
  · intro j hj
    show (updateAt F.jsonSteps ptr _)[j]? = _
    rw [updateAt_getElem?, if_neg hj]
  · show (updateAt F.jsonSteps ptr _)[ptr]? = _
    rw [updateAt_getElem?, if_pos rfl, hjs0]
    rfl
  · unfold attachResult
    split <;> rfl
  · unfold treeWithoutResults Formatter.outputTree
    simp only [List.map_map]
    apply List.map_congr_left
    intro f _
    simp only [Function.comp, List.map_map, FeatureNode.mk.injEq, true_and]
    apply List.map_congr_left
    intro e _
    simp only [Function.comp, List.map_map, ElementNode.mk.injEq, true_and]
    apply List.map_congr_left
    intro p _
    exact updateAt_withoutResult _ _ _ _ _

/-- The frame of `sampleFinished` after the records of `sampleBody`. -/
theorem finished_frame_witness :
    ∃ (ptr : Nat) (js0 js : jsonStep),
      (finalOf sampleBody).targetOf sampleFinished = some ptr
      ∧ (finalOf (sampleBody ++ [Envelope.testStepFinished sampleFinished])).jsonFeatures
          = (finalOf sampleBody).jsonFeatures
      ∧ (finalOf (sampleBody ++ [Envelope.testStepFinished sampleFinished])).jsonFeaturesByURI
          = (finalOf sampleBody).jsonFeaturesByURI
      ∧ (finalOf (sampleBody ++ [Envelope.testStepFinished sampleFinished])).jsonStepsByPickleStepId
          = (finalOf sampleBody).jsonStepsByPickleStepId
      ∧ (finalOf (sampleBody ++ [Envelope.testStepFinished sampleFinished])).exampleRowIndexById
          = (finalOf sampleBody).exampleRowIndexById
      ∧ (finalOf (sampleBody ++ [Envelope.testStepFinished sampleFinished])).lookup
          = (finalOf sampleBody).lookup
      ∧ (finalOf (sampleBody ++ [Envelope.testStepFinished sampleFinished])).jsonSteps.length
          = (finalOf sampleBody).jsonSteps.length
      ∧ (∀ j, j ≠ ptr →
          (finalOf (sampleBody ++ [Envelope.testStepFinished sampleFinished])).jsonSteps[j]?
            = (finalOf sampleBody).jsonSteps[j]?)
      ∧ (finalOf sampleBody).jsonSteps[ptr]? = some js0
      ∧ (finalOf (sampleBody ++ [Envelope.testStepFinished sampleFinished])).jsonSteps[ptr]?
          = some js
      ∧ js = { js0 with Result := js.Result, Match := js.Match }
      ∧ treeWithoutResults
            (finalOf (sampleBody ++ [Envelope.testStepFinished sampleFinished])).outputTree
          = treeWithoutResults (finalOf sampleBody).outputTree :=
  finished_frame Formatter.reset sampleBody (finalOf sampleBody)
    (finalOf (sampleBody ++ [Envelope.testStepFinished sampleFinished])) sampleFinished
    (finalOf_run Formatter.reset sampleBody rfl)
    (finalOf_step sampleBody (Envelope.testStepFinished sampleFinished) rfl)

theorem sample_tree_without_results :
    treeWithoutResults (finalOf sampleStream).outputTree
      = treeWithoutResults (finalOf sampleBody).outputTree
    ∧ (finalOf sampleStream).outputTree ≠ (finalOf sampleBody).outputTree := by
  decide

/-! ## Properties: scenario identifiers across features -/

theorem append_sep_inj {α : Type} (c : α) (a b x y : List α) (ha : c ∉ a) (hb : c ∉ b)
    (h : a ++ c :: x = b ++ c :: y) : a = b := by
  induction a generalizing b with
  | nil =>
    cases b with
    | nil => rfl
    | cons b0 b =>
      simp only [List.nil_append, List.cons_append, List.cons.injEq] at h
      exact absurd (h.1 ▸ List.mem_cons_self _ _) hb
  | cons a0 a ih =>
    cases b with
    | nil =>
      simp only [List.nil_append, List.cons_append, List.cons.injEq] at h
      exact absurd (h.1 ▸ List.mem_cons_self _ _) ha
    | cons b0 b =>
      simp only [List.cons_append, List.cons.injEq] at h
      rw [h.1, ih b (fun hm => ha (List.mem_cons_of_mem _ hm))
        (fun hm => hb (List.mem_cons_of_mem _ hm)) h.2]

theorem string_sep_inj (a b x y : String) (ha : ';' ∉ a.data) (hb : ';' ∉ b.data)
    (h : a ++ ";" ++ x = b ++ ";" ++ y) : a = b := by
  have h2 := congrArg String.data h
  simp only [String.data_append, List.append_assoc] at h2
  have h3 : a.data ++ ';' :: x.data = b.data ++ ';' :: y.data := h2
  exact String.ext (append_sep_inj ';' _ _ _ _ ha hb h3)

/-- The identifier of every element of type "scenario" starts with the
identifier of its feature and a semicolon. -/
theorem run_scenario_id_shape (es : List Envelope) (F : Formatter)
    (h : Formatter.reset.readLoop (es.map .msg) = .ok F) :
    ∀ (i : Nat) (f : jsonFeature), F.jsonFeatures[i]? = some f →
      ∀ e ∈ f.Elements, e.Type_ = "scenario" → ∃ rest : String, e.ID = f.ID ++ ";" ++ rest := by
  refine run_induction (fun _ F => ∀ (i : Nat) (f : jsonFeature), F.jsonFeatures[i]? = some f →
      ∀ e ∈ f.Elements, e.Type_ = "scenario" → ∃ rest : String, e.ID = f.ID ++ ";" ++ rest)
    ?_ ?_ es F h
  · intro i f hf
    simp [Formatter.reset] at hf
  · intro es F e F' _ ih hstep i f hf el hel htype
    by_cases hp : ∃ p, e = .pickle p
    · obtain ⟨p, rfl⟩ := hp
      obtain ⟨l', _, hpick⟩ := processEnvelope_pickle hstep
      obtain ⟨self1, jf, fOld, sid, sc, st, bgs, idl, tags, _, _, _, _, hcase, hnew, hother,
        _, _, _, hbgs, hid, _⟩ := processPickle_shape hpick
      by_cases hi : i = jf
      · subst hi
        rw [hnew] at hf
        cases hf
        simp only [List.mem_append, List.mem_singleton] at hel
        rcases hel with (hold | hbg) | hscn
        · rcases hcase with ⟨_, hfold, _, _⟩ | ⟨_, _, ⟨doc, feat, _, _, hfnew⟩, _, _⟩
          · exact ih i fOld hfold el hold htype
          · rw [(newJsonFeature_eq_ok hfnew).1] at hold
            simp at hold
        · rcases backgroundElementsOf_eq_ok hbgs with ⟨_, hnil⟩ | ⟨_, b, _, _, _, hb⟩
          · rw [hnil] at hbg
            simp at hbg
          · rw [hb, List.mem_singleton] at hbg
            rw [hbg] at htype
            have hbad : ("background" : String) = "scenario" := htype
            exact absurd hbad (by decide)
        · rw [hscn]
          obtain ⟨loc, _, hcases⟩ := scenarioIDAndLine_eq_ok hid
          rcases hcases with ⟨_, hidl⟩ | ⟨_, rowId, row, ex, rowLoc, _, _, _, _, hidl⟩
          · exact ⟨Formatter.makeId sc.Name, by rw [hidl]; rfl⟩
          · refine ⟨Formatter.makeId sc.Name ++ ";" ++ Formatter.makeId ex.Name ++ ";"
              ++ toString ((self1.exampleRowIndexById row.Id).getD 0), ?_⟩
            rw [hidl]
            simp [newScenarioElement, String.append_assoc]
      · rw [hother i hi] at hf
        exact ih i f hf el hel htype
    · have hp2 : ∀ p, e ≠ .pickle p := fun p hpe => hp ⟨p, hpe⟩
      rw [(processEnvelope_features_frame hp2 hstep).1] at hf
      exact ih i f hf el hel htype

/-- C15 as stated fails: in the tree of `semicolonStream` the two features have
the different identifiers "a;b" and "a", and their scenario elements have the
same identifier "a;b;c". -/
theorem scenario_ids_collide :
    (finalOf semicolonStream).identifiers = [("a;b", ["a;b;c"]), ("a", ["a;b;c"])]
      ∧ isOk (Formatter.reset.readLoop (semicolonStream.map .msg)) = true
      ∧ (finalOf semicolonStream).featureIdAt 0 = some "a;b"
      ∧ (finalOf semicolonStream).featureIdAt 1 = some "a"
      ∧ "a;b;c" ∈ (finalOf semicolonStream).scenarioIdsAt 0
      ∧ "a;b;c" ∈ (finalOf semicolonStream).scenarioIdsAt 1 := by
  decide

/-- C15, as amended: after a run of `ProcessMessages`, two elements of type
"scenario" that belong to features with different identifiers, neither of
which holds a semicolon, have different identifiers. -/
theorem scenario_ids_differ (self0 : Formatter) (es : List Envelope) (F : Formatter)
    (i1 i2 : Nat) (id1 id2 s1 s2 : String)
    (hrun : (Formatter.ProcessMessages self0 (es.map ReadResult.msg)).result = .ok F)
    (hf1 : F.featureIdAt i1 = some id1) (hf2 : F.featureIdAt i2 = some id2)
    (hne : id1 ≠ id2) (hs1 : ';' ∉ id1.data) (hs2 : ';' ∉ id2.data)
    (he1 : s1 ∈ F.scenarioIdsAt i1) (he2 : s2 ∈ F.scenarioIdsAt i2) : s1 ≠ s2 := by
  rw [ProcessMessages_result] at hrun
  intro heq
  unfold Formatter.featureIdAt at hf1 hf2
  unfold Formatter.scenarioIdsAt at he1 he2
  cases h1 : F.jsonFeatures[i1]? with
  | none => simp [h1] at hf1
  | some f1 =>
    cases h2 : F.jsonFeatures[i2]? with
    | none => simp [h2] at hf2
    | some f2 =>
      simp only [h1, Option.map_some', Option.some.injEq] at hf1
      simp only [h2, Option.map_some', Option.some.injEq] at hf2
      simp only [h1, List.mem_map, List.mem_filter, decide_eq_true_eq] at he1
      simp only [h2, List.mem_map, List.mem_filter, decide_eq_true_eq] at he2
      obtain ⟨e1, ⟨hm1, ht1⟩, hid1⟩ := he1
      obtain ⟨e2, ⟨hm2, ht2⟩, hid2⟩ := he2
      obtain ⟨r1, hr1⟩ := run_scenario_id_shape es F hrun i1 f1 h1 e1 hm1 ht1
      obtain ⟨r2, hr2⟩ := run_scenario_id_shape es F hrun i2 f2 h2 e2 hm2 ht2
      rw [← hid1, ← hid2, hr1, hr2, hf1, hf2] at heq
      exact hne (string_sep_inj _ _ _ _ hs1 hs2 heq)

theorem scenario_ids_differ_witness :
    (finalOf twoFeatureStream).featureIdAt 0 = some "second-feature"
      ∧ (finalOf twoFeatureStream).featureIdAt 1 = some "my-feature"
      ∧ "second-feature;eat-cucumber" ∈ (finalOf twoFeatureStream).scenarioIdsAt 0
      ∧ "my-feature;eat-cucumber" ∈ (finalOf twoFeatureStream).scenarioIdsAt 1
      ∧ "second-feature;eat-cucumber" ≠ "my-feature;eat-cucumber" :=
  ⟨by decide, by decide, by decide, by decide,
    scenario_ids_differ Formatter.reset twoFeatureStream (finalOf twoFeatureStream) 0 1
      "second-feature" "my-feature" "second-feature;eat-cucumber" "my-feature;eat-cucumber"
      (finalOf_run Formatter.reset twoFeatureStream rfl) (by decide) (by decide) (by decide)
      (by decide) (by decide) (by decide) (by decide)⟩

theorem sample_two_feature_ids :
    (finalOf twoFeatureStream).identifiers
      = [("second-feature", ["second-feature;eat-cucumber", "second-feature;eat-cucumber"]),
         ("my-feature", ["my-feature;eat-cucumber"])] := by
  decide

/-! ## Properties: the steps a Pickle record creates -/

theorem mem_pointersWhere (base : Nat) (flags : List Bool) (b : Bool) (ptr : Nat) :
    ptr ∈ pointersWhere base flags b ↔ ∃ k, ptr = base + k ∧ flags[k]? = some b := by
  induction flags generalizing base with
  | nil => simp [pointersWhere]
  | cons f rest ih =>
    simp only [pointersWhere, List.mem_append, ih]
    constructor
    · rintro (h | ⟨k, hk, hf⟩)
      · by_cases hfb : f = b
        · rw [if_pos hfb, List.mem_singleton] at h
          exact ⟨0, by omega, by simp [hfb]⟩
        · rw [if_neg hfb] at h
          simp at h
      · exact ⟨k + 1, by omega, by simpa using hf⟩
    · rintro ⟨k, hk, hf⟩
      cases k with
      | zero =>
        left
        simp only [List.getElem?_cons_zero, Option.some.injEq] at hf
        rw [if_pos hf, List.mem_singleton]
        omega
      | succ k =>
        right
        exact ⟨k, by omega, by simpa using hf⟩

theorem pointersWhere_ge (base : Nat) (flags : List Bool) (b : Bool) :
    ∀ ptr ∈ pointersWhere base flags b, base ≤ ptr := by
  intro ptr h
  obtain ⟨k, hk, _⟩ := (mem_pointersWhere base flags b ptr).mp h
  omega

theorem pointersWhere_sorted (base : Nat) (flags : List Bool) (b : Bool) :
    (pointersWhere base flags b).Pairwise (fun x y => x < y) := by
  induction flags generalizing base with
  | nil => simp [pointersWhere]
  | cons f rest ih =>
    simp only [pointersWhere]
    rw [List.pairwise_append]
    refine ⟨?_, ih (base + 1), ?_⟩
    · split <;> simp
    · intro x hx y hy
      have hle := pointersWhere_ge (base + 1) rest b y hy
      split at hx
      · rw [List.mem_singleton] at hx
        omega
      · simp at hx

theorem registerSteps_other (m : GoMap Nat) (base : Nat) (steps : List PickleStep) (k : String)
    (h : ∀ ps ∈ steps, ps.Id ≠ k) : registerSteps m base steps k = m k := by
  induction steps generalizing m base with
  | nil => rfl
  | cons ps rest ih =>
    simp only [registerSteps]
    rw [ih _ _ (fun q hq => h q (List.mem_cons_of_mem _ hq))]
    exact GoMap.set_other _ _ _ _ (fun hk => h ps (List.mem_cons_self _ _) hk.symm)

/-- The step table after the registrations holds, under the id of a Pickle Step
that no later Pickle Step of the list shares, the pointer of that step. -/
theorem registerSteps_get (m : GoMap Nat) (base : Nat) (steps : List PickleStep) (k : Nat)
    (ps : PickleStep) (hk : steps[k]? = some ps)
    (hlast : ∀ j q, k < j → steps[j]? = some q → q.Id ≠ ps.Id) :
    registerSteps m base steps ps.Id = some (base + k) := by
  induction steps generalizing m base k with
  | nil => simp at hk
  | cons q rest ih =>
    cases k with
    | zero =>
      simp only [List.getElem?_cons_zero, Option.some.injEq] at hk
      subst hk
      simp only [registerSteps]
      rw [registerSteps_other]
      · rw [GoMap.set_same]
        rfl
      · intro r hr
        obtain ⟨j, hj⟩ := List.mem_iff_getElem?.mp hr
        exact hlast (j + 1) r (by omega) (by simpa using hj)
    | succ k =>
      simp only [registerSteps]
      have h2 := ih (m.set q.Id base) (base + 1) k (by simpa using hk)
        (fun j r hj hr => hlast (j + 1) r (by omega) (by simpa using hr))
      rw [h2]
      congr 1
      omega

/-- What the loop over the Pickle Steps leaves: one new step per Pickle Step,
built from its specification Step; the pointers of the steps with a
Background-owned specification Step in one slice, those of the others in the
other; and the step table after the registrations in order. -/
theorem pickleStepsLoop_exact {self : Formatter} {p : Pickle} {st st' : PickleLoop}
    {pss : List PickleStep} (h : self.pickleStepsLoop p st pss = .ok st') :
    (∃ new : List jsonStep, st'.jsonSteps = st.jsonSteps ++ new ∧ new.length = pss.length
      ∧ ∀ (k : Nat) (ps : PickleStep), pss[k]? = some ps →
          ∃ step js, self.specStepOf ps = some step ∧ newJsonStep p ps step = .ok js
            ∧ new[k]? = some js)
    ∧ st'.backgroundJsonSteps
        = st.backgroundJsonSteps ++ pointersWhere st.jsonSteps.length (pss.map self.stepFlag) true
    ∧ st'.scenarioJsonSteps
        = st.scenarioJsonSteps ++ pointersWhere st.jsonSteps.length (pss.map self.stepFlag) false
    ∧ st'.jsonStepsByPickleStepId
        = registerSteps st.jsonStepsByPickleStepId st.jsonSteps.length pss := by
  induction pss generalizing st with
  | nil =>
    simp only [Formatter.pickleStepsLoop, Except.ok.injEq] at h
    subst h
    exact ⟨⟨[], by simp, rfl, by simp⟩, by simp [pointersWhere], by simp [pointersWhere], rfl⟩
  | cons ps rest ih =>
    obtain ⟨st1, hbody, hrest⟩ := pickleStepsLoop_cons h
    obtain ⟨sid, step, js1, hsid, hstep, hjs1, hsteps, hmap, hkind⟩ := pickleStepBody_eq_ok hbody
    obtain ⟨⟨new, hnew, hlen, hall⟩, hbg, hsc, hreg⟩ := ih hrest
    have hspec : self.specStepOf ps = some step := by
      simp [Formatter.specStepOf, hsid, hstep]
    have hflag : self.stepFlag ps = self.isBackgroundStep step.Id := by
      simp [Formatter.stepFlag, hspec]
    have hl1 : st1.jsonSteps.length = st.jsonSteps.length + 1 := by
      rw [hsteps]
      simp
    refine ⟨⟨js1 :: new, ?_, by simp [hlen], ?_⟩, ?_, ?_, ?_⟩
    · rw [hnew, hsteps]
      simp
    · intro k q hq
      cases k with
      | zero =>
        simp only [List.getElem?_cons_zero, Option.some.injEq] at hq
        subst hq
        exact ⟨step, js1, hspec, hjs1, by simp⟩
      | succ k =>
        simpa using hall k q (by simpa using hq)
    · rw [hbg, hl1]
      simp only [List.map_cons, pointersWhere, hflag]
      rcases hkind with ⟨hb, h1, _, _⟩ | ⟨hb, h1, _, _⟩
      · rw [h1, hb]
        simp
      · rw [h1, hb]
        simp
    · rw [hsc, hl1]
      simp only [List.map_cons, pointersWhere, hflag]
      rcases hkind with ⟨hb, _, h1, _⟩ | ⟨hb, _, h1, _⟩
      · rw [h1, hb]
        simp
      · rw [h1, hb]
        simp
    · rw [hreg, hl1, hmap]
      rfl

theorem specStepOf_congr {a b : Formatter} (h : a.lookup = b.lookup) :
    a.specStepOf = b.specStepOf := by
  funext ps
  simp only [Formatter.specStepOf, h]

theorem stepFlag_congr {a b : Formatter} (h : a.lookup = b.lookup) :
    a.stepFlag = b.stepFlag := by
  funext ps
  simp only [Formatter.stepFlag, specStepOf_congr h, Formatter.isBackgroundStep, h]

/-- C20: when a Pickle record is processed (`processEnvelope_pickle_total`: it
is whenever its references resolve and the records it resolves to carry their
`Location`), it adds to the store one output step per Pickle Step, in the order
of the Pickle Steps, built from the specification Step of the Pickle Step (its
keyword and line) and the text of the Pickle Step (its name). The scenario
element it appends holds the pointers of the steps whose specification Step no
Background owns, the background element (appended exactly when there is such a
step) those of the steps whose specification Step a Background owns, each list
in the order of the Pickle Steps. The step table is the earlier one after the
registrations of the Pickle Steps in order, so the id of a Pickle Step that no
later step of the Pickle shares gives the pointer of its own output step. -/
theorem pickle_creates_steps (F F' : Formatter) (p : Pickle)
    (hstep : F.processEnvelope (Envelope.pickle p) = .ok F') :
    ∃ (new : List jsonStep) (bgs : List jsonFeatureElement) (scn : jsonFeatureElement),
      F'.jsonSteps = F.jsonSteps ++ new ∧ new.length = p.Steps.length
      ∧ (∀ (k : Nat) (ps : PickleStep), p.Steps[k]? = some ps →
          ∃ (step : Step) (location : Location) (js : jsonStep),
            F'.specStepOf ps = some step
            ∧ F'.jsonSteps[F.jsonSteps.length + k]? = some js
            ∧ newJsonStep p ps step = .ok js
            ∧ step.Location = some location
            ∧ js.Keyword = step.Keyword ∧ js.Line = location.Line ∧ js.Name = ps.Text)
      ∧ F'.elementsOf p.Uri = F.elementsOf p.Uri ++ bgs ++ [scn]
      ∧ scn.Type_ = "scenario"
      ∧ scn.Steps = pointersWhere F.jsonSteps.length (p.Steps.map F'.stepFlag) false
      ∧ ((bgs = [] ∧ pointersWhere F.jsonSteps.length (p.Steps.map F'.stepFlag) true = [])
          ∨ (∃ bg, bgs = [bg] ∧ bg.Type_ = "background"
              ∧ bg.Steps = pointersWhere F.jsonSteps.length (p.Steps.map F'.stepFlag) true))
      ∧ (∀ (b : Bool) (ptr : Nat),
          ptr ∈ pointersWhere F.jsonSteps.length (p.Steps.map F'.stepFlag) b
            ↔ ∃ (k : Nat) (ps : PickleStep), ptr = F.jsonSteps.length + k
                ∧ p.Steps[k]? = some ps ∧ F'.stepFlag ps = b)
      ∧ (∀ b : Bool,
          (pointersWhere F.jsonSteps.length (p.Steps.map F'.stepFlag) b).Pairwise
            (fun x y => x < y))
      ∧ F'.jsonStepsByPickleStepId
          = registerSteps F.jsonStepsByPickleStepId F.jsonSteps.length p.Steps
      ∧ (∀ (k : Nat) (ps : PickleStep), p.Steps[k]? = some ps →
          (∀ (j : Nat) (q : PickleStep), k < j → p.Steps[j]? = some q → q.Id ≠ ps.Id) →
            F'.jsonStepsByPickleStepId ps.Id = some (F.jsonSteps.length + k)) := by
  obtain ⟨l', hl, h2⟩ := processEnvelope_pickle hstep
  obtain ⟨self1, jf, fOld, sid, sc, st, bgs, idl, tags, hs1, hs2, hs3, _, hcase, hnew, _, _, _,
    hloop, hbgs, _, _, hst, hmap, hlk, _⟩ := processPickle_shape h2
  have hlk' : F'.lookup = self1.lookup := by rw [hlk, hs1]
  have hs2' : self1.jsonSteps = F.jsonSteps := hs2
  have hs3' : self1.jsonStepsByPickleStepId = F.jsonStepsByPickleStepId := hs3
  have hspec : F'.specStepOf = self1.specStepOf := specStepOf_congr hlk'
  have hflag : F'.stepFlag = self1.stepFlag := stepFlag_congr hlk'
  obtain ⟨⟨new, hn1, hn2, hn3⟩, hbg, hsc, hreg⟩ := pickleStepsLoop_exact hloop
  simp only [Formatter.pickleLoopStart, hs2', hs3', List.nil_append] at hn1 hbg hsc hreg
  have hsteps : F'.jsonSteps = F.jsonSteps ++ new := by rw [hst, hn1]
  have hregF : F'.jsonStepsByPickleStepId
      = registerSteps F.jsonStepsByPickleStepId F.jsonSteps.length p.Steps := by rw [hmap, hreg]
  refine ⟨new, bgs, newScenarioElement sc idl.1 idl.2 st.scenarioJsonSteps tags,
    hsteps, hn2, ?_, ?_, rfl, ?_, ?_, ?_, ?_, hregF, ?_⟩
  · intro k ps hk
    obtain ⟨step, js, hsp, hjs, hnk⟩ := hn3 k ps hk
    obtain ⟨location, hloc, hkw, hline, hname, _, _⟩ := newJsonStep_eq_ok hjs
    refine ⟨step, location, js, by rw [hspec]; exact hsp, ?_, hjs, hloc, hkw, hline, hname⟩
    rw [hsteps, List.getElem?_append_right (by omega)]
    simpa using hnk
  · rcases hcase with ⟨hby, hold, hby', _⟩ | ⟨hby, hjf, ⟨doc, feat, _, _, hfo⟩, hby', _⟩
    · have hby2 : F.jsonFeaturesByURI p.Uri = some jf := hby
      have hold2 : F.jsonFeatures[jf]? = some fOld := hold
      have hby3 : F'.jsonFeaturesByURI p.Uri = some jf := by rw [hby']; exact hby
      simp only [Formatter.elementsOf, hby2, hold2, hby3, hnew]
    · have hby2 : F.jsonFeaturesByURI p.Uri = none := hby
      have hby3 : F'.jsonFeaturesByURI p.Uri = some jf := by rw [hby', GoMap.set_same]
      simp only [Formatter.elementsOf, hby2, hby3, hnew, (newJsonFeature_eq_ok hfo).1,
        List.nil_append]
  · rw [hflag]
    exact hsc
  · rw [hflag]
    rcases backgroundElementsOf_eq_ok hbgs with ⟨h3, h4⟩ | ⟨_, b, _, _, _, h4⟩
    · left
      exact ⟨h4, by rw [← hbg]; exact h3⟩
    · right
      exact ⟨_, h4, rfl, hbg⟩
  · intro b ptr
    rw [mem_pointersWhere]
    constructor
    · rintro ⟨k, hk, hf⟩
      rw [List.getElem?_map] at hf
      cases hps : p.Steps[k]? with
      | none => simp [hps] at hf
      | some ps =>
        simp only [hps, Option.map_some', Option.some.injEq] at hf
        exact ⟨k, ps, hk, hps, hf⟩
    · rintro ⟨k, ps, hk, hps, hf⟩
      exact ⟨k, hk, by rw [List.getElem?_map, hps]; simp [hf]⟩
  · intro b
    exact pointersWhere_sorted _ _ _
  · intro k ps hk hlast
    rw [hregF]
    exact registerSteps_get _ _ _ k ps hk hlast

/-- The steps that `samplePickle` creates after the records of `sampleHead`. -/
theorem pickle_creates_steps_witness :
    ∃ (new : List jsonStep) (bgs : List jsonFeatureElement) (scn : jsonFeatureElement),
      (finalOf (sampleHead ++ [Envelope.pickle samplePickle])).jsonSteps = (finalOf sampleHead).jsonSteps ++ new ∧ new.length = samplePickle.Steps.length
      ∧ (∀ (k : Nat) (ps : PickleStep), samplePickle.Steps[k]? = some ps →
          ∃ (step : Step) (location : Location) (js : jsonStep),
            (finalOf (sampleHead ++ [Envelope.pickle samplePickle])).specStepOf ps = some step
            ∧ (finalOf (sampleHead ++ [Envelope.pickle samplePickle])).jsonSteps[(finalOf sampleHead).jsonSteps.length + k]? = some js
            ∧ newJsonStep samplePickle ps step = .ok js
            ∧ step.Location = some location
            ∧ js.Keyword = step.Keyword ∧ js.Line = location.Line ∧ js.Name = ps.Text)
      ∧ (finalOf (sampleHead ++ [Envelope.pickle samplePickle])).elementsOf samplePickle.Uri = (finalOf sampleHead).elementsOf samplePickle.Uri ++ bgs ++ [scn]
      ∧ scn.Type_ = "scenario"
      ∧ scn.Steps = pointersWhere (finalOf sampleHead).jsonSteps.length (samplePickle.Steps.map (finalOf (sampleHead ++ [Envelope.pickle samplePickle])).stepFlag) false
      ∧ ((bgs = [] ∧ pointersWhere (finalOf sampleHead).jsonSteps.length (samplePickle.Steps.map (finalOf (sampleHead ++ [Envelope.pickle samplePickle])).stepFlag) true = [])
          ∨ (∃ bg, bgs = [bg] ∧ bg.Type_ = "background"
              ∧ bg.Steps = pointersWhere (finalOf sampleHead).jsonSteps.length (samplePickle.Steps.map (finalOf (sampleHead ++ [Envelope.pickle samplePickle])).stepFlag) true))
      ∧ (∀ (b : Bool) (ptr : Nat),
          ptr ∈ pointersWhere (finalOf sampleHead).jsonSteps.length (samplePickle.Steps.map (finalOf (sampleHead ++ [Envelope.pickle samplePickle])).stepFlag) b
            ↔ ∃ (k : Nat) (ps : PickleStep), ptr = (finalOf sampleHead).jsonSteps.length + k
                ∧ samplePickle.Steps[k]? = some ps ∧ (finalOf (sampleHead ++ [Envelope.pickle samplePickle])).stepFlag ps = b)
      ∧ (∀ b : Bool,
          (pointersWhere (finalOf sampleHead).jsonSteps.length (samplePickle.Steps.map (finalOf (sampleHead ++ [Envelope.pickle samplePickle])).stepFlag) b).Pairwise
            (fun x y => x < y))
      ∧ (finalOf (sampleHead ++ [Envelope.pickle samplePickle])).jsonStepsByPickleStepId
          = registerSteps (finalOf sampleHead).jsonStepsByPickleStepId (finalOf sampleHead).jsonSteps.length samplePickle.Steps
      ∧ (∀ (k : Nat) (ps : PickleStep), samplePickle.Steps[k]? = some ps →
          (∀ (j : Nat) (q : PickleStep), k < j → samplePickle.Steps[j]? = some q → q.Id ≠ ps.Id) →
            (finalOf (sampleHead ++ [Envelope.pickle samplePickle])).jsonStepsByPickleStepId ps.Id = some ((finalOf sampleHead).jsonSteps.length + k)) :=
  pickle_creates_steps (finalOf sampleHead)
    (finalOf (sampleHead ++ [Envelope.pickle samplePickle])) samplePickle
    (finalOf_step sampleHead (Envelope.pickle samplePickle) rfl)

/-- The steps of the two elements on a stream whose Pickle has a scenario step
between two Background steps. -/
theorem sample_interleaved_steps :
    ((finalOf (sampleHead ++ [Envelope.pickle interleavedPickle])).elementsOf "a.feature").map
        (fun e => (e.Type_, e.Steps))
      = [("background", [0, 2]), ("scenario", [1])]
    ∧ ((finalOf (sampleHead ++ [Envelope.pickle interleavedPickle])).jsonSteps.map
        (fun js => (js.Keyword, js.Line, js.Name)))
      = [("Given ", 3, "a kitchen"), ("Given ", 6, "I have 3 cucumbers"),
         ("Given ", 3, "a second kitchen")]
    ∧ ["ps-0", "ps-1", "ps-5"].map
        (finalOf (sampleHead ++ [Envelope.pickle interleavedPickle])).jsonStepsByPickleStepId
      = [some 0, some 1, some 2] := by
  decide

/-! ## Properties: records with a reference that does not resolve -/

/-- A fault in the processing of a record ends the loop with that fault: the
records after it are not read. -/
theorem readLoop_fault (self G : Formatter) (pre : List Envelope) (e : Envelope)
    (rest : List ReadResult) (f : Fault) (hpre : self.readLoop (pre.map .msg) = .ok G)
    (he : G.processEnvelope e = .error f) :
    self.readLoop (pre.map .msg ++ .msg e :: rest) = .error f := by
  induction pre generalizing self with
  | nil =>
    simp only [List.map_nil, Formatter.readLoop, Except.ok.injEq] at hpre
    subst hpre
    simp only [List.map_nil, List.nil_append, Formatter.readLoop, he]
    rfl
  | cons x pre ih =>
    simp only [List.map_cons, Formatter.readLoop, bind_eq_ok] at hpre
    obtain ⟨s, hs, hrest⟩ := hpre
    simp only [List.map_cons, List.cons_append, Formatter.readLoop, hs]
    exact ih s hrest

/-- A Test-step-finished record whose output step does not resolve (unknown
test step, test step without a known Pickle Step, or no output step registered
under the Pickle Step) ends the processing in a panic. -/
theorem finished_unresolved_panics (F : Formatter) (m : TestStepFinished)
    (h : F.targetOf m = none) :
    F.processEnvelope (Envelope.testStepFinished m) = .error .panic := by
  unfold Formatter.targetOf at h
  simp only [Formatter.processEnvelope, MessageLookup.ProcessMessage,
    Formatter.processTestStepFinished]
  cases h1 : F.lookup.LookupTestStepByID m.TestStepId with
  | none => simp [h1, deref, bind, Except.bind]
  | some ts =>
    cases h2 : F.lookup.LookupPickleStepByID ts.PickleStepId with
    | none => simp [h1, h2, deref, bind, Except.bind]
    | some ps =>
      simp only [h1, h2] at h
      simp [h1, h2, h, deref, bind, Except.bind]

/-- A Pickle record with no source id, with a first source id that names no
Scenario, with a URI that names no Document with a feature (and no feature
registered), or with a step whose first source id names no specification Step,
is not processed: the call does not return normally. -/
theorem pickle_unresolved_fails (F : Formatter) (p : Pickle)
    (h : p.SourceIds = []
      ∨ (p.SourceIds.head?).bind F.lookup.LookupScenario = none
      ∨ (F.jsonFeaturesByURI p.Uri = none
          ∧ (F.lookup.LookupGherkinDocument p.Uri).bind (fun doc => doc.Feature) = none)
      ∨ ∃ ps ∈ p.Steps, F.specStepOf ps = none) :
    isOk (F.processEnvelope (Envelope.pickle p)) = false := by
  cases hr : F.processEnvelope (Envelope.pickle p) with
  | error f => rfl
  | ok F' =>
    exfalso
    obtain ⟨l', hl, h2⟩ := processEnvelope_pickle hr
    obtain ⟨hdocs, hscs, hsteps, _⟩ := ProcessMessage_pickle_tables hl
    obtain ⟨self1, jf, fOld, sid, sc, st, bgs, idl, tags, hs1, _, _, _, hcase, _, _, hsid, hsc,
      hloop, _⟩ := processPickle_shape h2
    rcases h with h | h | ⟨hby, hdoc⟩ | ⟨ps, hps, hnone⟩
    · rw [h] at hsid
      simp at hsid
    · rw [hsid] at h
      have hsc2 : F.lookup.LookupScenario sid = some sc := by
        have : l'.LookupScenario sid = some sc := hsc
        simpa only [MessageLookup.LookupScenario, hscs] using this
      simp [hsc2] at h
    · rcases hcase with ⟨hby2, _⟩ | ⟨_, _, ⟨doc, feat, hd, hf, _⟩, _⟩
      · have hby3 : F.jsonFeaturesByURI p.Uri = some jf := hby2
        rw [hby] at hby3
        cases hby3
      · have hd2 : F.lookup.LookupGherkinDocument p.Uri = some doc := by
          have : l'.LookupGherkinDocument p.Uri = some doc := hd
          simpa only [MessageLookup.LookupGherkinDocument, hdocs] using this
        simp [hd2, hf] at hdoc
    · obtain ⟨⟨new, _, _, hall⟩, _⟩ := pickleStepsLoop_exact hloop
      obtain ⟨k, hk⟩ := List.mem_iff_getElem?.mp hps
      obtain ⟨step, js, hstep, _, _⟩ := hall k ps hk
      have hlk : self1.lookup = l' := hs1
      have : F.specStepOf ps = some step := by
        simp only [Formatter.specStepOf, MessageLookup.LookupStep, hlk] at hstep
        simpa only [Formatter.specStepOf, MessageLookup.LookupStep, hsteps] using hstep
      rw [hnone] at this
      cases this

/-- C11: on the four sample Pickles with a mandatory reference that does not
resolve (no source id, no Scenario, no Document, no specification Step), read
after records that were processed and before a Pickle that resolves, the run
ends in a run-time panic and nothing is written; the same run without the
faulty Pickle returns and writes its tree. -/
theorem unresolved_pickle_panics :
    faultOf (runAround (Envelope.pickle noSourcePickle)).result = some Fault.panic
      ∧ (runAround (Envelope.pickle noSourcePickle)).stdout = []
      ∧ faultOf (runAround (Envelope.pickle noScenarioPickle)).result = some Fault.panic
      ∧ (runAround (Envelope.pickle noScenarioPickle)).stdout = []
      ∧ faultOf (runAround (Envelope.pickle noDocumentPickle)).result = some Fault.panic
      ∧ (runAround (Envelope.pickle noDocumentPickle)).stdout = []
      ∧ faultOf (runAround (Envelope.pickle noStepPickle)).result = some Fault.panic
      ∧ (runAround (Envelope.pickle noStepPickle)).stdout = []
      ∧ faultOf (runAround Envelope.other).result = none
      ∧ (runAround Envelope.other).stdout.length = 1 := by
  refine ⟨?_, ?_, ?_, ?_, ?_, ?_, ?_, ?_, ?_, ?_⟩
  · decide
  · decide
  · decide
  · decide
  · decide
  · decide
  · decide
  · decide
  · decide
  · decide

/-- C12: on a Test-step-finished record whose test step is unknown, whose test
step is a hook without a Pickle Step, or that comes before the Pickle creating
its output step, the run ends in a run-time panic and nothing is written; the
same run without the faulty record returns and writes its tree. -/
theorem unresolved_finished_panics :
    faultOf (runAroundFinished (Envelope.testStepFinished unknownStepFinished)).result
        = some Fault.panic
      ∧ (runAroundFinished (Envelope.testStepFinished unknownStepFinished)).stdout = []
      ∧ faultOf (runAroundFinished (Envelope.testStepFinished hookFinished)).result
          = some Fault.panic
      ∧ (runAroundFinished (Envelope.testStepFinished hookFinished)).stdout = []
      ∧ faultOf runFinishedEarly.result = some Fault.panic
      ∧ runFinishedEarly.stdout = []
      ∧ faultOf (runAroundFinished Envelope.other).result = none
      ∧ (runAroundFinished Envelope.other).stdout.length = 1 := by
  decide

/-! ## Properties: the frame of a Document record -/

/-- A Document record with a feature (with or without examples) is processed,
and it leaves the list of features, the feature table, the store of steps and
the step table, hence the output tree, as they were; the row-index table is the
earlier one after the rounds over the example rows of the Document. -/
theorem document_frame (F : Formatter) (d : GherkinDocument) (feat : Feature)
    (hf : d.Feature = some feat) :
    ∃ F', F.processEnvelope (Envelope.gherkinDocument d) = .ok F'
      ∧ F'.jsonFeatures = F.jsonFeatures
      ∧ F'.jsonFeaturesByURI = F.jsonFeaturesByURI
      ∧ F'.jsonSteps = F.jsonSteps
      ∧ F'.jsonStepsByPickleStepId = F.jsonStepsByPickleStepId
      ∧ F'.outputTree = F.outputTree
      ∧ F'.exampleRowIndexById
          = (exampleBodiesOf d).foldl (fun m body => indexRows m 0 body)
              F.exampleRowIndexById := by
  have hstep : ∃ F', F.processEnvelope (Envelope.gherkinDocument d) = .ok F' := by
    simp only [Formatter.processEnvelope, MessageLookup.ProcessMessage, hf,
      Formatter.processGherkinDocument, deref, bind, Except.bind]
    exact ⟨_, rfl⟩
  obtain ⟨F', hF'⟩ := hstep
  obtain ⟨l', feat2, _, _, heq⟩ := processEnvelope_document hF'
  have hidx := processDocument_index hF'
  subst heq
  exact ⟨_, hF', rfl, rfl, rfl, rfl, rfl, hidx⟩

/-- A Document record without a feature ends the processing in a panic. -/
theorem document_without_feature_panics (F : Formatter) (d : GherkinDocument)
    (hf : d.Feature = none) :
    F.processEnvelope (Envelope.gherkinDocument d) = .error .panic := by
  simp only [Formatter.processEnvelope, MessageLookup.ProcessMessage, hf,
    Formatter.processGherkinDocument, deref, bind, Except.bind]

/-- C21: on the Document of an empty source file, which has no feature, read
after records that were processed and before a Pickle that resolves, the run
ends in a run-time panic and nothing is written, where the same run without
that Document returns and writes its tree; already the processing of the record
from the formatter reached before it ends in the panic. -/
theorem featureless_document_panics :
    faultOf (runAround (Envelope.gherkinDocument emptyDocument)).result = some Fault.panic
      ∧ (runAround (Envelope.gherkinDocument emptyDocument)).stdout = []
      ∧ faultOf ((finalOf (sampleHead ++ [Envelope.pickle samplePickle])).processEnvelope
          (Envelope.gherkinDocument emptyDocument)) = some Fault.panic
      ∧ emptyDocument.Feature = none
      ∧ faultOf (runAround Envelope.other).result = none
      ∧ (runAround Envelope.other).stdout.length = 1 := by
  refine ⟨?_, ?_, ?_, rfl, ?_, ?_⟩
  · decide
  · decide
  · decide
  · decide
  · decide

theorem sample_document_frame :
    (finalOf (sampleStream ++ [Envelope.gherkinDocument otherDocument])).outputTree
      = (finalOf sampleStream).outputTree
    ∧ isOk (Formatter.reset.readLoop
        ((sampleStream ++ [Envelope.gherkinDocument otherDocument]).map .msg)) = true := by
  decide

/-! ## Properties: the element of a test case -/

theorem allocSteps_eq (f : TestStep → jsonStep) (heap : List jsonStep) (steps : List TestStep) :
    allocSteps f heap steps
      = (List.range' heap.length steps.length, heap ++ steps.map f) := by
  induction steps generalizing heap with
  | nil => simp [allocSteps]
  | cons step rest ih =>
    simp only [allocSteps, ih, List.length_append, List.length_singleton, List.length_cons,
      List.map_cons, List.append_assoc, List.singleton_append]
    rw [List.range'_succ]
    simp

/-- The loop over the tags of a TestCase returns when every tag is set and
carries its `Location`, and then gives name and line of each tag, in order. -/
theorem testCaseTagsLoop_total (tags : List (Option Tag))
    (h : tags.all (fun tagPointer =>
      match tagPointer with
      | some tag => tag.Location.isSome
      | none => false) = true) :
    ∃ jts, testCaseTagsLoop tags = .ok jts
      ∧ List.Forall₂ (fun (tagPointer : Option Tag) (jt : jsonTag) =>
          ∃ tag location, tagPointer = some tag ∧ tag.Location = some location
            ∧ jt = { Line := location.Line, Name := tag.Name }) tags jts := by
  induction tags with
  | nil => exact ⟨[], rfl, List.Forall₂.nil⟩
  | cons tp rest ih =>
    simp only [List.all_cons, Bool.and_eq_true] at h
    obtain ⟨h1, h2⟩ := h
    obtain ⟨jts, hj, hall⟩ := ih h2
    cases tp with
    | none => cases h1
    | some tag =>
      cases hloc : tag.Location with
      | none => simp [hloc] at h1
      | some location =>
        refine ⟨{ Line := location.Line, Name := tag.Name } :: jts, ?_,
          List.Forall₂.cons ⟨tag, location, rfl, hloc, rfl⟩ hall⟩
        simp only [testCaseTagsLoop, newJsonTag, deref, hloc, hj, bind, Except.bind]

/-- The loop over the tags of a TestCase returns only when every tag is set and
carries its `Location`. -/
theorem testCaseTagsLoop_located (tags : List (Option Tag)) (jts : List jsonTag)
    (h : testCaseTagsLoop tags = .ok jts) :
    tags.all (fun tagPointer =>
      match tagPointer with
      | some tag => tag.Location.isSome
      | none => false) = true := by
  induction tags generalizing jts with
  | nil => rfl
  | cons tp rest ih =>
    simp only [testCaseTagsLoop, newJsonTag, bind_eq_ok, deref_eq_ok] at h
    obtain ⟨tag, htp, jt, ⟨loc, hl2, _⟩, restTags, hrest, _⟩ := h
    simp only [List.all_cons, Bool.and_eq_true]
    exact ⟨by rw [htp]; simp [hl2], ih restTags hrest⟩

/-- The function `TestCaseToJSON` returns exactly on the TestCases whose
pointers are set. -/
theorem TestCaseToJSON_isOk (TestStepToJSON : TestStep → jsonStep) (heap : List jsonStep)
    (testCase : TestCase) :
    isOk (TestCaseToJSON TestStepToJSON heap testCase) = testCase.located := by
  cases hl : testCase.located with
  | true =>
    simp only [TestCase.located, Bool.and_eq_true] at hl
    obtain ⟨⟨h1, h2⟩, h3⟩ := hl
    obtain ⟨jts, hj, _⟩ := testCaseTagsLoop_total testCase.Tags h3
    cases hsc : testCase.Scenario with
    | none => simp [hsc] at h1
    | some scenario =>
      cases hp : testCase.Pickle with
      | none => simp [hp] at h2
      | some pickle =>
        cases hloc : scenario.Location with
        | none => simp [hsc, hloc] at h1
        | some location =>
          simp only [TestCaseToJSON, hj, hsc, hp, hloc, deref, bind, Except.bind, isOk]
  | false =>
    cases hr : TestCaseToJSON TestStepToJSON heap testCase with
    | error f => rfl
    | ok r =>
      exfalso
      simp only [TestCaseToJSON, bind_eq_ok, deref_eq_ok] at hr
      obtain ⟨jts, hj, scenario, hsc, pickle, hp, location, hloc, _⟩ := hr
      have htags := testCaseTagsLoop_located testCase.Tags jts hj
      simp [TestCase.located, hsc, hp, hloc, htags] at hl

/-- C22, as amended: for every TestCase whose Scenario and Pickle are set, whose
Scenario carries its `Location` and whose tags are set and carry theirs (and
every function standing for `TestStepToJSON`), `TestCaseToJSON` returns exactly
one element; its type is "scenario", its id the slug of the feature name, a
semicolon and the slug of the scenario name, its name the name of the Pickle;
its steps are as many pointers as the TestCase has steps, the k-th addressing
the output step of the k-th step; its tags are the tags of the TestCase as name
and line, in the same order. -/
theorem TestCaseToJSON_element (TestStepToJSON : TestStep → jsonStep) (heap : List jsonStep)
    (testCase : TestCase) (hlocated : testCase.located = true) :
    ∃ (e : jsonFeatureElement) (heap1 : List jsonStep) (scenario : Scenario) (pickle : Pickle),
      TestCaseToJSON TestStepToJSON heap testCase = .ok ([e], heap1)
      ∧ testCase.Scenario = some scenario ∧ testCase.Pickle = some pickle
      ∧ e.Type_ = "scenario"
      ∧ e.ID = makeID testCase.FeatureName ++ ";" ++ makeID scenario.Name
      ∧ e.ID.data = testCase.FeatureName.data.map slugChar ++ ';'
          :: scenario.Name.data.map slugChar
      ∧ e.Name = pickle.Name
      ∧ e.Steps.length = testCase.Steps.length
      ∧ (∀ (k : Nat) (step : TestStep), testCase.Steps[k]? = some step →
          ∃ ptr, e.Steps[k]? = some ptr ∧ heap1[ptr]? = some (TestStepToJSON step))
      ∧ e.Steps.map (fun ptr => heap1[ptr]?)
          = testCase.Steps.map (fun step => some (TestStepToJSON step))
      ∧ List.Forall₂ (fun (tagPointer : Option Tag) (jt : jsonTag) =>
          ∃ tag location, tagPointer = some tag ∧ tag.Location = some location
            ∧ jt = { Line := location.Line, Name := tag.Name }) testCase.Tags e.Tags
      ∧ e.Tags.length = testCase.Tags.length
      ∧ heap1 = heap ++ testCase.Steps.map TestStepToJSON := by
  have hl := hlocated
  simp only [TestCase.located, Bool.and_eq_true] at hl
  obtain ⟨⟨h1, h2⟩, h3⟩ := hl
  obtain ⟨jts, hj, hall⟩ := testCaseTagsLoop_total testCase.Tags h3
  cases hsc : testCase.Scenario with
  | none => simp [hsc] at h1
  | some scenario =>
    cases hp : testCase.Pickle with
    | none => simp [hp] at h2
    | some pickle =>
      cases hloc : scenario.Location with
      | none => simp [hsc, hloc] at h1
      | some location =>
        have hget : ∀ (k : Nat) (step : TestStep), testCase.Steps[k]? = some step →
            (heap ++ testCase.Steps.map TestStepToJSON)[heap.length + k]?
              = some (TestStepToJSON step) := by
          intro k step hk
          rw [List.getElem?_append_right (by omega)]
          simp [List.getElem?_map, hk]
        refine ⟨{ ID := makeID testCase.FeatureName ++ ";" ++ makeID scenario.Name
                  Keyword := scenario.Keyword
                  Type_ := "scenario"
                  Name := pickle.Name
                  Description := scenario.Description
                  Line := location.Line
                  Steps := List.range' heap.length testCase.Steps.length
                  Tags := jts },
          heap ++ testCase.Steps.map TestStepToJSON, scenario, pickle, ?_, rfl, rfl, rfl, rfl,
          ?_, rfl, ?_, ?_, ?_, hall, ?_, rfl⟩
        · simp only [TestCaseToJSON, hj, hsc, hp, hloc, deref, bind, Except.bind,
            allocSteps_eq]
        · simp [String.data_append, makeID_data]
        · simp
        · intro k step hk
          have hlt : k < testCase.Steps.length := by
            rcases List.getElem?_eq_some_iff.mp hk with ⟨h, _⟩
            exact h
          refine ⟨heap.length + k, ?_, hget k step hk⟩
          simp [List.getElem?_range', hlt]
        · apply List.ext_getElem?
          intro k
          simp only [List.getElem?_map]
          cases hk : testCase.Steps[k]? with
          | none =>
            have hge : testCase.Steps.length ≤ k := by
              rcases Nat.lt_or_ge k testCase.Steps.length with h | h
              · rw [List.getElem?_eq_getElem h] at hk
                cases hk
              · exact h
            simp [List.getElem?_range', hge]
          | some step =>
            have hlt : k < testCase.Steps.length := by
              rcases List.getElem?_eq_some_iff.mp hk with ⟨h, _⟩
              exact h
            simp only [List.getElem?_range', hlt, Option.map_some', Nat.one_mul]
            rw [hget k step hk]
        · exact hall.length_eq.symm

/-- The element of the sample TestCase. -/
theorem TestCaseToJSON_element_witness :
    ∃ (e : jsonFeatureElement) (heap1 : List jsonStep) (scenario : Scenario) (pickle : Pickle),
      TestCaseToJSON sampleStepToJSON [] startedTestCase = .ok ([e], heap1)
      ∧ startedTestCase.Scenario = some scenario ∧ startedTestCase.Pickle = some pickle
      ∧ e.Type_ = "scenario"
      ∧ e.ID = makeID startedTestCase.FeatureName ++ ";" ++ makeID scenario.Name
      ∧ e.ID.data = startedTestCase.FeatureName.data.map slugChar ++ ';'
          :: scenario.Name.data.map slugChar
      ∧ e.Name = pickle.Name
      ∧ e.Steps.length = startedTestCase.Steps.length
      ∧ (∀ (k : Nat) (step : TestStep), startedTestCase.Steps[k]? = some step →
          ∃ ptr, e.Steps[k]? = some ptr ∧ heap1[ptr]? = some (sampleStepToJSON step))
      ∧ e.Steps.map (fun ptr => heap1[ptr]?)
          = startedTestCase.Steps.map (fun step => some (sampleStepToJSON step))
      ∧ List.Forall₂ (fun (tagPointer : Option Tag) (jt : jsonTag) =>
          ∃ tag location, tagPointer = some tag ∧ tag.Location = some location
            ∧ jt = { Line := location.Line, Name := tag.Name }) startedTestCase.Tags e.Tags
      ∧ e.Tags.length = startedTestCase.Tags.length
      ∧ heap1 = [] ++ startedTestCase.Steps.map sampleStepToJSON :=
  TestCaseToJSON_element sampleStepToJSON [] startedTestCase (by decide)

/-- C22 as stated fails: `TestCaseToJSON` ends in a run-time panic, and returns
no element, on the TestCase `&TestCase{FeatureName: "My Feature"}`, whose
Scenario is nil, and on the sample TestCase with its Pickle taken away, with a
Scenario without `Location`, with a nil tag and with a tag without
`Location`. -/
theorem TestCaseToJSON_panics_on_nil :
    faultOf (TestCaseToJSON sampleStepToJSON [] bareTestCase) = some Fault.panic
    ∧ faultOf (TestCaseToJSON sampleStepToJSON [] { startedTestCase with Pickle := none })
        = some Fault.panic
    ∧ faultOf (TestCaseToJSON sampleStepToJSON []
          { startedTestCase with Scenario := some { sampleScenario with Location := none } })
        = some Fault.panic
    ∧ faultOf (TestCaseToJSON sampleStepToJSON [] { startedTestCase with Tags := [none] })
        = some Fault.panic
    ∧ faultOf (TestCaseToJSON sampleStepToJSON []
          { startedTestCase with Tags := [some { Location := none, Name := "@smoke", Id := "tag-1" }] })
        = some Fault.panic := by
  decide

/-- The element and the store of the sample TestCase. -/
theorem sample_test_case_element :
    (TestCaseToJSON sampleStepToJSON [] startedTestCase).toOption.map
        (fun r => (r.1.map (fun e => (e.Type_, e.ID, e.Name, e.Steps, e.Tags)),
                   r.2.map (fun js => js.Name)))
      = some ([("scenario", "my-feature;eat-cucumber", "Eat cucumber", [0, 1, 2],
                [{ Line := 4, Name := "@smoke" }])],
              ["hook", "background", "scenario"]) := by
  rfl

end JsonFormatter
